import Mathlib

/-!
Verification development for the instruction-scheduling core of a tensor
compiler (`tinygrad/codegen/linearize.py`).

The shallow embedding below translates the source file's data model and
algorithms into executable Lean definitions:

* `UOp` — operation-graph nodes (immutable, structural identity).
  A node carries its kind (`op`), a numeric result type (`dtype`), the ordered
  operand list (`src`), an argument payload (`argn`, `argb`), and — for
  `BLOCK` nodes only — the basic-block payload (`rngs`, `lst`); on every other
  kind the last two fields are `[]`.
* `granges` — the scope resolver `get_ranges_in_parents`.
* `appendToBlock` / `blockUop` — the block builder, driven by a fuel-indexed
  fixed-point rewriting loop.
* `linearizeUop` — the linear scheduler.

`UOp`s in the source are hashed and ordered by a canonical structural tuple
(`UOp.tuplize`, defined outside the file under study); it is modelled here by
the canonical lexicographic comparison `ucmp` on all fields.  Runtime
`assert`s / uncaught exceptions in the source are modelled by the `LErr`
error type inside `Except`; unbounded `while` loops take an explicit fuel
argument, exhaustion of which is the distinguished error `LErr.fuelOut`.
-/

inductive OpK where
  | SINK | BLOCK | RANGE | IF | STORE | ASSIGN
  | DEFINE_ACC | DEFINE_GLOBAL | DEFINE_VAR | SPECIAL
  | CONST | LOAD | ALU | ENDRANGE | ENDIF
deriving DecidableEq, Repr

/-- Operation node.  For non-`BLOCK` kinds the fields `rngs`/`lst` are `[]`;
for `BLOCK` they hold the attached `BasicBlock(rngs, lst)` payload. -/
inductive UOp where
  | mk (op : OpK) (dtype : Nat) (src : List UOp) (argn : Nat) (argb : Bool) (rngs : List UOp) (lst : List UOp)

def UOp.op : UOp → OpK
  | .mk o _ _ _ _ _ _ => o

def UOp.dtype : UOp → Nat
  | .mk _ d _ _ _ _ _ => d

def UOp.src : UOp → List UOp
  | .mk _ _ s _ _ _ _ => s

def UOp.argn : UOp → Nat
  | .mk _ _ _ n _ _ _ => n

def UOp.argb : UOp → Bool
  | .mk _ _ _ _ b _ _ => b

def UOp.rngs : UOp → List UOp
  | .mk _ _ _ _ _ r _ => r

def UOp.lst : UOp → List UOp
  | .mk _ _ _ _ _ _ l => l

mutual

def UOp.beq : UOp → UOp → Bool
  | .mk o1 d1 s1 n1 b1 r1 l1, .mk o2 d2 s2 n2 b2 r2 l2 =>
    o1 == o2 && d1 == d2 && UOp.beqList s1 s2 && n1 == n2 && b1 == b2 &&
    UOp.beqList r1 r2 && UOp.beqList l1 l2

def UOp.beqList : List UOp → List UOp → Bool
  | [], [] => true
  | a :: as, b :: bs => UOp.beq a b && UOp.beqList as bs
  | _, _ => false

end

mutual

theorem UOp.beq_iff : ∀ a b : UOp, UOp.beq a b = true ↔ a = b
  | .mk o1 d1 s1 n1 b1 r1 l1, .mk o2 d2 s2 n2 b2 r2 l2 => by
    simp only [UOp.beq, Bool.and_eq_true, beq_iff_eq, UOp.mk.injEq]
    rw [UOp.beqList_iff s1 s2, UOp.beqList_iff r1 r2, UOp.beqList_iff l1 l2]
    tauto

theorem UOp.beqList_iff : ∀ a b : List UOp, UOp.beqList a b = true ↔ a = b
  | [], [] => by simp [UOp.beqList]
  | [], _ :: _ => by simp [UOp.beqList]
  | _ :: _, [] => by simp [UOp.beqList]
  | a :: as, b :: bs => by
    simp only [UOp.beqList, Bool.and_eq_true, List.cons.injEq]
    rw [UOp.beq_iff a b, UOp.beqList_iff as bs]

end

instance : DecidableEq UOp := fun a b => decidable_of_iff _ (UOp.beq_iff a b)

/-- Numeric code of an operation kind, standing in for the Python enum value
used as the first component of `UOp.tuplize`. -/
def OpK.code : OpK → Nat
  | .SINK => 0 | .BLOCK => 1 | .RANGE => 2 | .IF => 3 | .STORE => 4 | .ASSIGN => 5
  | .DEFINE_ACC => 6 | .DEFINE_GLOBAL => 7 | .DEFINE_VAR => 8 | .SPECIAL => 9
  | .CONST => 10 | .LOAD => 11 | .ALU => 12 | .ENDRANGE => 13 | .ENDIF => 14

mutual

/-- Modelled from the spec: `UOp.tuplize` (defined outside the file under
study) gives each node a canonical structural tuple "derived from kind, type,
operand identities, and argument", used for hashing and deterministic
ordering.  `ucmp` is the induced total lexicographic comparison. -/
def ucmp : UOp → UOp → Ordering
  | .mk o1 d1 s1 n1 b1 r1 l1, .mk o2 d2 s2 n2 b2 r2 l2 =>
    (compare o1.code o2.code).then <| (compare d1 d2).then <|
    (compare n1 n2).then <| (compare (cond b1 1 0) (cond b2 1 0)).then <|
    (lcmp s1 s2).then <| (lcmp r1 r2).then (lcmp l1 l2)

def lcmp : List UOp → List UOp → Ordering
  | [], [] => .eq
  | [], _ :: _ => .lt
  | _ :: _, [] => .gt
  | a :: as, b :: bs => (ucmp a b).then (lcmp as bs)

end

theorem thenEqEq {a b : Ordering} : a.then b = .eq ↔ a = .eq ∧ b = .eq := by
  cases a <;> cases b <;> simp [Ordering.then]

theorem Ordering.then_swap (a b : Ordering) : (a.then b).swap = a.swap.then b.swap := by
  cases a <;> cases b <;> simp [Ordering.then, Ordering.swap]

theorem compare_nat_swap (a b : Nat) : (compare a b).swap = compare b a := by
  rcases Nat.lt_trichotomy a b with h | h | h
  · simp [Nat.compare_eq_lt.2 h, Nat.compare_eq_gt.2 h, Ordering.swap]
  · simp [h, Nat.compare_eq_eq.2 rfl, Ordering.swap]
  · simp [Nat.compare_eq_gt.2 h, Nat.compare_eq_lt.2 h, Ordering.swap]

theorem OpK.code_inj : ∀ a b : OpK, a.code = b.code → a = b := by
  intro a b h
  cases a <;> cases b <;> first | rfl | simp [OpK.code] at h

mutual

theorem ucmp_eq_iff : ∀ a b : UOp, ucmp a b = .eq ↔ a = b
  | .mk o1 d1 s1 n1 b1 r1 l1, .mk o2 d2 s2 n2 b2 r2 l2 => by
    simp only [ucmp, thenEqEq, Nat.compare_eq_eq, UOp.mk.injEq]
    rw [lcmp_eq_iff s1 s2, lcmp_eq_iff r1 r2, lcmp_eq_iff l1 l2]
    constructor
    · rintro ⟨ho, hd, hn, hb, hs, hr, hl⟩
      refine ⟨OpK.code_inj _ _ ho, hd, hs, hn, ?_, hr, hl⟩
      cases b1 <;> cases b2 <;> simp_all
    · rintro ⟨ho, hd, hs, hn, hb, hr, hl⟩
      exact ⟨by rw [ho], hd, hn, by rw [hb], hs, hr, hl⟩

theorem lcmp_eq_iff : ∀ a b : List UOp, lcmp a b = .eq ↔ a = b
  | [], [] => by simp [lcmp]
  | [], _ :: _ => by simp [lcmp]
  | _ :: _, [] => by simp [lcmp]
  | a :: as, b :: bs => by
    simp only [lcmp, thenEqEq, List.cons.injEq]
    rw [ucmp_eq_iff a b, lcmp_eq_iff as bs]

end

mutual

theorem ucmp_swap : ∀ a b : UOp, (ucmp a b).swap = ucmp b a
  | .mk o1 d1 s1 n1 b1 r1 l1, .mk o2 d2 s2 n2 b2 r2 l2 => by
    simp only [ucmp, Ordering.then_swap, compare_nat_swap,
      lcmp_swap s1 s2, lcmp_swap r1 r2, lcmp_swap l1 l2]

theorem lcmp_swap : ∀ a b : List UOp, (lcmp a b).swap = lcmp b a
  | [], [] => by simp [lcmp, Ordering.swap]
  | [], _ :: _ => by simp [lcmp, Ordering.swap]
  | _ :: _, [] => by simp [lcmp, Ordering.swap]
  | a :: as, b :: bs => by
    simp only [lcmp, Ordering.then_swap, ucmp_swap a b, lcmp_swap as bs]

end

/-- `a` is placed no later than `b` in the canonical tuple order. -/
def ule (a b : UOp) : Bool := ucmp a b ≠ .gt

/-- Stable insertion into a `ule`-sorted list (helper for `usort`). -/
def uinsert (a : UOp) : List UOp → List UOp
  | [] => [a]
  | b :: bs => if ule a b then a :: b :: bs else b :: uinsert a bs

/-- Stable sort by the canonical tuple order, modelling Python's
`sorted(..., key=lambda x: x.tuplize)`. -/
def usort : List UOp → List UOp
  | [] => []
  | a :: as => uinsert a (usort as)

/-- Helper for `dedupF`: drop elements already in `seen`, keep first copies. -/
def dedupFGo : List UOp → List UOp → List UOp
  | [], _ => []
  | a :: as, seen => if a ∈ seen then dedupFGo as seen else a :: dedupFGo as (a :: seen)

/-- `tinygrad.helpers.dedup` (`list(dict.fromkeys(x))`): keep the first
occurrence of each element, preserving order. -/
def dedupF (l : List UOp) : List UOp := dedupFGo l []

mutual

/-- `get_ranges_in_parents` (linearize.py:29-41), minus the memoization
(which does not change the result of a pure function). -/
def granges : UOp → List UOp
  | .mk _ _ s _ _ _ _ => dedupF (usort (grangesSrc s))

/-- Body of the `for u in x.src` loop of `get_ranges_in_parents`:
concatenation of the per-operand contributions, in operand order.  Note the
source appends BOTH `(u,)` and the recursive `get_ranges_in_parents(u)` when
the operand `u` is a `RANGE`/`IF` (the two `if`s are not exclusive).  The
`assert u.src[0].op is Ops.DEFINE_ACC` under the `ASSIGN` case is a runtime
precondition of the source; on `ASSIGN` operand lists shorter than 2 the
source raises, here the contribution is `[]`. -/
def grangesSrc : List UOp → List UOp
  | [] => []
  | u :: rest =>
    (if u.op = .RANGE ∨ u.op = .IF then [u] else []) ++
    (if u.op = .STORE then []
     else if u.op = .ASSIGN then
       (match u with
        | .mk _ _ us _ _ _ _ => grangesAsn us)
     else granges u) ++
    grangesSrc rest

/-- The `ASSIGN` contribution: ranges in parents of operand 1, minus the
accumulator's reduction ranges `u.src[0].src[1:]`. -/
def grangesAsn : List UOp → List UOp
  | acc :: v :: _ => (granges v).filter (fun w => w ∉ acc.src.drop 1)
  | _ => []

end

/-- `DONT_PLACE_IN_BLOCK` (linearize.py:43): leaf kinds that always stay
external inputs of a block. -/
def DONT_PLACE_IN_BLOCK : List OpK :=
  [.RANGE, .CONST, .DEFINE_ACC, .DEFINE_GLOBAL, .DEFINE_VAR, .SPECIAL]

/-- Error kinds of the embedded pipeline: each constructor models one
`assert`/uncaught exception site of `linearize_uop`, plus fuel exhaustion of
the fuel-indexed loops. -/
inductive LErr where
  | fuelOut
  | notSink
  | childNotBlock
  | loopNotOpen
  | accNoRange
  | accRangeMissing
  | lastNotSink
deriving DecidableEq, Repr

/-- State of the `for u in x.src` loop of `append_to_block`
(linearize.py:44-66): accumulated `new_srcs`, `to_append`, the insertion
ordered side table `new_blocks`, and the `updated` flag. -/
structure ATBSt where
  newSrcs : List UOp
  toAppend : List UOp
  newBlocks : List (List UOp × List UOp)
  updated : Bool

/-- Group lookup into the `new_blocks` side table (defaultdict access). -/
def nbGet : List (List UOp × List UOp) → List UOp → List UOp
  | [], _ => []
  | (k', g) :: rest, k => if k' = k then g else nbGet rest k

/-- Append a member to a `new_blocks` group, creating the group at the end of
the insertion order if absent (Python dict insertion-order semantics). -/
def nbAppend : List (List UOp × List UOp) → List UOp → UOp → List (List UOp × List UOp)
  | [], k, u => [(k, [u])]
  | (k', g) :: rest, k, u =>
    if k' = k then (k', g ++ [u]) :: rest else (k', g) :: nbAppend rest k u

/-- The `for u in x.src` loop of `append_to_block` (linearize.py:51-66).
`brngs`/`blst` are the current block's `x.arg.rngs` / `x.arg.lst`. -/
def atbGo (children : UOp → List UOp) (forks : List UOp) (brngs blst : List UOp) :
    List UOp → ATBSt → ATBSt
  | [], st => st
  | u :: rest, st =>
    if u.op = .BLOCK then
      atbGo children forks brngs blst rest
        { st with
          updated := st.updated || !(nbGet st.newBlocks u.rngs).isEmpty,
          newBlocks := nbAppend st.newBlocks u.rngs u }
    else if u.op ∈ DONT_PLACE_IN_BLOCK ∨ ((children u).any (fun y => y ∉ blst) ∧ u ∉ forks) then
      atbGo children forks brngs blst rest { st with newSrcs := st.newSrcs ++ [u] }
    else if granges u = brngs then
      atbGo children forks brngs blst rest
        { st with
          newSrcs := st.newSrcs ++ u.src,
          toAppend := st.toAppend ++ [u],
          updated := true }
    else
      atbGo children forks brngs blst rest
        { st with newBlocks := nbAppend st.newBlocks (granges u) u, updated := true }

/-- Materialize one `new_blocks` group (linearize.py:68-73): a single
pre-existing `BLOCK` passes through; otherwise member blocks are flattened
and a fresh `BLOCK` is created over the group's merged sources. -/
def nbMaterialize (rng : List UOp) (grp : List UOp) : UOp :=
  UOp.mk .BLOCK 0 (dedupF ((grp.map UOp.src).flatten)) 0 false rng
    ((grp.map (fun y => if y.op = .BLOCK then y.lst else [y])).flatten)

/-- Fold the side table groups onto `new_srcs` in insertion order
(linearize.py:68-73). -/
def atbMaterialize : List (List UOp × List UOp) → List UOp → List UOp
  | [], acc => acc
  | (rng, grp) :: rest, acc =>
    match grp with
    | [b] =>
      if b.op = .BLOCK then atbMaterialize rest (acc ++ [b])
      else atbMaterialize rest (acc ++ [nbMaterialize rng grp])
    | _ => atbMaterialize rest (acc ++ [nbMaterialize rng grp])

/-- `append_to_block` (linearize.py:44-74). -/
def appendToBlock (children : UOp → List UOp) (forks : List UOp) (x : UOp) : Option UOp :=
  let st := atbGo children forks x.rngs x.lst x.src ⟨[], [], [], false⟩
  if !st.updated then none
  else
    some (UOp.mk .BLOCK 0 (dedupF (atbMaterialize st.newBlocks st.newSrcs)) 0 false
            x.rngs (st.toAppend ++ x.lst))

/-- The `make_basic_blocks` pattern matcher (linearize.py:76-79): wrap a
`SINK` into an empty-scope block; apply `append_to_block` at a `BLOCK`. -/
def makeBasicBlocks (children : UOp → List UOp) (forks : List UOp) (x : UOp) : Option UOp :=
  if x.op = .SINK then some (UOp.mk .BLOCK 0 x.src 0 false [] [x])
  else if x.op = .BLOCK then appendToBlock children forks x
  else none

mutual

/-- Modelled from the spec: `graph_rewrite` (defined outside the file under
study) drives pattern application to a fixed point; per the spec, "repeat a
local rewrite at every Basic Block node until no block changes in a full
pass".  One pass rewrites operands bottom-up and then applies the matcher
once at the rebuilt node. -/
def rewritePass (children : UOp → List UOp) (forks : List UOp) : UOp → UOp
  | .mk o d s n b r l =>
    let x := UOp.mk o d (rewriteList children forks s) n b r l
    match makeBasicBlocks children forks x with
    | some y => y
    | none => x

/-- Operand-wise bottom-up rewriting (helper of `rewritePass`). -/
def rewriteList (children : UOp → List UOp) (forks : List UOp) : List UOp → List UOp
  | [] => []
  | u :: us => rewritePass children forks u :: rewriteList children forks us

end

/-- Modelled from the spec: the fixed-point loop of `graph_rewrite`, with
explicit fuel (the spec argues the computation "always terminates", so fuel
exhaustion is a distinguished error, not silent truncation). -/
def graphRewrite : Nat → (UOp → List UOp) → List UOp → UOp → Except LErr UOp
  | 0, _, _, _ => .error .fuelOut
  | n + 1, ch, forks, u =>
    let u' := rewritePass ch forks u
    if u' = u then .ok u else graphRewrite n ch forks u'

/-- Children/in-degree discovery state of `get_children_dfs`
(linearize.py:81-90): visited keys in insertion (preorder) order, and the
per-node consumer lists in the exact order the source appends them. -/
structure ChMap where
  keys : List UOp
  ch : List (UOp × List UOp)

def chLookup : List (UOp × List UOp) → UOp → Option (List UOp)
  | [], _ => none
  | (k, v) :: rest, u => if k = u then some v else chLookup rest u

def chAppendEntry : List (UOp × List UOp) → UOp → UOp → List (UOp × List UOp)
  | [], _, _ => []
  | (k, v) :: rest, x, u =>
    if k = x then (k, v ++ [u]) :: rest else (k, v) :: chAppendEntry rest x u

mutual

/-- `get_children_dfs` (linearize.py:81-90).  The `srcs` dictionary computed
by the source is returned but never consumed by `linearize_uop`, so it is not
modelled; `in_degree[u]` always equals `len(u.src)` and is reconstructed
directly from the node. -/
def childDfs : UOp → ChMap → ChMap
  | u, m =>
    match u with
    | .mk o d s n b r l =>
      if (chLookup m.ch u).isSome then m
      else childDfsSrcs (.mk o d s n b r l) s
        { keys := m.keys ++ [u], ch := m.ch ++ [(u, [])] }

/-- The `for x in u.src` loop of `get_children_dfs`: recurse, then append the
consumer `u` to `children[x]`. -/
def childDfsSrcs : UOp → List UOp → ChMap → ChMap
  | _, [], m => m
  | u, x :: rest, m =>
    let m1 := childDfs x m
    childDfsSrcs u rest { keys := m1.keys, ch := chAppendEntry m1.ch x u }

end

/-- Consumer-list function over a computed `ChMap`. -/
def chFun (m : ChMap) : UOp → List UOp := fun u => (chLookup m.ch u).getD []

/-- All nodes reachable from `s` through `src` edges, including `s` itself
(`UOp.sparents`, defined outside the file under study, modelled as the key
set of a fresh children traversal). -/
def allNodes (s : UOp) : List UOp := (childDfs s ⟨[], []⟩).keys

/-- The fork-discovery scan of `block_uop` (linearize.py:102-108): every
non-`BLOCK`, non-leaf source of any `BLOCK` node in the graph. -/
def computeForks (s : UOp) : List UOp :=
  ((allNodes s).filter (fun b => b.op = .BLOCK)).flatMap
    (fun b => b.src.filter (fun u => u.op ≠ .BLOCK ∧ u.op ∉ DONT_PLACE_IN_BLOCK))

/-- The outer two-phase loop of `block_uop` (linearize.py:99-110): rewrite to
a fixed point, recompute the fork set, stop when it is empty. -/
def blockUopLoop (fuel : Nat) (ch : UOp → List UOp) : Nat → List UOp → UOp → Except LErr UOp
  | 0, _, _ => .error .fuelOut
  | n + 1, forks, sink =>
    match graphRewrite fuel ch forks sink with
    | .error e => .error e
    | .ok s =>
      let f := computeForks s
      if f = [] then .ok s else blockUopLoop fuel ch n f s

/-- `block_uop` (linearize.py:92-111). -/
def blockUop (fuel : Nat) (sink : UOp) : Except LErr UOp :=
  blockUopLoop fuel (chFun (childDfs sink ⟨[], []⟩)) fuel [] sink

/-- Scheduling priority (linearize.py:127-130): `CONST` is pushed with a
lower priority value (`-10`) than everything else (`0`); only the relative
order matters, so `0` versus `1` here. -/
def prio (u : UOp) : Nat := if u.op = .CONST then 0 else 1

/-- Heap key comparison on `(p, u.tuplize)` (the comparison "should never
make it all the way to u", and with structural identity it cannot, since
equal tuplize means equal node). -/
def keyLt (a b : UOp) : Bool :=
  prio a < prio b || (prio a = prio b && ucmp a b = Ordering.lt)

/-- `heapq.heappop`: extract the key-minimal element of the queue. -/
def pickMin : UOp → List UOp → UOp × List UOp
  | m, [] => (m, [])
  | m, x :: xs =>
    if keyLt x m then
      match pickMin x xs with
      | (r, rest) => (r, m :: rest)
    else
      match pickMin m xs with
      | (r, rest) => (r, x :: rest)

/-- The `for r in x.arg.rngs` loop (linearize.py:149-151): assert every scope
of the emitted block is currently open, and collect those absent from the
successor block `c` into `to_end`. -/
def toEndOf : List UOp → List UOp → List UOp → Except LErr (List UOp)
  | [], _, _ => .ok []
  | r :: rest, openL, crngs =>
    if r ∈ openL then
      match toEndOf rest openL crngs with
      | .error e => .error e
      | .ok t => .ok (if r ∈ crngs then t else r :: t)
    else .error .loopNotOpen

/-- Close instruction for a scope node (linearize.py:154). -/
def closeUOp (r : UOp) : UOp :=
  UOp.mk (if r.op = .RANGE then .ENDRANGE else .ENDIF) 0 [r] 0 false [] []

/-- The `for r in open_loops[::-1]` loop (linearize.py:152-155): walk a
reversed snapshot of the open-scope stack, emit a close for each scope in
`to_end`, and remove it from the live stack. -/
def closeBatch : List UOp → List UOp → List UOp → List UOp → List UOp × List UOp
  | [], _, uops, openL => (uops, openL)
  | r :: rest, te, uops, openL =>
    if r ∈ te then closeBatch rest te (uops ++ [closeUOp r]) (openL.erase r)
    else closeBatch rest te uops openL

/-- Per-successor handling on emitting a block (linearize.py:146-155). -/
def endChild (xr : List UOp) (c : UOp) (uops openL : List UOp) :
    Except LErr (List UOp × List UOp) :=
  if c.op = .BLOCK then
    match toEndOf xr openL c.rngs with
    | .error e => .error e
    | .ok te => .ok (closeBatch openL.reverse te uops openL)
  else .error .childNotBlock

/-- Fold `endChild` over all topological successors of the emitted block. -/
def endChildren (xr : List UOp) : List UOp → List UOp → List UOp →
    Except LErr (List UOp × List UOp)
  | [], uops, openL => .ok (uops, openL)
  | c :: cs, uops, openL =>
    match endChild xr c uops openL with
    | .error e => .error e
    | .ok (uops', openL') => endChildren xr cs uops' openL'

/-- First index of `a` in `l` (Python `list.index`, `None` meaning the
`ValueError` raise). -/
def idxOfU (a : UOp) : List UOp → Option Nat
  | [] => none
  | x :: xs => if x = a then some 0 else (idxOfU a xs).map (· + 1)

/-- `list.insert`: insert `a` at position `n` (append when `n` exceeds the
length, as in Python). -/
def insAt : Nat → UOp → List UOp → List UOp
  | _, a, [] => [a]
  | 0, a, l => a :: l
  | n + 1, a, x :: xs => x :: insAt n a xs

/-- Output positions of the `RANGE` operands of a `DEFINE_ACC`
(linearize.py:157): `[_uops.index(l) for l in x.src if l.op is Ops.RANGE]`. -/
def accIdxs (uops : List UOp) : List UOp → Except LErr (List Nat)
  | [] => .ok []
  | l :: rest =>
    if l.op = .RANGE then
      match idxOfU l uops with
      | none => .error .accRangeMissing
      | some i =>
        match accIdxs uops rest with
        | .error e => .error e
        | .ok t => .ok (i :: t)
    else accIdxs uops rest

/-- Emission of one popped node (linearize.py:141-161): blocks splice their
instruction list and close scopes towards each successor; a `DEFINE_ACC` is
spliced in before the earliest `RANGE` among its operands; a bare `RANGE` is
pushed onto the open stack; everything else is appended. -/
def schedEmit (ch : UOp → List UOp) (x : UOp) (uops openL : List UOp) :
    Except LErr (List UOp × List UOp) :=
  if x.op = .BLOCK then
    endChildren x.rngs (ch x) (uops ++ x.lst) (openL ++ x.lst.filter (fun y => y.op = .IF))
  else if x.op = .DEFINE_ACC then
    match accIdxs uops x.src with
    | .error e => .error e
    | .ok idxs =>
      match idxs.min? with
      | none => .error .accNoRange
      | some idx => .ok (insAt idx x uops, openL)
  else
    .ok (uops ++ [x], if x.op = .RANGE then openL ++ [x] else openL)

/-- In-degree decrement over the popped node's consumers
(linearize.py:162-164), collecting newly ready nodes onto the queue. -/
def decPush : (UOp → Nat) → List UOp → List UOp → (UOp → Nat) × List UOp
  | indeg, queue, [] => (indeg, queue)
  | indeg, queue, u :: rest =>
    let d := indeg u - 1
    decPush (fun v => if v = u then d else indeg v)
      (if d = 0 then queue ++ [u] else queue) rest

/-- The `while queue` scheduling loop (linearize.py:138-164). -/
def schedLoop (ch : UOp → List UOp) :
    Nat → List UOp → (UOp → Nat) → List UOp → List UOp →
    Except LErr (List UOp × List UOp)
  | 0, _, _, _, _ => .error .fuelOut
  | _ + 1, [], _, uops, openL => .ok (uops, openL)
  | n + 1, q :: qs, indeg, uops, openL =>
    match pickMin q qs with
    | (x, rest) =>
      match schedEmit ch x uops openL with
      | .error e => .error e
      | .ok (uops', openL') =>
        match decPush indeg rest (ch x) with
        | (indeg', queue') => schedLoop ch n queue' indeg' uops' openL'

/-- `linearize_uop` (linearize.py:113-171).  The optional `type_verify` pass
is an external collaborator (spec §1/§6: out of scope, specified only as a
hook), so the default skipping path is modelled. -/
def linearizeUop (fuel : Nat) (sink : UOp) : Except LErr (List UOp) :=
  if sink.op ≠ .SINK then .error .notSink
  else
    match blockUop fuel sink with
    | .error e => .error e
    | .ok sinkBB =>
      let m := childDfs sinkBB ⟨[], []⟩
      let queue := m.keys.filter (fun u => u.src.length = 0)
      match schedLoop (chFun m) fuel queue (fun u => u.src.length) [] [] with
      | .error e => .error e
      | .ok (uops, _) =>
        match uops.getLast? with
        | some last => if last.op = .SINK then .ok uops.dropLast else .error .lastNotSink
        | none => .error .lastNotSink

/-- Success test on a pipeline result. -/
def isOkE : Except LErr (List UOp) → Bool
  | .ok _ => true
  | .error _ => false

/-- `BasicBlock` (linearize.py:10-27) as a standalone value: scope list
(`rngs`, outermost first) and member list (`lst`), equal iff both fields
match structurally. -/
structure BasicBlock where
  rngs : List UOp
  lst : List UOp
deriving DecidableEq

/-- `BasicBlock.__lt__` (linearize.py:22-24): `False` whenever the scope
lists are equal (the member-list comparison is commented out in the source);
otherwise the tuplize comparison of the scope lists. -/
def blt (a b : BasicBlock) : Bool :=
  if a.rngs = b.rngs then false else lcmp a.rngs b.rngs == Ordering.lt

/-! ### Concrete input graphs (test fixtures) -/

def cN (n : Nat) : UOp := .mk .CONST 0 [] n false [] []
def rgN (n : Nat) (lo hi : UOp) : UOp := .mk .RANGE 0 [lo, hi] n true [] []
def gblN (n : Nat) : UOp := .mk .DEFINE_GLOBAL 0 [] n false [] []
def aluN (n : Nat) (s : List UOp) : UOp := .mk .ALU 0 s n false [] []
def loadN (n : Nat) (s : List UOp) : UOp := .mk .LOAD 0 s n false [] []
def storeN (n : Nat) (s : List UOp) : UOp := .mk .STORE 0 s n false [] []
def sinkN (s : List UOp) : UOp := .mk .SINK 0 s 0 false [] []
def accN (n : Nat) (s : List UOp) : UOp := .mk .DEFINE_ACC 0 s n false [] []
def assignN (n : Nat) (s : List UOp) : UOp := .mk .ASSIGN 0 s n false [] []
def ifN (n : Nat) (s : List UOp) : UOp := .mk .IF 0 s n false [] []

/-- Simple-chain scenario: one `RANGE` wrapping a `LOAD`, an `ALU` and a
`STORE`, feeding the `SINK`. -/
def chC0 : UOp := cN 0
def chC10 : UOp := cN 10
def chR : UOp := rgN 100 chC0 chC10
def chG : UOp := gblN 0
def chLd : UOp := loadN 0 [chG, chR]
def chAlu : UOp := aluN 0 [chLd, chC10]
def chSt : UOp := storeN 0 [chG, chAlu]
def chainSink : UOp := sinkN [chSt]

/-- Accumulator graph whose `DEFINE_ACC` has one `RANGE` operand and one
`ALU` operand: `DEFINE_ACC` is spliced in before the `RANGE` and hence also
before the `ALU` operand. -/
def agC0 : UOp := cN 0
def agC10 : UOp := cN 10
def agR : UOp := rgN 100 agC0 agC10
def agG : UOp := gblN 0
def agV : UOp := aluN 7 [agC0, agC0]
def agAcc : UOp := accN 0 [agV, agR]
def agAdd : UOp := aluN 0 [agAcc, agC10]
def agAsn : UOp := assignN 0 [agAcc, agAdd]
def agSt : UOp := storeN 0 [agG, agAsn]
def accSink : UOp := sinkN [agSt]
def accOut : List UOp := (linearizeUop 40 accSink).toOption.getD []

/-- Two accumulators updated under the same `RANGE`: both are spliced in
before the `RANGE`, so the first-scheduled one is no longer immediately
before it. -/
def taC0 : UOp := cN 0
def taC10 : UOp := cN 10
def taR : UOp := rgN 100 taC0 taC10
def taG : UOp := gblN 0
def taAcc1 : UOp := accN 1 [taC0, taR]
def taAcc2 : UOp := accN 2 [taC0, taR]
def taAdd1 : UOp := aluN 1 [taAcc1, taC10]
def taAdd2 : UOp := aluN 2 [taAcc2, taC10]
def taAsn1 : UOp := assignN 1 [taAcc1, taAdd1]
def taAsn2 : UOp := assignN 2 [taAcc2, taAdd2]
def taSt : UOp := storeN 0 [taG, taAsn1, taAsn2]
def twoAccSink : UOp := sinkN [taSt]
def twoAccOut : List UOp := (linearizeUop 40 twoAccSink).toOption.getD []

/-- A `RANGE` consumed directly by the `SINK`: it is opened during
scheduling but no block carries it, so it is never closed. -/
def brR : UOp := rgN 100 (cN 0) (cN 10)
def bareRangeSink : UOp := sinkN [brR]
def bareRangeOut : List UOp := (linearizeUop 40 bareRangeSink).toOption.getD []

/-- Fork-probe graph: after the first rewrite fixed point the operation
`fkU` remains a pending source of exactly one block, yet is put into the
recomputed fork set. -/
def fkC0 : UOp := cN 0
def fkC1 : UOp := cN 1
def fkG : UOp := gblN 0
def fkR : UOp := rgN 100 fkC0 fkC1
def fkU : UOp := aluN 10 [fkC0, fkC0]
def fkMp : UOp := aluN 11 [fkU, fkC1]
def fkY : UOp := aluN 12 [fkU, fkC0]
def fkM : UOp := aluN 13 [fkY, fkC1]
def fkZ : UOp := storeN 0 [fkG, fkY, fkR]
def forkSink : UOp := sinkN [fkM, fkMp, fkZ]

/-- The first-round rewrite fixed point of the fork-probe graph (fork set
still empty), as `block_uop` computes it before its first fork scan. -/
def forkFix : UOp :=
  (graphRewrite 40 (chFun (childDfs forkSink ⟨[], []⟩)) [] forkSink).toOption.getD forkSink

/-- A `RANGE` whose own start operand lies inside another `RANGE`: the scope
resolver result for a consumer of the inner `RANGE` also picks up the outer
one. -/
def nrInner : UOp := rgN 1 (cN 0) (cN 10)
def nrOuter : UOp := rgN 2 nrInner (cN 10)
def nrX : UOp := aluN 0 [nrOuter]

/-- Blocks with equal scope lists but different members (for the block
ordering claims). -/
def bbL0 : BasicBlock := ⟨[], [cN 0]⟩
def bbL1 : BasicBlock := ⟨[], [cN 1]⟩
def bbR : BasicBlock := ⟨[rgN 5 (cN 0) (cN 1)], []⟩
def bbE : BasicBlock := ⟨[], []⟩

/-! ### Membership lemmas for the scope resolver -/

theorem mem_uinsert {a b : UOp} {l : List UOp} : a ∈ uinsert b l ↔ a = b ∨ a ∈ l := by
  induction l with
  | nil => simp [uinsert]
  | cons c cs ih =>
    by_cases h : ule b c = true
    · simp [uinsert, h]
    · simp only [uinsert, if_neg h, List.mem_cons, ih]
      tauto

theorem mem_usort {a : UOp} {l : List UOp} : a ∈ usort l ↔ a ∈ l := by
  induction l with
  | nil => simp [usort]
  | cons c cs ih => simp [usort, mem_uinsert, ih]

theorem mem_dedupFGo {a : UOp} {l seen : List UOp} :
    a ∈ dedupFGo l seen ↔ a ∈ l ∧ a ∉ seen := by
  induction l generalizing seen with
  | nil => simp [dedupFGo]
  | cons c cs ih =>
    by_cases h : c ∈ seen
    · rw [dedupFGo, if_pos h, ih]
      constructor
      · rintro ⟨h1, h2⟩
        exact ⟨List.mem_cons_of_mem _ h1, h2⟩
      · rintro ⟨h1, h2⟩
        rcases List.mem_cons.1 h1 with rfl | h1
        · exact absurd h h2
        · exact ⟨h1, h2⟩
    · rw [dedupFGo, if_neg h]
      constructor
      · intro hm
        rcases List.mem_cons.1 hm with rfl | hm
        · exact ⟨List.mem_cons_self _ _, h⟩
        · have := ih.1 hm
          refine ⟨List.mem_cons_of_mem _ this.1, fun hs => this.2 (List.mem_cons_of_mem _ hs)⟩
      · rintro ⟨h1, h2⟩
        rcases List.mem_cons.1 h1 with rfl | h1
        · exact List.mem_cons_self _ _
        · by_cases hac : a = c
          · subst hac
            exact List.mem_cons_self _ _
          · exact List.mem_cons_of_mem _ (ih.2 ⟨h1, by simp [hac, h2]⟩)

theorem mem_dedupF {a : UOp} {l : List UOp} : a ∈ dedupF l ↔ a ∈ l := by
  simp [dedupF, mem_dedupFGo]

theorem mem_granges {a x : UOp} : a ∈ granges x ↔ a ∈ grangesSrc x.src := by
  cases x with
  | mk o d s n b r l => rw [granges] ; simp [UOp.src, mem_dedupF, mem_usort]

theorem grangesSrc_cons (u : UOp) (rest : List UOp) :
    grangesSrc (u :: rest) =
    (if u.op = .RANGE ∨ u.op = .IF then [u] else []) ++
    (if u.op = .STORE then []
     else if u.op = .ASSIGN then
       (match u with
        | .mk _ _ us _ _ _ _ => grangesAsn us)
     else granges u) ++
    grangesSrc rest := by
  cases u with
  | mk o d us n b r l => rfl

theorem self_mem_grangesSrc {u : UOp} {l : List UOp} (hl : u ∈ l)
    (hop : u.op = OpK.RANGE ∨ u.op = OpK.IF) : u ∈ grangesSrc l := by
  induction l with
  | nil => cases hl
  | cons c cs ih =>
    rw [grangesSrc_cons]
    rcases List.mem_cons.1 hl with rfl | hl
    · simp [if_pos hop]
    · simp [ih hl]

theorem granges_sub_grangesSrc {u v : UOp} {l : List UOp} (hl : u ∈ l)
    (hop : u.op = OpK.RANGE ∨ u.op = OpK.IF) (hv : v ∈ granges u) : v ∈ grangesSrc l := by
  induction l with
  | nil => cases hl
  | cons c cs ih =>
    rw [grangesSrc_cons]
    rcases List.mem_cons.1 hl with rfl | hl
    · have h1 : ¬ u.op = OpK.STORE := by rcases hop with h | h <;> simp [h]
      have h2 : ¬ u.op = OpK.ASSIGN := by rcases hop with h | h <;> simp [h]
      simp [if_neg h1, if_neg h2, hv]
    · simp [ih hl]

/-! ### Claim theorems -/

/-- C6 counterexample: the claim says a `RANGE` operand `u` contributes
itself "but none of u's own enclosing scopes"; here `nrOuter ∈ nrX.src` is a
`RANGE`, `nrInner` is one of `nrOuter`'s own enclosing scopes
(`nrInner ∈ granges nrOuter`), and yet `nrInner` flows into
`granges nrX`. -/
theorem C6_counterexample :
    nrOuter ∈ nrX.src ∧ nrOuter.op = OpK.RANGE ∧ nrInner ∈ granges nrOuter ∧
    nrInner ≠ nrOuter ∧ nrInner ∈ granges nrX := by decide

/-- C6 (amended): for every node `x` and every `RANGE`/`IF` operand `u` of
`x`, the scope resolver result for `x` contains `u` itself AND additionally
all of `u`'s own recursively computed enclosing scopes — the recursion does
not truncate at a `RANGE`/`IF` operand. -/
theorem C6_theorem (x u : UOp) (hu : u ∈ x.src)
    (hop : u.op = OpK.RANGE ∨ u.op = OpK.IF) :
    u ∈ granges x ∧ ∀ v ∈ granges u, v ∈ granges x := by
  refine ⟨mem_granges.2 (self_mem_grangesSrc hu hop), fun v hv => ?_⟩
  exact mem_granges.2 (granges_sub_grangesSrc hu hop hv)

/-- C6 witness: `C6_theorem` applied to the concrete graph `nrX`. -/
theorem C6_witness : nrOuter ∈ granges nrX ∧ nrInner ∈ granges nrX :=
  ⟨(C6_theorem nrX nrOuter (by decide) (Or.inl rfl)).1,
   (C6_theorem nrX nrOuter (by decide) (Or.inl rfl)).2 nrInner (by decide)⟩

/-- C8 counterexample: two distinct blocks with equal scope lists are not
ordered at all — `__lt__` returns `False` both ways, so the tie between
distinct blocks is NOT broken. -/
theorem C8_counterexample :
    bbL0 ≠ bbL1 ∧ blt bbL0 bbL1 = false ∧ blt bbL1 bbL0 = false := by decide

/-- C8 (amended): blocks with distinct scope lists are strictly totally
ordered by the structural (tuplize) comparison of their scope lists — exactly
one of the two comparisons holds; blocks with equal scope lists compare as
not-less in both directions even when their member lists differ (ties are not
broken). -/
theorem C8_theorem (a b : BasicBlock) :
    (a.rngs = b.rngs → blt a b = false) ∧
    (a.rngs ≠ b.rngs →
      (blt a b = true ∨ blt b a = true) ∧ ¬(blt a b = true ∧ blt b a = true)) := by
  constructor
  · intro h
    simp [blt, h]
  · intro h
    have hba : ¬ b.rngs = a.rngs := fun e => h e.symm
    have hswap := lcmp_swap a.rngs b.rngs
    rcases hlv : lcmp a.rngs b.rngs with _ | _ | _
    · rw [hlv] at hswap
      simp only [blt, if_neg h, if_neg hba, hlv, ← hswap]
      decide
    · exact absurd ((lcmp_eq_iff _ _).1 hlv) h
    · rw [hlv] at hswap
      simp only [blt, if_neg h, if_neg hba, hlv, ← hswap]
      decide

/-- C8 witness: `C8_theorem` applied to concrete blocks. -/
theorem C8_witness :
    blt bbR bbR = false ∧ (blt bbR bbE = true ∨ blt bbE bbR = true) :=
  ⟨(C8_theorem bbR bbR).1 rfl, ((C8_theorem bbR bbE).2 (by decide)).1⟩

/-- Blocks that consume an operation `u` (from the claim's words): `BLOCK`
nodes of the graph that reference `u` as a direct source or as an operand of
one of their member operations. -/
def blocksConsuming (s u : UOp) : List UOp :=
  (allNodes s).filter
    (fun b => b.op == OpK.BLOCK && decide (u ∈ b.src ∨ u ∈ (b.lst.map UOp.src).flatten))

/-- C5 counterexample: at the first rewrite fixed point of `forkSink`
(computed exactly as `block_uop` does before its first fork scan), the
operation `fkU` is consumed by exactly one Basic Block, yet the recomputed
fork set contains it — the scan adds every pending non-leaf source, not only
multi-block ones. -/
theorem C5_counterexample :
    (graphRewrite 40 (chFun (childDfs forkSink ⟨[], []⟩)) [] forkSink).toOption
      = some forkFix ∧
    fkU ∈ computeForks forkFix ∧
    (blocksConsuming forkFix fkU).length = 1 := by decide

/-- C5 (amended): the fork set recomputed after a rewrite fixed point
contains exactly the non-`BLOCK`, non-leaf operations that remain a direct
source of at least one Basic Block — regardless of how many distinct blocks
consume them. -/
theorem C5_theorem (s u : UOp) :
    u ∈ computeForks s ↔
      u.op ≠ OpK.BLOCK ∧ u.op ∉ DONT_PLACE_IN_BLOCK ∧
      ∃ b ∈ allNodes s, b.op = OpK.BLOCK ∧ u ∈ b.src := by
  simp only [computeForks, List.mem_flatMap, List.mem_filter, decide_eq_true_eq]
  tauto

/-- C1 counterexample: in the output for `accSink` (a well-formed graph:
`SINK` root, finite operand closure), the `DEFINE_ACC` node sits at position
2 while its operands `agR` (a `RANGE`) and `agV` (an `ALU`) first occur at
positions 3 and 5 — an operand does not appear earlier than its consumer. -/
theorem C1_counterexample :
    accSink.op = OpK.SINK ∧
    (linearizeUop 40 accSink).toOption = some accOut ∧
    agR ∈ agAcc.src ∧ agV ∈ agAcc.src ∧
    idxOfU agAcc accOut = some 2 ∧ idxOfU agR accOut = some 3 ∧
    idxOfU agV accOut = some 5 := by decide

/-- C7 counterexample: with two `DEFINE_ACC`s sharing the same (unique)
`RANGE` operand, the first-scheduled one (`taAcc1`, position 2) is not placed
immediately before that `RANGE` (position 4): the later-scheduled `taAcc2`
sits between them at position 3. -/
theorem C7_counterexample :
    (linearizeUop 40 twoAccSink).toOption = some twoAccOut ∧
    taAcc1.src = [taC0, taR] ∧ taR.op = OpK.RANGE ∧ taC0.op = OpK.CONST ∧
    idxOfU taAcc1 twoAccOut = some 2 ∧ idxOfU taR twoAccOut = some 4 ∧
    twoAccOut.get? 3 = some taAcc2 := by decide

/-- C2 counterexample: on the well-formed input `bareRangeSink` the returned
sequence contains one scope-opening node (`brR`, a `RANGE`) and no close
instruction at all — the open and close multisets differ. -/
theorem C2_counterexample :
    bareRangeSink.op = OpK.SINK ∧
    (linearizeUop 40 bareRangeSink).toOption = some bareRangeOut ∧
    bareRangeOut.filter (fun u => u.op == OpK.RANGE || u.op == OpK.IF) = [brR] ∧
    bareRangeOut.filter (fun u => u.op == OpK.ENDRANGE || u.op == OpK.ENDIF) = [] := by
  decide

/-- C9 counterexample: scheduling `bareRangeSink` ends with the `RANGE`
scope still open, yet `linearize_uop` returns normally — scopes left open
when the queue empties are silently dropped, not surfaced as an error. -/
theorem C9_counterexample :
    isOkE (linearizeUop 40 bareRangeSink) = true ∧
    brR ∈ bareRangeOut ∧ brR.op = OpK.RANGE ∧
    (∀ e ∈ bareRangeOut, e.op ≠ OpK.ENDRANGE ∧ e.op ≠ OpK.ENDIF) := by decide

/-- C3: the linearizer is a pure function of its input graph — structurally
identical inputs (equal `UOp` values, since identity is structural) produce
identical output sequences on every run. -/
theorem C3_theorem (fuel : Nat) (g h : UOp) (e : g = h) :
    linearizeUop fuel g = linearizeUop fuel h := by rw [e]

/-- C3 witness: `C3_theorem` applied to the simple-chain scenario graph. -/
theorem C3_witness : linearizeUop 40 chainSink = linearizeUop 40 chainSink :=
  C3_theorem 40 chainSink chainSink rfl

/-- C9 (amended): the close-side check is real — whenever one of the emitted
block's recorded scopes is missing from the open-scopes stack, the scheduler
raises the assertion-style error `loopNotOpen` (linearize.py:150); scopes
left open after the queue empties are not checked (see the counterexample:
only the trailing sink marker is asserted). -/
theorem C9_theorem (xr openL crngs : List UOp) (h : ∃ r ∈ xr, r ∉ openL) :
    toEndOf xr openL crngs = .error .loopNotOpen := by
  induction xr with
  | nil =>
    rcases h with ⟨r, hr, _⟩
    cases hr
  | cons a rest ih =>
    rcases h with ⟨r, hr, hro⟩
    by_cases ha : a ∈ openL
    · have hrest : ∃ r ∈ rest, r ∉ openL := by
        rcases List.mem_cons.1 hr with rfl | hr2
        · exact absurd ha hro
        · exact ⟨r, hr2, hro⟩
      simp only [toEndOf, if_pos ha, ih hrest]
    · simp only [toEndOf, if_neg ha]

/-- C9 witness: `C9_theorem` at a concrete unopened scope. -/
theorem C9_witness : toEndOf [brR] [] [] = .error .loopNotOpen :=
  C9_theorem [brR] [] [] ⟨brR, by simp, by simp⟩

/-! ### Reachability through `src` edges -/

/-- `v` lies in the transitive operand closure of `u` (including `u`). -/
inductive Reach : UOp → UOp → Prop
  | refl (u : UOp) : Reach u u
  | step {u w v : UOp} (hw : w ∈ u.src) (h : Reach w v) : Reach u v

mutual

/-- Executable reachable-node list (with repetitions): the node followed by
the reachable lists of its operands. -/
def reachL : UOp → List UOp
  | .mk o d s n b r l => .mk o d s n b r l :: reachLs s

def reachLs : List UOp → List UOp
  | [] => []
  | u :: us => reachL u ++ reachLs us

end

theorem reachL_cons (u : UOp) : reachL u = u :: reachLs u.src := by
  cases u with
  | mk o d s n b r l => rfl

theorem mem_reachLs {z : UOp} {l : List UOp} :
    z ∈ reachLs l ↔ ∃ w ∈ l, z ∈ reachL w := by
  induction l with
  | nil => simp [reachLs]
  | cons a as ih =>
    simp only [reachLs, List.mem_append, ih, List.mem_cons]
    constructor
    · rintro (h | ⟨w, hw, hz⟩)
      · exact ⟨a, Or.inl rfl, h⟩
      · exact ⟨w, Or.inr hw, hz⟩
    · rintro ⟨w, rfl | hw, hz⟩
      · exact Or.inl hz
      · exact Or.inr ⟨w, hw, hz⟩

theorem UOp.sizeOf_mem_src_lt {w u : UOp} (h : w ∈ u.src) : sizeOf w < sizeOf u := by
  cases u with
  | mk o d s n b r l =>
    simp only [UOp.src] at h
    have := List.sizeOf_lt_of_mem h
    simp
    omega

theorem mem_reachL_reach : ∀ u z : UOp, z ∈ reachL u → Reach u z
  | .mk o d s n b r l, z, h => by
    rw [reachL_cons] at h
    rcases List.mem_cons.1 h with rfl | h2
    · exact Reach.refl _
    · rcases mem_reachLs.1 h2 with ⟨w, hw, hz⟩
      exact Reach.step hw (mem_reachL_reach w z hz)
termination_by u => sizeOf u
decreasing_by
  exact UOp.sizeOf_mem_src_lt hw

theorem reach_iff_mem_reachL {u z : UOp} : Reach u z ↔ z ∈ reachL u := by
  constructor
  · intro h
    induction h with
    | refl v => rw [reachL_cons] ; exact List.mem_cons_self _ _
    | step hw _ ih =>
      rw [reachL_cons]
      exact List.mem_cons_of_mem _ (mem_reachLs.2 ⟨_, hw, ih⟩)
  · exact mem_reachL_reach u z

theorem sizeOf_le_of_reach {u z : UOp} (h : Reach u z) : sizeOf z ≤ sizeOf u := by
  induction h with
  | refl v => exact Nat.le_refl _
  | step hw _ ih => exact Nat.le_of_lt (Nat.lt_of_le_of_lt ih (UOp.sizeOf_mem_src_lt hw))

/-- Original (upstream) operation node: none of the constructs the Block
Builder or the Scheduler introduce, and with empty block payload fields. -/
def Orig (z : UOp) : Prop :=
  z.op ≠ OpK.BLOCK ∧ z.op ≠ OpK.SINK ∧ z.op ≠ OpK.ENDRANGE ∧ z.op ≠ OpK.ENDIF ∧
  z.rngs = [] ∧ z.lst = []

instance (z : UOp) : Decidable (Orig z) := by
  unfold Orig ; infer_instance

/-- Every node of the operand closure of `u` is an original operation. -/
def OrigTree (u : UOp) : Prop := ∀ z, Reach u z → Orig z

theorem origTree_of_list {u : UOp} (h : ∀ z ∈ reachL u, Orig z) : OrigTree u :=
  fun z hz => h z (reach_iff_mem_reachL.1 hz)

theorem origTree_src {u w : UOp} (h : OrigTree u) (hw : w ∈ u.src) : OrigTree w :=
  fun z hz => h z (Reach.step hw hz)

theorem rewriteList_nil (ch : UOp → List UOp) (fk : List UOp) :
    rewriteList ch fk [] = [] := rfl

theorem rewriteList_cons (ch : UOp → List UOp) (fk : List UOp) (u : UOp) (us : List UOp) :
    rewriteList ch fk (u :: us) = rewritePass ch fk u :: rewriteList ch fk us := by
  cases u with
  | mk o d s n b r l => rfl

theorem rewritePass_def (ch : UOp → List UOp) (fk : List UOp)
    (o : OpK) (d : Nat) (s : List UOp) (n : Nat) (b : Bool) (r l : List UOp) :
    rewritePass ch fk (.mk o d s n b r l) =
    (match makeBasicBlocks ch fk (.mk o d (rewriteList ch fk s) n b r l) with
     | some y => y
     | none => .mk o d (rewriteList ch fk s) n b r l) := rfl

mutual

theorem rewritePass_fix : ∀ (u : UOp), OrigTree u →
    ∀ (ch : UOp → List UOp) (fk : List UOp), rewritePass ch fk u = u
  | .mk o d s n b r l, h, ch, fk => by
    have horig := h _ (Reach.refl _)
    have hs : rewriteList ch fk s = s :=
      rewriteList_fix s (fun w hw => origTree_src h (by simpa [UOp.src] using hw)) ch fk
    rw [rewritePass_def, hs]
    have h1 : (UOp.mk o d s n b r l).op ≠ OpK.SINK := horig.2.1
    have h2 : (UOp.mk o d s n b r l).op ≠ OpK.BLOCK := horig.1
    simp only [makeBasicBlocks, UOp.op] at h1 h2 ⊢
    rw [if_neg h1, if_neg h2]

theorem rewriteList_fix : ∀ (l : List UOp), (∀ w ∈ l, OrigTree w) →
    ∀ (ch : UOp → List UOp) (fk : List UOp), rewriteList ch fk l = l
  | [], _, _, _ => rfl
  | u :: us, h, ch, fk => by
    rw [rewriteList_cons, rewritePass_fix u (h u (List.mem_cons_self _ _)) ch fk,
      rewriteList_fix us (fun w hw => h w (List.mem_cons_of_mem _ hw)) ch fk]

end

/-- Member well-formedness: a block member is an original, non-leaf
operation (possibly the sink marker) whose operands are plain operation
kinds. -/
def MemberWF (m : UOp) : Prop :=
  m.op ≠ OpK.BLOCK ∧ m.op ≠ OpK.ENDRANGE ∧ m.op ≠ OpK.ENDIF ∧
  m.op ∉ DONT_PLACE_IN_BLOCK ∧ m.rngs = [] ∧ m.lst = [] ∧
  ∀ u ∈ m.src, u.op ≠ OpK.BLOCK ∧ u.op ≠ OpK.SINK ∧ u.op ≠ OpK.ENDRANGE ∧ u.op ≠ OpK.ENDIF

/-- Ordered-placement invariant of a block member list: walking the list
left to right with already-seen prefix `pre`, every operand of the current
member occurs in the prefix, or is a direct source of the block (source list
`zsrc`), or sits inside a direct child block. -/
def lstOrd (zsrc : List UOp) : List UOp → List UOp → Prop
  | _, [] => True
  | pre, y :: rest =>
    (∀ u ∈ y.src, u ∈ pre ∨ u ∈ zsrc ∨ ∃ C ∈ zsrc, C.op = OpK.BLOCK ∧ u ∈ C.lst) ∧
    lstOrd zsrc (pre ++ [y]) rest

/-- A well-formed `BLOCK` node: well-formed members placed in dependency
order relative to the block's sources. -/
def BlockWF (z : UOp) : Prop :=
  z.op = OpK.BLOCK ∧ (∀ m ∈ z.lst, MemberWF m) ∧ lstOrd z.src [] z.lst

/-- The block carries the terminal sink marker in its member list. -/
def hasSinkMember (z : UOp) : Prop := ∃ m ∈ z.lst, m.op = OpK.SINK

/-- Deep well-formedness of a node of a rewritten graph: every node of its
operand closure is either a well-formed block without sink members, or an
original operand subtree. -/
def WFdeep (u : UOp) : Prop :=
  ∀ z, Reach u z → (z.op = OpK.BLOCK ∧ BlockWF z ∧ ¬ hasSinkMember z) ∨ OrigTree z

/-- Root well-formedness: the root is either the untouched original sink
over original operand trees, or a well-formed block (the only one allowed to
carry the sink marker) over deeply well-formed sources. -/
def WFroot (s : UOp) : Prop :=
  (s.op = OpK.SINK ∧ s.rngs = [] ∧ s.lst = [] ∧ ∀ w ∈ s.src, OrigTree w) ∨
  (s.op = OpK.BLOCK ∧ BlockWF s ∧ ∀ w ∈ s.src, WFdeep w)

/-- `zsrc`-or-child-block membership (the non-prefix disjuncts of
`lstOrd`). -/
def srcCov (zsrc : List UOp) (u : UOp) : Prop :=
  u ∈ zsrc ∨ ∃ C ∈ zsrc, C.op = OpK.BLOCK ∧ u ∈ C.lst

theorem lstOrd_iff (zsrc pre : List UOp) (y : UOp) (rest : List UOp) :
    lstOrd zsrc pre (y :: rest) ↔
    (∀ u ∈ y.src, u ∈ pre ∨ srcCov zsrc u) ∧ lstOrd zsrc (pre ++ [y]) rest := by
  simp [lstOrd, srcCov]

theorem lstOrd_mono {zsrc zsrc' pre pre' : List UOp} {l : List UOp}
    (hpre : ∀ v ∈ pre, v ∈ pre') (hsrc : ∀ u, srcCov zsrc u → srcCov zsrc' u)
    (h : lstOrd zsrc pre l) : lstOrd zsrc' pre' l := by
  induction l generalizing pre pre' with
  | nil => trivial
  | cons y rest ih =>
    rw [lstOrd_iff] at h ⊢
    refine ⟨fun u hu => ?_, ih (fun v hv => ?_) h.2⟩
    · rcases h.1 u hu with h1 | h1
      · exact Or.inl (hpre u h1)
      · exact Or.inr (hsrc u h1)
    · rcases List.mem_append.1 hv with h1 | h1
      · exact List.mem_append.2 (Or.inl (hpre v h1))
      · exact List.mem_append.2 (Or.inr h1)

theorem lstOrd_append {zsrc pre : List UOp} {l1 l2 : List UOp}
    (h1 : lstOrd zsrc pre l1) (h2 : lstOrd zsrc (pre ++ l1) l2) :
    lstOrd zsrc pre (l1 ++ l2) := by
  induction l1 generalizing pre with
  | nil => simpa using h2
  | cons y rest ih =>
    rw [lstOrd_iff] at h1
    rw [List.cons_append, lstOrd_iff]
    refine ⟨h1.1, ih h1.2 ?_⟩
    have : pre ++ y :: rest = (pre ++ [y]) ++ rest := by simp
    rwa [this] at h2

theorem lstOrd_split {zsrc pre : List UOp} {l : List UOp} (h : lstOrd zsrc pre l) :
    ∀ l1 y l2, l = l1 ++ y :: l2 → ∀ u ∈ y.src, u ∈ pre ++ l1 ∨ srcCov zsrc u := by
  induction l generalizing pre with
  | nil =>
    intro l1 y l2 he
    cases l1 <;> simp at he
  | cons a rest ih =>
    intro l1 y l2 he u hu
    rw [lstOrd_iff] at h
    cases l1 with
    | nil =>
      simp only [List.nil_append, List.cons.injEq] at he
      rcases he with ⟨rfl, rfl⟩
      rcases h.1 u hu with h1 | h1
      · exact Or.inl (by simpa using h1)
      · exact Or.inr h1
    | cons b l1' =>
      simp only [List.cons_append, List.cons.injEq] at he
      rcases he with ⟨rfl, he⟩
      rcases ih h.2 l1' y l2 he u hu with h1 | h1
      · left
        have hab : pre ++ a :: l1' = (pre ++ [a]) ++ l1' := by simp
        rw [hab]
        exact h1
      · exact Or.inr h1

/-! ### Characterization of the `append_to_block` fold -/

/-- Per-operand contribution to `new_srcs` (branches of linearize.py:51-66,
which depend only on the operand, never on the running state). -/
def atbSrcContrib (ch : UOp → List UOp) (fk brngs blst : List UOp) (u : UOp) : List UOp :=
  if u.op = OpK.BLOCK then []
  else if u.op ∈ DONT_PLACE_IN_BLOCK ∨ ((ch u).any (fun y => y ∉ blst) ∧ u ∉ fk) then [u]
  else if granges u = brngs then u.src
  else []

/-- Per-operand contribution to `to_append`. -/
def atbApContrib (ch : UOp → List UOp) (fk brngs blst : List UOp) (u : UOp) : List UOp :=
  if u.op = OpK.BLOCK then []
  else if u.op ∈ DONT_PLACE_IN_BLOCK ∨ ((ch u).any (fun y => y ∉ blst) ∧ u ∉ fk) then []
  else if granges u = brngs then [u]
  else []

/-- Per-operand contribution to the side-table group of key `k`. -/
def atbNbContrib (ch : UOp → List UOp) (fk brngs blst k : List UOp) (u : UOp) : List UOp :=
  if u.op = OpK.BLOCK then (if u.rngs = k then [u] else [])
  else if u.op ∈ DONT_PLACE_IN_BLOCK ∨ ((ch u).any (fun y => y ∉ blst) ∧ u ∉ fk) then []
  else if granges u = brngs then []
  else if granges u = k then [u] else []

theorem nbGet_nbAppend (nbs : List (List UOp × List UOp)) (k' : List UOp) (u : UOp)
    (k : List UOp) :
    nbGet (nbAppend nbs k' u) k =
      if k' = k then nbGet nbs k ++ [u] else nbGet nbs k := by
  induction nbs with
  | nil =>
    by_cases h : k' = k <;> simp [nbAppend, nbGet, h]
  | cons p rest ih =>
    obtain ⟨k0, g0⟩ := p
    by_cases h1 : k0 = k'
    · subst h1
      by_cases h2 : k0 = k <;> simp [nbAppend, nbGet, h2]
    · by_cases h2 : k0 = k
      · subst h2
        have h3 : ¬ k' = k0 := fun e => h1 e.symm
        simp [nbAppend, nbGet, h1, h3, ih]
      · simp [nbAppend, nbGet, h1, h2, ih]

theorem atbGo_newSrcs (ch : UOp → List UOp) (fk brngs blst : List UOp) :
    ∀ (l : List UOp) (st : ATBSt),
    (atbGo ch fk brngs blst l st).newSrcs =
      st.newSrcs ++ l.flatMap (atbSrcContrib ch fk brngs blst) := by
  intro l
  induction l with
  | nil => intro st ; simp [atbGo]
  | cons u rest ih =>
    intro st
    by_cases h1 : u.op = OpK.BLOCK
    · simp [atbGo, h1, ih, atbSrcContrib]
    · by_cases h2 : u.op ∈ DONT_PLACE_IN_BLOCK ∨ (∃ x ∈ ch u, x ∉ blst) ∧ u ∉ fk
      · simp [atbGo, h1, h2, ih, atbSrcContrib]
      · by_cases h3 : granges u = brngs
        · simp [atbGo, h1, h2, h3, ih, atbSrcContrib]
        · simp [atbGo, h1, h2, h3, ih, atbSrcContrib]

theorem atbGo_toAppend (ch : UOp → List UOp) (fk brngs blst : List UOp) :
    ∀ (l : List UOp) (st : ATBSt),
    (atbGo ch fk brngs blst l st).toAppend =
      st.toAppend ++ l.flatMap (atbApContrib ch fk brngs blst) := by
  intro l
  induction l with
  | nil => intro st ; simp [atbGo]
  | cons u rest ih =>
    intro st
    by_cases h1 : u.op = OpK.BLOCK
    · simp [atbGo, h1, ih, atbApContrib]
    · by_cases h2 : u.op ∈ DONT_PLACE_IN_BLOCK ∨ (∃ x ∈ ch u, x ∉ blst) ∧ u ∉ fk
      · simp [atbGo, h1, h2, ih, atbApContrib]
      · by_cases h3 : granges u = brngs
        · simp [atbGo, h1, h2, h3, ih, atbApContrib]
        · simp [atbGo, h1, h2, h3, ih, atbApContrib]

theorem atbGo_nbGet (ch : UOp → List UOp) (fk brngs blst : List UOp) :
    ∀ (l : List UOp) (st : ATBSt) (k : List UOp),
    nbGet (atbGo ch fk brngs blst l st).newBlocks k =
      nbGet st.newBlocks k ++ l.flatMap (atbNbContrib ch fk brngs blst k) := by
  intro l
  induction l with
  | nil => intro st k ; simp [atbGo]
  | cons u rest ih =>
    intro st k
    by_cases h1 : u.op = OpK.BLOCK
    · by_cases h4 : u.rngs = k
      · simp [atbGo, h1, ih, atbNbContrib, nbGet_nbAppend, h4]
      · simp [atbGo, h1, ih, atbNbContrib, nbGet_nbAppend, h4]
    · by_cases h2 : u.op ∈ DONT_PLACE_IN_BLOCK ∨ (∃ x ∈ ch u, x ∉ blst) ∧ u ∉ fk
      · simp [atbGo, h1, h2, ih, atbNbContrib]
      · by_cases h3 : granges u = brngs
        · simp [atbGo, h1, h2, h3, ih, atbNbContrib]
        · by_cases h4 : granges u = k
          · rw [h4] at h3
            simp [atbGo, h1, h2, h3, ih, atbNbContrib, nbGet_nbAppend, h4]
          · simp [atbGo, h1, h2, h3, ih, atbNbContrib, nbGet_nbAppend, h4]

theorem Reach.trans {a b c : UOp} (h1 : Reach a b) (h2 : Reach b c) : Reach a c := by
  induction h1 with
  | refl => exact h2
  | step hw _ ih => exact Reach.step hw (ih h2)

theorem rewriteList_eq_map (ch : UOp → List UOp) (fk : List UOp) :
    ∀ l : List UOp, rewriteList ch fk l = l.map (rewritePass ch fk)
  | [] => rfl
  | u :: us => by rw [rewriteList_cons, List.map_cons, rewriteList_eq_map ch fk us]

theorem atbMaterialize_acc_sub : ∀ (nbs : List (List UOp × List UOp)) (acc : List UOp),
    ∀ v ∈ acc, v ∈ atbMaterialize nbs acc
  | [], _, v, hv => hv
  | (rng, grp) :: rest, acc, v, hv => by
    rw [atbMaterialize.eq_def]
    rcases grp with _ | ⟨b, tl⟩
    · exact atbMaterialize_acc_sub rest _ v (List.mem_append_left _ hv)
    · rcases tl with _ | ⟨c, tl2⟩
      · by_cases hb : b.op = OpK.BLOCK
        · simp only [hb, if_pos rfl]
          exact atbMaterialize_acc_sub rest _ v (List.mem_append_left _ hv)
        · simp only [if_neg hb]
          exact atbMaterialize_acc_sub rest _ v (List.mem_append_left _ hv)
      · exact atbMaterialize_acc_sub rest _ v (List.mem_append_left _ hv)

theorem atbMaterialize_single_block :
    ∀ (nbs : List (List UOp × List UOp)) (acc : List UOp) (k : List UOp) (b : UOp),
    (k, [b]) ∈ nbs → b.op = OpK.BLOCK → b ∈ atbMaterialize nbs acc
  | [], _, _, _, h, _ => by cases h
  | (rng, grp) :: rest, acc, k, b, h, hb => by
    rw [atbMaterialize.eq_def]
    rcases List.mem_cons.1 h with he | hrest
    · obtain ⟨rfl, rfl⟩ := Prod.mk.inj he
      simp only [if_pos hb]
      exact atbMaterialize_acc_sub rest _ b (List.mem_append_right _ (List.mem_singleton.2 rfl))
    · rcases grp with _ | ⟨b0, tl⟩
      · exact atbMaterialize_single_block rest _ k b hrest hb
      · rcases tl with _ | ⟨c, tl2⟩
        · by_cases hb0 : b0.op = OpK.BLOCK
          · simp only [if_pos hb0]
            exact atbMaterialize_single_block rest _ k b hrest hb
          · simp only [if_neg hb0]
            exact atbMaterialize_single_block rest _ k b hrest hb
        · exact atbMaterialize_single_block rest _ k b hrest hb

theorem atbMaterialize_group :
    ∀ (nbs : List (List UOp × List UOp)) (acc : List UOp) (k : List UOp) (g : List UOp),
    (k, g) ∈ nbs → (∀ b, g = [b] → b.op ≠ OpK.BLOCK) →
    nbMaterialize k g ∈ atbMaterialize nbs acc
  | [], _, _, _, h, _ => by cases h
  | (rng, grp) :: rest, acc, k, g, h, hg => by
    rw [atbMaterialize.eq_def]
    rcases List.mem_cons.1 h with he | hrest
    · obtain ⟨rfl, rfl⟩ := Prod.mk.inj he
      rcases g with _ | ⟨b0, tl⟩
      · exact atbMaterialize_acc_sub rest _ _ (List.mem_append_right _ (List.mem_singleton.2 rfl))
      · rcases tl with _ | ⟨c, tl2⟩
        · have hb0 : b0.op ≠ OpK.BLOCK := hg b0 rfl
          simp only [if_neg hb0]
          exact atbMaterialize_acc_sub rest _ _ (List.mem_append_right _ (List.mem_singleton.2 rfl))
        · exact atbMaterialize_acc_sub rest _ _ (List.mem_append_right _ (List.mem_singleton.2 rfl))
    · rcases grp with _ | ⟨b0, tl⟩
      · exact atbMaterialize_group rest _ k g hrest hg
      · rcases tl with _ | ⟨c, tl2⟩
        · by_cases hb0 : b0.op = OpK.BLOCK
          · simp only [if_pos hb0]
            exact atbMaterialize_group rest _ k g hrest hg
          · simp only [if_neg hb0]
            exact atbMaterialize_group rest _ k g hrest hg
        · exact atbMaterialize_group rest _ k g hrest hg

theorem atbMaterialize_sound :
    ∀ (nbs : List (List UOp × List UOp)) (acc : List UOp) (v : UOp),
    v ∈ atbMaterialize nbs acc →
    v ∈ acc ∨ ∃ k g, (k, g) ∈ nbs ∧ ((g = [v] ∧ v.op = OpK.BLOCK) ∨ v = nbMaterialize k g)
  | [], acc, v, h => Or.inl h
  | (rng, grp) :: rest, acc, v, h => by
    rw [atbMaterialize.eq_def] at h
    have step : ∀ w : UOp,
        v ∈ atbMaterialize rest (acc ++ [w]) →
        (v ∈ acc ∨ v = w) ∨
        ∃ k g, (k, g) ∈ rest ∧ ((g = [v] ∧ v.op = OpK.BLOCK) ∨ v = nbMaterialize k g) := by
      intro w hw
      rcases atbMaterialize_sound rest _ v hw with h1 | h1
      · rcases List.mem_append.1 h1 with h2 | h2
        · exact Or.inl (Or.inl h2)
        · exact Or.inl (Or.inr (List.mem_singleton.1 h2))
      · exact Or.inr h1
    rcases grp with _ | ⟨b0, tl⟩
    · rcases step _ h with (h1 | h1) | ⟨k, g, hkg, hc⟩
      · exact Or.inl h1
      · exact Or.inr ⟨rng, [], List.mem_cons_self _ _, Or.inr (h1)⟩
      · exact Or.inr ⟨k, g, List.mem_cons_of_mem _ hkg, hc⟩
    · rcases tl with _ | ⟨c, tl2⟩
      · by_cases hb0 : b0.op = OpK.BLOCK
        · simp only [if_pos hb0] at h
          rcases step _ h with (h1 | h1) | ⟨k, g, hkg, hc⟩
          · exact Or.inl h1
          · subst h1
            exact Or.inr ⟨rng, [v], List.mem_cons_self _ _, Or.inl ⟨rfl, hb0⟩⟩
          · exact Or.inr ⟨k, g, List.mem_cons_of_mem _ hkg, hc⟩
        · simp only [if_neg hb0] at h
          rcases step _ h with (h1 | h1) | ⟨k, g, hkg, hc⟩
          · exact Or.inl h1
          · exact Or.inr ⟨rng, [b0], List.mem_cons_self _ _, Or.inr h1⟩
          · exact Or.inr ⟨k, g, List.mem_cons_of_mem _ hkg, hc⟩
      · rcases step _ h with (h1 | h1) | ⟨k, g, hkg, hc⟩
        · exact Or.inl h1
        · exact Or.inr ⟨rng, b0 :: c :: tl2, List.mem_cons_self _ _, Or.inr h1⟩
        · exact Or.inr ⟨k, g, List.mem_cons_of_mem _ hkg, hc⟩

theorem nbGet_mem : ∀ (nbs : List (List UOp × List UOp)) (k : List UOp),
    nbGet nbs k ≠ [] → (k, nbGet nbs k) ∈ nbs
  | [], _, h => absurd rfl h
  | (k0, g0) :: rest, k, h => by
    by_cases hk : k0 = k
    · subst hk
      simp only [nbGet, if_pos rfl] at h ⊢
      exact List.mem_cons_self _ _
    · simp only [nbGet, if_neg hk] at h ⊢
      exact List.mem_cons_of_mem _ (nbGet_mem rest k h)

theorem nbMaterialize_op (k : List UOp) (g : List UOp) :
    (nbMaterialize k g).op = OpK.BLOCK ∧ (nbMaterialize k g).rngs = k ∧
    (nbMaterialize k g).lst = (g.map (fun y => if y.op = OpK.BLOCK then y.lst else [y])).flatten ∧
    (nbMaterialize k g).src = dedupF (g.map UOp.src).flatten := by
  simp [nbMaterialize, UOp.op, UOp.rngs, UOp.lst, UOp.src]

theorem nbMaterialize_src_iff {k g : List UOp} {v : UOp} :
    v ∈ (nbMaterialize k g).src ↔ ∃ w ∈ g, v ∈ w.src := by
  rw [(nbMaterialize_op k g).2.2.2, mem_dedupF, List.mem_flatten]
  constructor
  · rintro ⟨s, hs, hv⟩
    rcases List.mem_map.1 hs with ⟨w, hw, rfl⟩
    exact ⟨w, hw, hv⟩
  · rintro ⟨w, hw, hv⟩
    exact ⟨w.src, List.mem_map.2 ⟨w, hw, rfl⟩, hv⟩

theorem nbMaterialize_lst_of_block {k g : List UOp} {w m : UOp} (hw : w ∈ g)
    (hb : w.op = OpK.BLOCK) (hm : m ∈ w.lst) : m ∈ (nbMaterialize k g).lst := by
  rw [(nbMaterialize_op k g).2.2.1, List.mem_flatten]
  refine ⟨w.lst, List.mem_map.2 ⟨w, hw, ?_⟩, hm⟩
  rw [if_pos hb]

theorem nbMaterialize_lst_of_op {k g : List UOp} {w : UOp} (hw : w ∈ g)
    (hb : w.op ≠ OpK.BLOCK) : w ∈ (nbMaterialize k g).lst := by
  rw [(nbMaterialize_op k g).2.2.1, List.mem_flatten]
  refine ⟨[w], List.mem_map.2 ⟨w, hw, ?_⟩, List.mem_singleton.2 rfl⟩
  rw [if_neg hb]

theorem nbMaterialize_lst_sound {k g : List UOp} {m : UOp}
    (h : m ∈ (nbMaterialize k g).lst) :
    ∃ w ∈ g, (w.op = OpK.BLOCK ∧ m ∈ w.lst) ∨ (m = w ∧ w.op ≠ OpK.BLOCK) := by
  rw [(nbMaterialize_op k g).2.2.1, List.mem_flatten] at h
  rcases h with ⟨s, hs, hm⟩
  rcases List.mem_map.1 hs with ⟨w, hw, rfl⟩
  by_cases hb : w.op = OpK.BLOCK
  · rw [if_pos hb] at hm
    exact ⟨w, hw, Or.inl ⟨hb, hm⟩⟩
  · rw [if_neg hb] at hm
    exact ⟨w, hw, Or.inr ⟨List.mem_singleton.1 hm, hb⟩⟩

theorem lstOrd_of_cov {zsrc pre : List UOp} {l : List UOp}
    (h : ∀ y ∈ l, ∀ u ∈ y.src, srcCov zsrc u) : lstOrd zsrc pre l := by
  induction l generalizing pre with
  | nil => trivial
  | cons y rest ih =>
    rw [lstOrd_iff]
    exact ⟨fun u hu => Or.inr (h y (List.mem_cons_self _ _) u hu),
      ih (fun y' hy' => h y' (List.mem_cons_of_mem _ hy'))⟩

theorem lstOrd_transfer {zsrc zsrc' pre pre' : List UOp} {l : List UOp}
    (hpre : ∀ v ∈ pre, v ∈ pre')
    (hsrc : ∀ u, srcCov zsrc u → u ∈ pre' ∨ srcCov zsrc' u)
    (h : lstOrd zsrc pre l) : lstOrd zsrc' pre' l := by
  induction l generalizing pre pre' with
  | nil => trivial
  | cons y rest ih =>
    rw [lstOrd_iff] at h ⊢
    refine ⟨fun u hu => ?_, ih (fun v hv => ?_) (fun u hu => ?_) h.2⟩
    · rcases h.1 u hu with h1 | h1
      · exact Or.inl (hpre u h1)
      · exact hsrc u h1
    · rcases List.mem_append.1 hv with h1 | h1
      · exact List.mem_append.2 (Or.inl (hpre v h1))
      · exact List.mem_append.2 (Or.inr h1)
    · rcases hsrc u hu with h1 | h1
      · exact Or.inl (List.mem_append.2 (Or.inl h1))
      · exact Or.inr h1

/-- The keep condition of `append_to_block` (linearize.py:55): leaf kind, or
outside consumers while not marked as a fork. -/
def atbKept (ch : UOp → List UOp) (fk blst : List UOp) (u : UOp) : Prop :=
  u.op ∈ DONT_PLACE_IN_BLOCK ∨ ((ch u).any (fun y => y ∉ blst) ∧ u ∉ fk)

instance (ch : UOp → List UOp) (fk blst : List UOp) (u : UOp) :
    Decidable (atbKept ch fk blst u) := by
  unfold atbKept ; infer_instance

theorem atbSrcContrib_eq (ch : UOp → List UOp) (fk brngs blst : List UOp) (u : UOp) :
    atbSrcContrib ch fk brngs blst u =
    (if u.op = OpK.BLOCK then []
     else if atbKept ch fk blst u then [u]
     else if granges u = brngs then u.src else []) := rfl

theorem atbApContrib_eq (ch : UOp → List UOp) (fk brngs blst : List UOp) (u : UOp) :
    atbApContrib ch fk brngs blst u =
    (if u.op = OpK.BLOCK then []
     else if atbKept ch fk blst u then []
     else if granges u = brngs then [u] else []) := rfl

theorem atbNbContrib_eq (ch : UOp → List UOp) (fk brngs blst k : List UOp) (u : UOp) :
    atbNbContrib ch fk brngs blst k u =
    (if u.op = OpK.BLOCK then (if u.rngs = k then [u] else [])
     else if atbKept ch fk blst u then []
     else if granges u = brngs then []
     else if granges u = k then [u] else []) := rfl

theorem appendToBlock_some {ch : UOp → List UOp} {fk : List UOp} {x y : UOp}
    (h : appendToBlock ch fk x = some y) :
    y = UOp.mk OpK.BLOCK 0
        (dedupF (atbMaterialize
          (atbGo ch fk x.rngs x.lst x.src ⟨[], [], [], false⟩).newBlocks
          (atbGo ch fk x.rngs x.lst x.src ⟨[], [], [], false⟩).newSrcs))
        0 false x.rngs
        ((atbGo ch fk x.rngs x.lst x.src ⟨[], [], [], false⟩).toAppend ++ x.lst) := by
  unfold appendToBlock at h
  by_cases hu : (atbGo ch fk x.rngs x.lst x.src ⟨[], [], [], false⟩).updated = true
  · simp only [hu, Bool.not_true, Bool.false_eq_true, if_false, Option.some.injEq] at h
    exact h.symm
  · simp only [Bool.not_eq_true] at hu
    simp [hu] at h

theorem mem_atbNewSrcs {ch : UOp → List UOp} {fk : List UOp} {x v : UOp} :
    v ∈ (atbGo ch fk x.rngs x.lst x.src ⟨[], [], [], false⟩).newSrcs ↔
    ∃ u ∈ x.src, u.op ≠ OpK.BLOCK ∧
      ((atbKept ch fk x.lst u ∧ v = u) ∨
       (¬ atbKept ch fk x.lst u ∧ granges u = x.rngs ∧ v ∈ u.src)) := by
  rw [atbGo_newSrcs]
  simp only [List.nil_append, List.mem_flatMap]
  constructor
  · rintro ⟨u, hu, hv⟩
    rw [atbSrcContrib_eq] at hv
    by_cases h1 : u.op = OpK.BLOCK
    · rw [if_pos h1] at hv ; cases hv
    · rw [if_neg h1] at hv
      by_cases h2 : atbKept ch fk x.lst u
      · rw [if_pos h2] at hv
        exact ⟨u, hu, h1, Or.inl ⟨h2, List.mem_singleton.1 hv⟩⟩
      · rw [if_neg h2] at hv
        by_cases h3 : granges u = x.rngs
        · rw [if_pos h3] at hv
          exact ⟨u, hu, h1, Or.inr ⟨h2, h3, hv⟩⟩
        · rw [if_neg h3] at hv ; cases hv
  · rintro ⟨u, hu, h1, (⟨h2, rfl⟩ | ⟨h2, h3, hv⟩)⟩
    · refine ⟨v, hu, ?_⟩
      rw [atbSrcContrib_eq, if_neg h1, if_pos h2]
      exact List.mem_singleton.2 rfl
    · refine ⟨u, hu, ?_⟩
      rw [atbSrcContrib_eq, if_neg h1, if_neg h2, if_pos h3]
      exact hv

theorem mem_atbToAppend {ch : UOp → List UOp} {fk : List UOp} {x m : UOp} :
    m ∈ (atbGo ch fk x.rngs x.lst x.src ⟨[], [], [], false⟩).toAppend ↔
    m ∈ x.src ∧ m.op ≠ OpK.BLOCK ∧ ¬ atbKept ch fk x.lst m ∧ granges m = x.rngs := by
  rw [atbGo_toAppend]
  simp only [List.nil_append, List.mem_flatMap]
  constructor
  · rintro ⟨u, hu, hv⟩
    rw [atbApContrib_eq] at hv
    by_cases h1 : u.op = OpK.BLOCK
    · rw [if_pos h1] at hv ; cases hv
    · rw [if_neg h1] at hv
      by_cases h2 : atbKept ch fk x.lst u
      · rw [if_pos h2] at hv ; cases hv
      · rw [if_neg h2] at hv
        by_cases h3 : granges u = x.rngs
        · rw [if_pos h3] at hv
          obtain rfl := List.mem_singleton.1 hv
          exact ⟨hu, h1, h2, h3⟩
        · rw [if_neg h3] at hv ; cases hv
  · rintro ⟨hm, h1, h2, h3⟩
    refine ⟨m, hm, ?_⟩
    rw [atbApContrib_eq, if_neg h1, if_neg h2, if_pos h3]
    exact List.mem_singleton.2 rfl

theorem mem_atbNbGet {ch : UOp → List UOp} {fk : List UOp} {x m : UOp} {k : List UOp} :
    m ∈ nbGet (atbGo ch fk x.rngs x.lst x.src ⟨[], [], [], false⟩).newBlocks k ↔
    m ∈ x.src ∧
      ((m.op = OpK.BLOCK ∧ m.rngs = k) ∨
       (m.op ≠ OpK.BLOCK ∧ ¬ atbKept ch fk x.lst m ∧ granges m ≠ x.rngs ∧ granges m = k)) := by
  rw [atbGo_nbGet]
  simp only [nbGet, List.nil_append, List.mem_flatMap]
  constructor
  · rintro ⟨u, hu, hv⟩
    rw [atbNbContrib_eq] at hv
    by_cases h1 : u.op = OpK.BLOCK
    · rw [if_pos h1] at hv
      by_cases h4 : u.rngs = k
      · rw [if_pos h4] at hv
        obtain rfl := List.mem_singleton.1 hv
        exact ⟨hu, Or.inl ⟨h1, h4⟩⟩
      · rw [if_neg h4] at hv ; cases hv
    · rw [if_neg h1] at hv
      by_cases h2 : atbKept ch fk x.lst u
      · rw [if_pos h2] at hv ; cases hv
      · rw [if_neg h2] at hv
        by_cases h3 : granges u = x.rngs
        · rw [if_pos h3] at hv ; cases hv
        · rw [if_neg h3] at hv
          by_cases h4 : granges u = k
          · rw [if_pos h4] at hv
            obtain rfl := List.mem_singleton.1 hv
            exact ⟨hu, Or.inr ⟨h1, h2, h3, h4⟩⟩
          · rw [if_neg h4] at hv ; cases hv
  · rintro ⟨hm, (⟨h1, h4⟩ | ⟨h1, h2, h3, h4⟩)⟩
    · refine ⟨m, hm, ?_⟩
      rw [atbNbContrib_eq, if_pos h1, if_pos h4]
      exact List.mem_singleton.2 rfl
    · refine ⟨m, hm, ?_⟩
      rw [atbNbContrib_eq, if_neg h1, if_neg h2, if_neg h3, if_pos h4]
      exact List.mem_singleton.2 rfl

theorem WFdeep_mono {u w : UOp} (h : WFdeep u) (hr : Reach u w) : WFdeep w :=
  fun z hz => h z (hr.trans hz)

theorem WFdeep_build {w : UOp} (h1 : w.op = OpK.BLOCK ∧ BlockWF w ∧ ¬ hasSinkMember w)
    (h2 : ∀ q ∈ w.src, WFdeep q) : WFdeep w := by
  intro z hz
  cases hz with
  | refl => exact Or.inl h1
  | step hq hz' => exact h2 _ hq _ hz'

theorem wfdeep_block {w : UOp} (h : WFdeep w) (hb : w.op = OpK.BLOCK) :
    BlockWF w ∧ ¬ hasSinkMember w := by
  rcases h w (Reach.refl w) with ⟨_, h2, h3⟩ | ho
  · exact ⟨h2, h3⟩
  · exact absurd hb ((ho w (Reach.refl w)).1)

theorem wfdeep_orig {w : UOp} (h : WFdeep w) (hb : w.op ≠ OpK.BLOCK) : OrigTree w := by
  rcases h w (Reach.refl w) with ⟨h1, _⟩ | ho
  · exact absurd h1 hb
  · exact ho

theorem orig_memberWF {w : UOp} (ho : OrigTree w) (hdp : w.op ∉ DONT_PLACE_IN_BLOCK) :
    MemberWF w ∧ w.op ≠ OpK.SINK := by
  have h0 := ho w (Reach.refl w)
  refine ⟨⟨h0.1, h0.2.2.1, h0.2.2.2.1, hdp, h0.2.2.2.2.1, h0.2.2.2.2.2, ?_⟩, h0.2.1⟩
  intro u hu
  have h1 := ho u (Reach.step hu (Reach.refl u))
  exact ⟨h1.1, h1.2.1, h1.2.2.1, h1.2.2.2.1⟩

theorem lstOrd_flatten {Z : List UOp} {f : UOp → List UOp} :
    ∀ (gs : List UOp) (pre : List UOp),
    (∀ v ∈ gs, ∀ pre', lstOrd Z pre' (f v)) →
    lstOrd Z pre ((gs.map f).flatten)
  | [], _, _ => trivial
  | v :: rest, pre, h => by
    rw [List.map_cons, List.flatten_cons]
    exact lstOrd_append (h v (List.mem_cons_self _ _) pre)
      (lstOrd_flatten rest _ (fun w hw => h w (List.mem_cons_of_mem _ hw)))

theorem matBlock_WF {ch : UOp → List UOp} {fk : List UOp} {x : UOp} {k g : List UOp}
    (hdeep : ∀ w ∈ x.src, WFdeep w)
    (hg : ∀ v ∈ g, v ∈ x.src ∧
      (v.op = OpK.BLOCK ∨ (v.op ≠ OpK.BLOCK ∧ ¬ atbKept ch fk x.lst v))) :
    BlockWF (nbMaterialize k g) ∧ ¬ hasSinkMember (nbMaterialize k g) ∧
    WFdeep (nbMaterialize k g) := by
  have hsrcq : ∀ q ∈ (nbMaterialize k g).src, ∃ v ∈ g, q ∈ v.src := by
    intro q hq
    exact nbMaterialize_src_iff.1 hq
  have hdeepq : ∀ q ∈ (nbMaterialize k g).src, WFdeep q := by
    intro q hq
    rcases hsrcq q hq with ⟨v, hv, hqv⟩
    exact WFdeep_mono (hdeep v (hg v hv).1) (Reach.step hqv (Reach.refl q))
  have hmem : ∀ m ∈ (nbMaterialize k g).lst, MemberWF m ∧ m.op ≠ OpK.SINK := by
    intro m hm
    rcases nbMaterialize_lst_sound hm with ⟨w, hw, ⟨hb, hmw⟩ | ⟨rfl, hb⟩⟩
    · have hbwf := wfdeep_block (hdeep w (hg w hw).1) hb
      refine ⟨hbwf.1.2.1 m hmw, ?_⟩
      intro hs
      exact hbwf.2 ⟨m, hmw, hs⟩
    · rcases (hg m hw).2 with h1 | ⟨_, h2⟩
      · exact absurd h1 hb
      · have ho := wfdeep_orig (hdeep m (hg m hw).1) hb
        have hdp : m.op ∉ DONT_PLACE_IN_BLOCK := fun hin => h2 (Or.inl hin)
        exact orig_memberWF ho hdp
  have hord : lstOrd (nbMaterialize k g).src [] (nbMaterialize k g).lst := by
    rw [(nbMaterialize_op k g).2.2.1]
    apply lstOrd_flatten
    intro v hv pre'
    by_cases hb : v.op = OpK.BLOCK
    · rw [if_pos hb]
      have hbwf := wfdeep_block (hdeep v (hg v hv).1) hb
      refine lstOrd_transfer (fun q hq => absurd hq (List.not_mem_nil q)) ?_ hbwf.1.2.2
      intro q hq
      right
      rcases hq with h1 | ⟨C, hC, hCb, hqC⟩
      · exact Or.inl (nbMaterialize_src_iff.2 ⟨v, hv, h1⟩)
      · exact Or.inr ⟨C, nbMaterialize_src_iff.2 ⟨v, hv, hC⟩, hCb, hqC⟩
    · rw [if_neg hb]
      apply lstOrd_of_cov
      intro y' hy' u hu
      obtain rfl := List.mem_singleton.1 hy'
      exact Or.inl (nbMaterialize_src_iff.2 ⟨y', hv, hu⟩)
  have hblockwf : BlockWF (nbMaterialize k g) :=
    ⟨(nbMaterialize_op k g).1, fun m hm => (hmem m hm).1, hord⟩
  have hnosink : ¬ hasSinkMember (nbMaterialize k g) := by
    rintro ⟨m, hm, hs⟩
    exact (hmem m hm).2 hs
  exact ⟨hblockwf, hnosink, WFdeep_build ⟨(nbMaterialize_op k g).1, hblockwf, hnosink⟩ hdeepq⟩

/-- Keys of the side table are pairwise distinct. -/
def nbKeysU (nbs : List (List UOp × List UOp)) : Prop := (nbs.map Prod.fst).Nodup

theorem nbAppend_keys (nbs : List (List UOp × List UOp)) (k : List UOp) (u : UOp) :
    (nbAppend nbs k u).map Prod.fst =
      if k ∈ nbs.map Prod.fst then nbs.map Prod.fst else nbs.map Prod.fst ++ [k] := by
  induction nbs with
  | nil => simp [nbAppend]
  | cons p rest ih =>
    obtain ⟨k0, g0⟩ := p
    by_cases hk : k0 = k
    · subst hk
      simp [nbAppend]
    · have h2 : ¬ k = k0 := fun e => hk e.symm
      by_cases hm : k ∈ rest.map Prod.fst
      · simp [nbAppend, hk, ih, hm, h2]
      · simp [nbAppend, hk, ih, hm, h2]

theorem nbKeysU_nbAppend {nbs : List (List UOp × List UOp)} {k : List UOp} {u : UOp}
    (h : nbKeysU nbs) : nbKeysU (nbAppend nbs k u) := by
  unfold nbKeysU at h ⊢
  rw [nbAppend_keys]
  by_cases hm : k ∈ nbs.map Prod.fst
  · rwa [if_pos hm]
  · rw [if_neg hm]
    refine List.Nodup.append h (List.nodup_singleton _) ?_
    intro a ha hb
    obtain rfl := List.mem_singleton.1 hb
    exact hm ha

theorem atbGo_nbKeysU (ch : UOp → List UOp) (fk brngs blst : List UOp) :
    ∀ (l : List UOp) (st : ATBSt), nbKeysU st.newBlocks →
    nbKeysU (atbGo ch fk brngs blst l st).newBlocks := by
  intro l
  induction l with
  | nil => intro st h ; simpa [atbGo] using h
  | cons u rest ih =>
    intro st h
    by_cases h1 : u.op = OpK.BLOCK
    · simp only [atbGo, if_pos h1]
      exact ih _ (nbKeysU_nbAppend h)
    · by_cases h2 : u.op ∈ DONT_PLACE_IN_BLOCK ∨ (∃ z ∈ ch u, z ∉ blst) ∧ u ∉ fk
      · simp only [atbGo, if_neg h1]
        rw [if_pos (by simpa [List.any_eq_true] using h2)]
        exact ih _ h
      · by_cases h3 : granges u = brngs
        · simp only [atbGo, if_neg h1]
          rw [if_neg (by simpa [List.any_eq_true] using h2), if_pos h3]
          exact ih _ h
        · simp only [atbGo, if_neg h1]
          rw [if_neg (by simpa [List.any_eq_true] using h2), if_neg h3]
          exact ih _ (nbKeysU_nbAppend h)

theorem pair_eq_nbGet : ∀ {nbs : List (List UOp × List UOp)} {k g : List UOp},
    nbKeysU nbs → (k, g) ∈ nbs → nbGet nbs k = g := by
  intro nbs
  induction nbs with
  | nil => intro k g _ h ; cases h
  | cons p rest ih =>
    intro k g hU h
    obtain ⟨k0, g0⟩ := p
    rcases List.mem_cons.1 h with he | hrest
    · obtain ⟨rfl, rfl⟩ := Prod.mk.inj he
      simp [nbGet]
    · by_cases hk : k0 = k
      · subst hk
        exfalso
        have : k0 ∈ rest.map Prod.fst := List.mem_map.2 ⟨(k0, g), hrest, rfl⟩
        unfold nbKeysU at hU
        simp only [List.map_cons, List.nodup_cons] at hU
        exact hU.1 this
      · rw [nbGet, if_neg hk]
        refine ih ?_ hrest
        unfold nbKeysU at hU ⊢
        simp only [List.map_cons, List.nodup_cons] at hU
        exact hU.2

theorem lstOrd_transfer_guard {zsrc zsrc' pre pre' : List UOp} {l : List UOp} {G : UOp → Prop}
    (hl : ∀ y' ∈ l, ∀ u ∈ y'.src, G u)
    (hpre : ∀ v ∈ pre, v ∈ pre')
    (hsrc : ∀ u, G u → srcCov zsrc u → u ∈ pre' ∨ srcCov zsrc' u)
    (h : lstOrd zsrc pre l) : lstOrd zsrc' pre' l := by
  induction l generalizing pre pre' with
  | nil => trivial
  | cons y rest ih =>
    rw [lstOrd_iff] at h ⊢
    refine ⟨fun u hu => ?_,
      ih (fun y' hy' => hl y' (List.mem_cons_of_mem _ hy'))
         (fun v hv => ?_) (fun u hG hu => ?_) h.2⟩
    · rcases h.1 u hu with h1 | h1
      · exact Or.inl (hpre u h1)
      · exact hsrc u (hl y (List.mem_cons_self _ _) u hu) h1
    · rcases List.mem_append.1 hv with h1 | h1
      · exact List.mem_append.2 (Or.inl (hpre v h1))
      · exact List.mem_append.2 (Or.inr h1)
    · rcases hsrc u hG hu with h1 | h1
      · exact Or.inl (List.mem_append.2 (Or.inl h1))
      · exact Or.inr h1

theorem appendToBlock_WF {ch : UOp → List UOp} {fk : List UOp} {x y : UOp}
    (hwf : BlockWF x) (hdeep : ∀ w ∈ x.src, WFdeep w)
    (h : appendToBlock ch fk x = some y) :
    y.op = OpK.BLOCK ∧ y.rngs = x.rngs ∧ BlockWF y ∧ (∀ w ∈ y.src, WFdeep w) ∧
    (hasSinkMember y → hasSinkMember x) ∧
    (∃ t, y.lst = t ++ x.lst ∧ ∀ m ∈ t, m.op ≠ OpK.SINK) := by
  obtain rfl := appendToBlock_some h
  have hU : nbKeysU (atbGo ch fk x.rngs x.lst x.src ⟨[], [], [], false⟩).newBlocks :=
    atbGo_nbKeysU ch fk x.rngs x.lst x.src ⟨[], [], [], false⟩ List.nodup_nil
  have hgclass : ∀ k g, (k, g) ∈ (atbGo ch fk x.rngs x.lst x.src ⟨[], [], [], false⟩).newBlocks →
      ∀ w ∈ g, w ∈ x.src ∧
        (w.op = OpK.BLOCK ∨ (w.op ≠ OpK.BLOCK ∧ ¬ atbKept ch fk x.lst w)) := by
    intro k g hkg w hw
    have hget := pair_eq_nbGet hU hkg
    have : w ∈ nbGet (atbGo ch fk x.rngs x.lst x.src ⟨[], [], [], false⟩).newBlocks k := by
      rw [hget] ; exact hw
    rcases mem_atbNbGet.1 this with ⟨hmem, ⟨hb, _⟩ | ⟨hb, hk2, _, _⟩⟩
    · exact ⟨hmem, Or.inl hb⟩
    · exact ⟨hmem, Or.inr ⟨hb, hk2⟩⟩
  have hWdSrc : ∀ v ∈ atbMaterialize
      (atbGo ch fk x.rngs x.lst x.src ⟨[], [], [], false⟩).newBlocks
      (atbGo ch fk x.rngs x.lst x.src ⟨[], [], [], false⟩).newSrcs, WFdeep v := by
    intro v hv
    rcases atbMaterialize_sound _ _ _ hv with hns | ⟨k, g, hkg, hc⟩
    · rcases mem_atbNewSrcs.1 hns with ⟨u, hu, h1, (⟨h2, rfl⟩ | ⟨h2, h3, hv2⟩)⟩
      · exact hdeep _ hu
      · exact WFdeep_mono (hdeep u hu) (Reach.step hv2 (Reach.refl _))
    · rcases hc with ⟨rfl, hb⟩ | rfl
      · exact hdeep _ (hgclass k [v] hkg v (List.mem_singleton.2 rfl)).1
      · exact (matBlock_WF hdeep (hgclass k g hkg)).2.2
  have hTA : ∀ m ∈ (atbGo ch fk x.rngs x.lst x.src ⟨[], [], [], false⟩).toAppend,
      MemberWF m ∧ m.op ≠ OpK.SINK := by
    intro m hm
    rcases mem_atbToAppend.1 hm with ⟨hmem, h1, h2, _⟩
    have ho := wfdeep_orig (hdeep m hmem) h1
    exact orig_memberWF ho (fun hin => h2 (Or.inl hin))
  have hsrcmem : ∀ v, v ∈ (UOp.mk OpK.BLOCK 0
      (dedupF (atbMaterialize
        (atbGo ch fk x.rngs x.lst x.src ⟨[], [], [], false⟩).newBlocks
        (atbGo ch fk x.rngs x.lst x.src ⟨[], [], [], false⟩).newSrcs))
      0 false x.rngs
      ((atbGo ch fk x.rngs x.lst x.src ⟨[], [], [], false⟩).toAppend ++ x.lst)).src ↔
      v ∈ atbMaterialize
        (atbGo ch fk x.rngs x.lst x.src ⟨[], [], [], false⟩).newBlocks
        (atbGo ch fk x.rngs x.lst x.src ⟨[], [], [], false⟩).newSrcs := by
    intro v
    exact mem_dedupF
  have hcov : ∀ u, u.op ≠ OpK.BLOCK → srcCov x.src u →
      u ∈ (atbGo ch fk x.rngs x.lst x.src ⟨[], [], [], false⟩).toAppend ∨
      srcCov (dedupF (atbMaterialize
        (atbGo ch fk x.rngs x.lst x.src ⟨[], [], [], false⟩).newBlocks
        (atbGo ch fk x.rngs x.lst x.src ⟨[], [], [], false⟩).newSrcs)) u := by
    intro u hnb hc
    rcases hc with hu | ⟨C, hC, hCb, huC⟩
    · by_cases h2 : atbKept ch fk x.lst u
      · right ; left
        rw [mem_dedupF]
        exact atbMaterialize_acc_sub _ _ u (mem_atbNewSrcs.2 ⟨u, hu, hnb, Or.inl ⟨h2, rfl⟩⟩)
      · by_cases h3 : granges u = x.rngs
        · left
          exact mem_atbToAppend.2 ⟨hu, hnb, h2, h3⟩
        · right ; right
          have hin : u ∈ nbGet (atbGo ch fk x.rngs x.lst x.src ⟨[], [], [], false⟩).newBlocks
              (granges u) :=
            mem_atbNbGet.2 ⟨hu, Or.inr ⟨hnb, h2, h3, rfl⟩⟩
          have hne : nbGet (atbGo ch fk x.rngs x.lst x.src ⟨[], [], [], false⟩).newBlocks
              (granges u) ≠ [] := by
            intro he ; rw [he] at hin ; cases hin
          have hpair := nbGet_mem _ _ hne
          have hsing : ∀ b, nbGet (atbGo ch fk x.rngs x.lst x.src ⟨[], [], [], false⟩).newBlocks
              (granges u) = [b] → b.op ≠ OpK.BLOCK := by
            intro b he
            rw [he] at hin
            obtain rfl := List.mem_singleton.1 hin
            exact hnb
          refine ⟨nbMaterialize (granges u) _, ?_, (nbMaterialize_op _ _).1,
            nbMaterialize_lst_of_op hin hnb⟩
          rw [mem_dedupF]
          exact atbMaterialize_group _ _ _ _ hpair hsing
    · have hCin : C ∈ nbGet (atbGo ch fk x.rngs x.lst x.src ⟨[], [], [], false⟩).newBlocks
          C.rngs :=
        mem_atbNbGet.2 ⟨hC, Or.inl ⟨hCb, rfl⟩⟩
      have hne : nbGet (atbGo ch fk x.rngs x.lst x.src ⟨[], [], [], false⟩).newBlocks
          C.rngs ≠ [] := by
        intro he ; rw [he] at hCin ; cases hCin
      have hpair := nbGet_mem _ _ hne
      by_cases hg1 : nbGet (atbGo ch fk x.rngs x.lst x.src ⟨[], [], [], false⟩).newBlocks
          C.rngs = [C]
      · right ; right
        refine ⟨C, ?_, hCb, huC⟩
        rw [mem_dedupF]
        rw [hg1] at hpair
        exact atbMaterialize_single_block _ _ _ _ hpair hCb
      · right ; right
        have hsing : ∀ b, nbGet (atbGo ch fk x.rngs x.lst x.src ⟨[], [], [], false⟩).newBlocks
            C.rngs = [b] → b.op ≠ OpK.BLOCK := by
          intro b he
          rw [he] at hCin
          obtain rfl := List.mem_singleton.1 hCin
          exact absurd he hg1
        refine ⟨nbMaterialize C.rngs _, ?_, (nbMaterialize_op _ _).1,
          nbMaterialize_lst_of_block hCin hCb huC⟩
        rw [mem_dedupF]
        exact atbMaterialize_group _ _ _ _ hpair hsing
  refine ⟨rfl, rfl, ⟨rfl, ?_, ?_⟩, ?_, ?_, ?_⟩
  · -- members
    intro m hm
    simp only [UOp.lst] at hm
    rcases List.mem_append.1 hm with h1 | h1
    · exact (hTA m h1).1
    · exact hwf.2.1 m h1
  · -- lstOrd
    simp only [UOp.src, UOp.lst]
    apply lstOrd_append
    · apply lstOrd_of_cov
      intro m hm u hu
      left
      rw [mem_dedupF]
      rcases mem_atbToAppend.1 hm with ⟨hmem, h1, h2, h3⟩
      exact atbMaterialize_acc_sub _ _ u
        (mem_atbNewSrcs.2 ⟨m, hmem, h1, Or.inr ⟨h2, h3, hu⟩⟩)
    · have hguard : ∀ y' ∈ x.lst, ∀ u ∈ y'.src, u.op ≠ OpK.BLOCK := by
        intro y' hy' u hu
        exact ((hwf.2.1 y' hy').2.2.2.2.2.2 u hu).1
      refine lstOrd_transfer_guard hguard (fun v hv => absurd hv (List.not_mem_nil v)) ?_ hwf.2.2
      intro u hG hc
      rcases hcov u hG hc with h1 | h1
      · exact Or.inl (by simpa using h1)
      · exact Or.inr h1
  · -- WFdeep of sources
    intro w hw
    rw [hsrcmem] at hw
    exact hWdSrc w hw
  · -- sink members only from x
    rintro ⟨m, hm, hs⟩
    simp only [UOp.lst] at hm
    rcases List.mem_append.1 hm with h1 | h1
    · exact absurd hs (hTA m h1).2
    · exact ⟨m, h1, hs⟩
  · exact ⟨_, rfl, fun m hm => (hTA m hm).2⟩

theorem origTree_mono {u z : UOp} (h : OrigTree u) (hr : Reach u z) : OrigTree z :=
  fun w hw => h w (hr.trans hw)

theorem rewritePass_block_shape {ch : UOp → List UOp} {fk : List UOp} {C : UOp}
    (hb : C.op = OpK.BLOCK) :
    (rewritePass ch fk C).op = OpK.BLOCK ∧ (rewritePass ch fk C).rngs = C.rngs ∧
    ∃ t, (rewritePass ch fk C).lst = t ++ C.lst := by
  cases C with
  | mk o d s n b r l =>
    simp only [UOp.op] at hb
    subst hb
    rw [rewritePass_def]
    have hns : (UOp.mk OpK.BLOCK d (rewriteList ch fk s) n b r l).op ≠ OpK.SINK := by
      simp [UOp.op]
    rcases happ : appendToBlock ch fk (UOp.mk OpK.BLOCK d (rewriteList ch fk s) n b r l)
      with _ | y
    · simp only [makeBasicBlocks, UOp.op, if_neg, happ]
      refine ⟨rfl, rfl, [], rfl⟩
    · obtain rfl := appendToBlock_some happ
      simp only [makeBasicBlocks, UOp.op, happ]
      exact ⟨rfl, rfl, _, rfl⟩

theorem rewriteBlock_main {ch : UOp → List UOp} {fk : List UOp} {u : UOp}
    (hb : u.op = OpK.BLOCK) (hwf : BlockWF u) (hdeep : ∀ w ∈ u.src, WFdeep w)
    (hIH : ∀ w ∈ u.src, WFdeep (rewritePass ch fk w)) :
    (rewritePass ch fk u).op = OpK.BLOCK ∧ BlockWF (rewritePass ch fk u) ∧
    (∀ w ∈ (rewritePass ch fk u).src, WFdeep w) ∧
    (hasSinkMember (rewritePass ch fk u) → hasSinkMember u) := by
  cases u with
  | mk o d s n b r l =>
    simp only [UOp.op] at hb
    subst hb
    simp only [UOp.src] at hdeep hIH
    simp only [BlockWF, UOp.op, UOp.src, UOp.lst] at hwf
    have hwfx : BlockWF (UOp.mk OpK.BLOCK d (rewriteList ch fk s) n b r l) := by
      refine ⟨rfl, ?_, ?_⟩
      · simpa [UOp.lst] using hwf.2.1
      · simp only [UOp.src, UOp.lst]
        have hguard : ∀ y' ∈ l, ∀ v ∈ y'.src, v.op ≠ OpK.BLOCK := by
          intro y' hy' v hv
          exact ((hwf.2.1 y' hy').2.2.2.2.2.2 v hv).1
        refine lstOrd_transfer_guard hguard (fun v hv => absurd hv (List.not_mem_nil v))
          ?_ hwf.2.2
        intro v hG hc
        right
        rcases hc with h1 | ⟨C, hC, hCb, hvC⟩
        · left
          have hfix : rewritePass ch fk v = v :=
            rewritePass_fix v (wfdeep_orig (hdeep v h1) hG) ch fk
          rw [rewriteList_eq_map]
          exact List.mem_map.2 ⟨v, h1, hfix⟩
        · right
          have hshape := @rewritePass_block_shape ch fk _ hCb
          refine ⟨rewritePass ch fk C, ?_, hshape.1, ?_⟩
          · rw [rewriteList_eq_map]
            exact List.mem_map.2 ⟨C, hC, rfl⟩
          · rcases hshape.2.2 with ⟨t, ht⟩
            rw [ht]
            exact List.mem_append_right _ hvC
    have hdx : ∀ w ∈ (UOp.mk OpK.BLOCK d (rewriteList ch fk s) n b r l).src, WFdeep w := by
      intro w hw
      simp only [UOp.src] at hw
      rw [rewriteList_eq_map] at hw
      rcases List.mem_map.1 hw with ⟨v, hv, rfl⟩
      exact hIH v hv
    rw [rewritePass_def]
    rcases happ : appendToBlock ch fk (UOp.mk OpK.BLOCK d (rewriteList ch fk s) n b r l)
      with _ | y
    · simp only [makeBasicBlocks, UOp.op, happ]
      refine ⟨rfl, hwfx, hdx, ?_⟩
      intro hs
      simpa [hasSinkMember, UOp.lst] using hs
    · simp only [makeBasicBlocks, UOp.op, happ]
      have hres := appendToBlock_WF hwfx hdx happ
      refine ⟨hres.1, hres.2.2.1, hres.2.2.2.1, ?_⟩
      intro hs
      have := hres.2.2.2.2.1 hs
      simpa [hasSinkMember, UOp.lst] using this

theorem rewritePass_WFdeep : ∀ (u : UOp), WFdeep u →
    ∀ (ch : UOp → List UOp) (fk : List UOp), WFdeep (rewritePass ch fk u)
  | .mk o d s n b r l, h, ch, fk => by
    by_cases hb : (UOp.mk o d s n b r l).op = OpK.BLOCK
    · have hwfb := wfdeep_block h hb
      have hdeep : ∀ w ∈ (UOp.mk o d s n b r l).src, WFdeep w := by
        intro w hw
        exact WFdeep_mono h (Reach.step hw (Reach.refl w))
      have hIH : ∀ w ∈ (UOp.mk o d s n b r l).src, WFdeep (rewritePass ch fk w) := by
        intro w hw
        have hws : w ∈ s := by simpa [UOp.src] using hw
        exact rewritePass_WFdeep w (hdeep w hw) ch fk
      have hmain := rewriteBlock_main hb hwfb.1 hdeep hIH
      refine WFdeep_build ⟨hmain.1, hmain.2.1, ?_⟩ hmain.2.2.1
      intro hs
      exact hwfb.2 (hmain.2.2.2 hs)
    · have ho := wfdeep_orig h hb
      rw [rewritePass_fix _ ho ch fk]
      exact h
termination_by u => sizeOf u
decreasing_by
  exact UOp.sizeOf_mem_src_lt hws

theorem rewritePass_WFroot {s : UOp} (h : WFroot s) (ch : UOp → List UOp) (fk : List UOp) :
    WFroot (rewritePass ch fk s) := by
  rcases h with ⟨h1, h2, h3, h4⟩ | ⟨h1, h2, h3⟩
  · -- original sink root
    cases s with
    | mk o d ss n b r l =>
      simp only [UOp.op] at h1
      simp only [UOp.rngs] at h2
      simp only [UOp.lst] at h3
      simp only [UOp.src] at h4
      subst h1 ; subst h2 ; subst h3
      have hfixs : rewriteList ch fk ss = ss := rewriteList_fix ss h4 ch fk
      rw [rewritePass_def, hfixs]
      simp only [makeBasicBlocks, UOp.op, if_pos, UOp.src]
      right
      refine ⟨rfl, ⟨rfl, ?_, ?_⟩, ?_⟩
      · intro m hm
        simp only [UOp.lst] at hm
        obtain rfl := List.mem_singleton.1 hm
        refine ⟨by simp [UOp.op], by simp [UOp.op], by simp [UOp.op], by simp [UOp.op, DONT_PLACE_IN_BLOCK],
          by simp [UOp.rngs], by simp [UOp.lst], ?_⟩
        intro v hv
        simp only [UOp.src] at hv
        have := h4 v hv v (Reach.refl v)
        exact ⟨this.1, this.2.1, this.2.2.1, this.2.2.2.1⟩
      · simp only [UOp.src, UOp.lst]
        rw [lstOrd_iff]
        refine ⟨?_, trivial⟩
        intro v hv
        right
        left
        simpa [UOp.src] using hv
      · intro w hw
        simp only [UOp.src] at hw
        intro z hz
        exact Or.inr (origTree_mono (h4 w hw) hz)
  · -- block root
    have hdeep : ∀ w ∈ s.src, WFdeep w := h3
    have hIH : ∀ w ∈ s.src, WFdeep (rewritePass ch fk w) := by
      intro w hw
      exact rewritePass_WFdeep w (h3 w hw) ch fk
    have hmain := rewriteBlock_main h1 h2 hdeep hIH
    exact Or.inr ⟨hmain.1, hmain.2.1, hmain.2.2.1⟩

theorem reach_inv {u v : UOp} (h : Reach u v) : u = v ∨ ∃ w ∈ u.src, Reach w v := by
  cases h with
  | refl => exact Or.inl rfl
  | step hw h' => exact Or.inr ⟨_, hw, h'⟩

theorem appendToBlock_reach {ch : UOp → List UOp} {fk : List UOp} {x y a : UOp}
    (h : appendToBlock ch fk x = some y) (ha : a.op = OpK.DEFINE_ACC) :
    (∃ w ∈ x.src, Reach w a) → ∃ w' ∈ y.src, Reach w' a := by
  rintro ⟨w, hw, hr⟩
  obtain rfl := appendToBlock_some h
  simp only [UOp.src]
  have hkeptacc : atbKept ch fk x.lst a := Or.inl (by simp [ha, DONT_PLACE_IN_BLOCK])
  have haop : a.op ≠ OpK.BLOCK := by rw [ha] ; decide
  by_cases hwa : w = a
  · subst hwa
    refine ⟨w, ?_, Reach.refl w⟩
    rw [mem_dedupF]
    exact atbMaterialize_acc_sub _ _ w
      (mem_atbNewSrcs.2 ⟨w, hw, haop, Or.inl ⟨hkeptacc, rfl⟩⟩)
  · rcases reach_inv hr with rfl | ⟨q, hq, hqa⟩
    · exact absurd rfl hwa
    · by_cases hb : w.op = OpK.BLOCK
      · have hin : w ∈ nbGet (atbGo ch fk x.rngs x.lst x.src ⟨[], [], [], false⟩).newBlocks
            w.rngs := mem_atbNbGet.2 ⟨hw, Or.inl ⟨hb, rfl⟩⟩
        have hne : nbGet (atbGo ch fk x.rngs x.lst x.src ⟨[], [], [], false⟩).newBlocks
            w.rngs ≠ [] := by
          intro he ; rw [he] at hin ; cases hin
        have hpair := nbGet_mem _ _ hne
        by_cases hg1 : nbGet (atbGo ch fk x.rngs x.lst x.src ⟨[], [], [], false⟩).newBlocks
            w.rngs = [w]
        · refine ⟨w, ?_, hr⟩
          rw [mem_dedupF]
          rw [hg1] at hpair
          exact atbMaterialize_single_block _ _ _ _ hpair hb
        · have hsing : ∀ b, nbGet (atbGo ch fk x.rngs x.lst x.src ⟨[], [], [], false⟩).newBlocks
              w.rngs = [b] → b.op ≠ OpK.BLOCK := by
            intro b he
            rw [he] at hin
            obtain rfl := List.mem_singleton.1 hin
            exact absurd he hg1
          refine ⟨nbMaterialize w.rngs _, ?_, Reach.step (nbMaterialize_src_iff.2 ⟨w, hin, hq⟩) hqa⟩
          rw [mem_dedupF]
          exact atbMaterialize_group _ _ _ _ hpair hsing
      · by_cases h2 : atbKept ch fk x.lst w
        · refine ⟨w, ?_, hr⟩
          rw [mem_dedupF]
          exact atbMaterialize_acc_sub _ _ w (mem_atbNewSrcs.2 ⟨w, hw, hb, Or.inl ⟨h2, rfl⟩⟩)
        · by_cases h3 : granges w = x.rngs
          · refine ⟨q, ?_, hqa⟩
            rw [mem_dedupF]
            exact atbMaterialize_acc_sub _ _ q
              (mem_atbNewSrcs.2 ⟨w, hw, hb, Or.inr ⟨h2, h3, hq⟩⟩)
          · have hin : w ∈ nbGet (atbGo ch fk x.rngs x.lst x.src ⟨[], [], [], false⟩).newBlocks
                (granges w) := mem_atbNbGet.2 ⟨hw, Or.inr ⟨hb, h2, h3, rfl⟩⟩
            have hne : nbGet (atbGo ch fk x.rngs x.lst x.src ⟨[], [], [], false⟩).newBlocks
                (granges w) ≠ [] := by
              intro he ; rw [he] at hin ; cases hin
            have hpair := nbGet_mem _ _ hne
            have hsing : ∀ b, nbGet (atbGo ch fk x.rngs x.lst x.src ⟨[], [], [], false⟩).newBlocks
                (granges w) = [b] → b.op ≠ OpK.BLOCK := by
              intro b he
              rw [he] at hin
              obtain rfl := List.mem_singleton.1 hin
              exact hb
            refine ⟨nbMaterialize (granges w) _, ?_,
              Reach.step (nbMaterialize_src_iff.2 ⟨w, hin, hq⟩) hqa⟩
            rw [mem_dedupF]
            exact atbMaterialize_group _ _ _ _ hpair hsing

theorem rewritePass_reach_acc : ∀ (u : UOp), WFdeep u → ∀ (a : UOp), Reach u a →
    a.op = OpK.DEFINE_ACC → ∀ (ch : UOp → List UOp) (fk : List UOp),
    Reach (rewritePass ch fk u) a
  | .mk o d s n b r l, h, a, hr, ha, ch, fk => by
    by_cases hb : (UOp.mk o d s n b r l).op = OpK.BLOCK
    · rcases reach_inv hr with rfl | ⟨w, hw, hwa⟩
      · rw [UOp.op] at hb
        rw [hb] at ha
        cases ha
      · have hws : w ∈ s := by simpa [UOp.src] using hw
        have hIH : Reach (rewritePass ch fk w) a :=
          rewritePass_reach_acc w (WFdeep_mono h (Reach.step hw (Reach.refl w))) a hwa ha ch fk
        rw [UOp.op] at hb
        subst hb
        rw [rewritePass_def]
        rcases happ : appendToBlock ch fk (UOp.mk OpK.BLOCK d (rewriteList ch fk s) n b r l)
          with _ | y
        · simp only [makeBasicBlocks, UOp.op, happ]
          refine @Reach.step (UOp.mk OpK.BLOCK d (rewriteList ch fk s) n b r l)
            (rewritePass ch fk w) _ ?_ hIH
          simp only [UOp.src]
          rw [rewriteList_eq_map]
          exact List.mem_map.2 ⟨w, hws, rfl⟩
        · simp only [makeBasicBlocks, UOp.op, happ]
          have hsrc : ∃ w' ∈ (UOp.mk OpK.BLOCK d (rewriteList ch fk s) n b r l).src,
              Reach w' a := by
            refine ⟨rewritePass ch fk w, ?_, hIH⟩
            simp only [UOp.src]
            rw [rewriteList_eq_map]
            exact List.mem_map.2 ⟨w, hws, rfl⟩
          rcases appendToBlock_reach happ ha hsrc with ⟨w', hw', hr'⟩
          exact Reach.step hw' hr'
    · rw [rewritePass_fix _ (wfdeep_orig h hb) ch fk]
      exact hr
termination_by u => sizeOf u
decreasing_by
  exact UOp.sizeOf_mem_src_lt hws

theorem rewritePass_sink_eq {ch : UOp → List UOp} {fk : List UOp}
    {d : Nat} {s : List UOp} {n : Nat} {b : Bool} {r l : List UOp}
    (hs : rewriteList ch fk s = s) :
    rewritePass ch fk (.mk OpK.SINK d s n b r l) =
      .mk OpK.BLOCK 0 s 0 false [] [.mk OpK.SINK d s n b r l] := by
  rw [rewritePass_def, hs]
  simp [makeBasicBlocks, UOp.op, UOp.src]

theorem rewritePass_sink_op {ch : UOp → List UOp} {fk : List UOp} {u : UOp}
    (h : u.op = OpK.SINK) : (rewritePass ch fk u).op = OpK.BLOCK := by
  cases u with
  | mk o d s n b r l =>
    simp only [UOp.op] at h
    subst h
    rw [rewritePass_def]
    simp [makeBasicBlocks, UOp.op]

theorem rewriteRoot_reach_acc {s a : UOp} (h : WFroot s) (hr : Reach s a)
    (ha : a.op = OpK.DEFINE_ACC) (ch : UOp → List UOp) (fk : List UOp) :
    Reach (rewritePass ch fk s) a := by
  rcases h with ⟨h1, h2, h3, h4⟩ | ⟨h1, h2, h3⟩
  · cases s with
    | mk o d src n b r l =>
      simp only [UOp.op] at h1
      subst h1
      rcases reach_inv hr with rfl | ⟨w, hw, hwa⟩
      · rw [UOp.op] at ha ; cases ha
      · simp only [UOp.src] at h4 hw
        rw [rewritePass_sink_eq (rewriteList_fix src h4 ch fk)]
        exact Reach.step (by simpa [UOp.src] using hw) hwa
  · cases s with
    | mk o d src n b r l =>
      simp only [UOp.op] at h1
      subst h1
      rcases reach_inv hr with rfl | ⟨w, hw, hwa⟩
      · rw [UOp.op] at ha ; cases ha
      · simp only [UOp.src] at h3 hw
        have hIH : Reach (rewritePass ch fk w) a :=
          rewritePass_reach_acc w (h3 w hw) a hwa ha ch fk
        rw [rewritePass_def]
        rcases happ : appendToBlock ch fk
            (UOp.mk OpK.BLOCK d (rewriteList ch fk src) n b r l) with _ | y
        · simp only [makeBasicBlocks, UOp.op, happ]
          refine @Reach.step _ (rewritePass ch fk w) _ ?_ hIH
          simp only [UOp.src]
          rw [rewriteList_eq_map]
          exact List.mem_map.2 ⟨w, hw, rfl⟩
        · simp only [makeBasicBlocks, UOp.op, happ]
          have hsrc : ∃ w' ∈ (UOp.mk OpK.BLOCK d (rewriteList ch fk src) n b r l).src,
              Reach w' a := by
            refine ⟨rewritePass ch fk w, ?_, hIH⟩
            simp only [UOp.src]
            rw [rewriteList_eq_map]
            exact List.mem_map.2 ⟨w, hw, rfl⟩
          rcases appendToBlock_reach happ ha hsrc with ⟨w', hw', hr'⟩
          exact Reach.step hw' hr'

theorem graphRewrite_ok_facts : ∀ (fuel : Nat) (ch : UOp → List UOp) (fk : List UOp)
    (s t : UOp), graphRewrite fuel ch fk s = .ok t → WFroot s →
    WFroot t ∧ rewritePass ch fk t = t ∧
    (∀ a, Reach s a → a.op = OpK.DEFINE_ACC → Reach t a)
  | 0, _, _, _, _, h, _ => by cases h
  | n + 1, ch, fk, s, t, h, hw => by
    have h' : (if rewritePass ch fk s = s then (Except.ok s : Except LErr UOp)
        else graphRewrite n ch fk (rewritePass ch fk s)) = Except.ok t := h
    by_cases he : rewritePass ch fk s = s
    · rw [if_pos he] at h'
      injection h' with h''
      subst h''
      exact ⟨hw, he, fun a hr _ => hr⟩
    · rw [if_neg he] at h'
      obtain ⟨hw', hfix, hre⟩ :=
        graphRewrite_ok_facts n ch fk _ t h' (rewritePass_WFroot hw ch fk)
      exact ⟨hw', hfix, fun a hr ha => hre a (rewriteRoot_reach_acc hw hr ha ch fk) ha⟩

theorem blockUopLoop_ok_facts : ∀ (fuel : Nat) (ch : UOp → List UOp) (n : Nat)
    (fk : List UOp) (s t : UOp), blockUopLoop fuel ch n fk s = .ok t → WFroot s →
    WFroot t ∧ (∃ fk2, rewritePass ch fk2 t = t) ∧
    (∀ a, Reach s a → a.op = OpK.DEFINE_ACC → Reach t a)
  | _, _, 0, _, _, _, h, _ => by cases h
  | fuel, ch, n + 1, fk, s, t, h, hw => by
    have h' : (match graphRewrite fuel ch fk s with
        | .error e => (.error e : Except LErr UOp)
        | .ok s1 => if computeForks s1 = [] then .ok s1
            else blockUopLoop fuel ch n (computeForks s1) s1) = Except.ok t := h
    rcases hg : graphRewrite fuel ch fk s with e | s1 <;> rw [hg] at h'
    · cases h'
    · simp only [] at h'
      obtain ⟨hw1, hfix1, hre1⟩ := graphRewrite_ok_facts fuel ch fk s s1 hg hw
      by_cases hf : computeForks s1 = []
      · rw [if_pos hf] at h'
        injection h' with h''
        subst h''
        exact ⟨hw1, ⟨fk, hfix1⟩, hre1⟩
      · rw [if_neg hf] at h'
        obtain ⟨hw2, hfix2, hre2⟩ := blockUopLoop_ok_facts fuel ch n _ s1 t h' hw1
        exact ⟨hw2, hfix2, fun a hr ha => hre2 a (hre1 a hr ha) ha⟩

theorem blockUop_ok_block {fuel : Nat} {g t : UOp} (hw : WFroot g)
    (h : blockUop fuel g = .ok t) :
    t.op = OpK.BLOCK ∧ BlockWF t ∧ (∀ w ∈ t.src, WFdeep w) ∧
    (∀ a, Reach g a → a.op = OpK.DEFINE_ACC → Reach t a) := by
  obtain ⟨hw', ⟨fk2, hfix⟩, hre⟩ := blockUopLoop_ok_facts fuel _ fuel [] g t h hw
  rcases hw' with ⟨h1, _, _, _⟩ | ⟨h1, h2, h3⟩
  · have hop := @rewritePass_sink_op (chFun (childDfs g ⟨[], []⟩)) fk2 _ h1
    rw [hfix, h1] at hop
    cases hop
  · exact ⟨h1, h2, h3, hre⟩

/-- Occurrence count of consumer `v` in the `children[p]` list of a raw
side-table. -/
def cnt (l : List (UOp × List UOp)) (p v : UOp) : Nat :=
  ((chLookup l p).getD []).count v

theorem chLookup_isSome_iff {l : List (UOp × List UOp)} {p : UOp} :
    (chLookup l p).isSome = true ↔ p ∈ l.map Prod.fst := by
  induction l with
  | nil => simp [chLookup]
  | cons a rest ih =>
    obtain ⟨k, w⟩ := a
    by_cases hk : k = p
    · subst hk
      simp [chLookup]
    · rw [chLookup]
      simp only [if_neg hk, ih, List.map_cons, List.mem_cons]
      constructor
      · exact fun h => Or.inr h
      · rintro (h | h)
        · exact absurd h.symm hk
        · exact h

theorem cnt_append_new (l : List (UOp × List UOp)) (u p v : UOp) :
    cnt (l ++ [(u, [])]) p v = cnt l p v := by
  induction l with
  | nil => by_cases h : u = p <;> simp [cnt, chLookup, h]
  | cons a rest ih =>
    obtain ⟨k, w⟩ := a
    by_cases h : k = p
    · simp [cnt, chLookup, h]
    · simp only [cnt, List.cons_append, chLookup, if_neg h]
      simpa [cnt] using ih

theorem chAppendEntry_fst : ∀ (l : List (UOp × List UOp)) (x u : UOp),
    (chAppendEntry l x u).map Prod.fst = l.map Prod.fst := by
  intro l x u
  induction l with
  | nil => rfl
  | cons a rest ih =>
    obtain ⟨k, w⟩ := a
    by_cases h : k = x <;> simp [chAppendEntry, h, ih]

theorem cnt_chAppendEntry : ∀ (l : List (UOp × List UOp)) (x u p v : UOp),
    cnt (chAppendEntry l x u) p v =
      cnt l p v + if p = x ∧ v = u ∧ x ∈ l.map Prod.fst then 1 else 0 := by
  intro l x u p v
  induction l with
  | nil => simp [chAppendEntry, cnt]
  | cons a rest ih =>
    obtain ⟨k, w⟩ := a
    by_cases hk : k = x
    · subst hk
      by_cases hp : k = p
      · subst hp
        by_cases hv : v = u <;>
          simp [chAppendEntry, cnt, chLookup, List.count_append, List.count_singleton', hv]
      · have hpx : ¬ (p = k ∧ v = u ∧ k ∈ ((k, w) :: rest).map Prod.fst) := by
          rintro ⟨h1, _⟩ ; exact hp h1.symm
        rw [if_neg hpx, Nat.add_zero]
        simp only [chAppendEntry, if_pos rfl]
        simp [cnt, chLookup, hp]
    · by_cases hp : k = p
      · subst hp
        have hpx : ¬ (k = x ∧ v = u ∧ x ∈ ((k, w) :: rest).map Prod.fst) := by
          rintro ⟨h1, _⟩ ; exact hk h1
        rw [if_neg hpx, Nat.add_zero]
        simp only [chAppendEntry, if_neg hk]
        simp [cnt, chLookup]
      · simp only [chAppendEntry, if_neg hk, cnt, chLookup, if_neg hp]
        have hmem2 : (p = x ∧ v = u ∧ x ∈ ((k, w) :: rest).map Prod.fst) ↔
            (p = x ∧ v = u ∧ x ∈ rest.map Prod.fst) := by
          constructor
          · rintro ⟨h1, h2, h3⟩
            rw [List.map_cons] at h3
            rcases List.mem_cons.1 h3 with h4 | h4
            · exact absurd h4.symm hk
            · exact ⟨h1, h2, h4⟩
          · rintro ⟨h1, h2, h3⟩
            refine ⟨h1, h2, ?_⟩
            rw [List.map_cons]
            exact List.mem_cons_of_mem _ h3
        rw [if_congr hmem2 rfl rfl]
        simpa [cnt] using ih

set_option maxHeartbeats 1600000 in
mutual

theorem childDfs_spec : ∀ (u : UOp) (m : ChMap),
    m.ch.map Prod.fst = m.keys → m.keys.Nodup →
    ((childDfs u m).ch.map Prod.fst = (childDfs u m).keys ∧ (childDfs u m).keys.Nodup) ∧
    u ∈ (childDfs u m).keys ∧
    (∃ fresh, (childDfs u m).keys = m.keys ++ fresh ∧ ∀ k ∈ fresh, Reach u k) ∧
    (∀ p v, cnt (childDfs u m).ch p v =
      cnt m.ch p v +
        if v ∈ (childDfs u m).keys ∧ v ∉ m.keys then v.src.count p else 0)
  | .mk o d s n b r l, m, h1, h2 => by
    by_cases hs : (chLookup m.ch (.mk o d s n b r l)).isSome = true
    · have he : childDfs (.mk o d s n b r l) m = m := by
        simp only [childDfs, if_pos hs]
      rw [he]
      refine ⟨⟨h1, h2⟩, ?_, ⟨[], by simp, by simp⟩, ?_⟩
      · rw [← h1]
        exact chLookup_isSome_iff.1 hs
      · intro p v
        simp
    · have he : childDfs (.mk o d s n b r l) m =
          childDfsSrcs (.mk o d s n b r l) s
            ⟨m.keys ++ [.mk o d s n b r l], m.ch ++ [(.mk o d s n b r l, [])]⟩ := by
        simp only [childDfs, if_neg hs]
      have hnm : (UOp.mk o d s n b r l) ∉ m.keys := by
        rw [← h1]
        intro hc
        exact hs (chLookup_isSome_iff.2 hc)
      have h1' : (m.ch ++ [(UOp.mk o d s n b r l, [])]).map Prod.fst =
          m.keys ++ [UOp.mk o d s n b r l] := by
        rw [List.map_append, h1]
        rfl
      have h2' : (m.keys ++ [UOp.mk o d s n b r l]).Nodup := by
        refine List.Nodup.append h2 (List.nodup_singleton _) ?_
        intro x hx hx'
        obtain rfl := List.mem_singleton.1 hx'
        exact hnm hx
      obtain ⟨⟨g1, g2⟩, ⟨fr, gk, gr⟩, gc⟩ :=
        childDfsSrcs_spec (.mk o d s n b r l) s
          ⟨m.keys ++ [.mk o d s n b r l], m.ch ++ [(.mk o d s n b r l, [])]⟩
          h1' h2' (by simp)
      rw [he]
      refine ⟨⟨g1, g2⟩, ?_, ⟨(.mk o d s n b r l) :: fr, ?_, ?_⟩, ?_⟩
      · rw [gk]
        simp
      · rw [gk]
        simp
      · intro k hk
        rcases List.mem_cons.1 hk with rfl | hk'
        · exact Reach.refl _
        · rcases gr k hk' with ⟨x, hx, hrx⟩
          exact Reach.step (by simpa [UOp.src] using hx) hrx
      · intro p v
        have hgc := gc p v
        rw [cnt_append_new] at hgc
        rw [hgc]
        dsimp only
        by_cases hvu : v = UOp.mk o d s n b r l
        · have hv1 : v ∈ (childDfsSrcs (UOp.mk o d s n b r l) s
              ⟨m.keys ++ [UOp.mk o d s n b r l], m.ch ++ [(UOp.mk o d s n b r l, [])]⟩).keys := by
            rw [hvu, gk]
            simp
          have hv3 : v ∈ m.keys ++ [UOp.mk o d s n b r l] := by
            rw [hvu]
            simp
          have hn2 : ¬ (v ∈ (childDfsSrcs (UOp.mk o d s n b r l) s
              ⟨m.keys ++ [UOp.mk o d s n b r l], m.ch ++ [(UOp.mk o d s n b r l, [])]⟩).keys ∧
              v ∉ m.keys ++ [UOp.mk o d s n b r l]) := by
            rintro ⟨_, hc⟩
            exact hc hv3
          have hcr : v ∈ (childDfsSrcs (UOp.mk o d s n b r l) s
              ⟨m.keys ++ [UOp.mk o d s n b r l], m.ch ++ [(UOp.mk o d s n b r l, [])]⟩).keys ∧
              v ∉ m.keys := ⟨hv1, by rw [hvu] ; exact hnm⟩
          rw [if_neg hn2]
          rw [if_pos hcr]
          rw [if_pos hvu]
          rw [hvu]
          simp only [UOp.src]
          omega
        · rw [if_neg (fun hc : v = _ => hvu hc)]
          by_cases hv2 : v ∈ m.keys
          · have hn2 : ¬ (v ∈ (childDfsSrcs (UOp.mk o d s n b r l) s
                ⟨m.keys ++ [UOp.mk o d s n b r l], m.ch ++ [(UOp.mk o d s n b r l, [])]⟩).keys ∧
                v ∉ m.keys ++ [UOp.mk o d s n b r l]) := by
              rintro ⟨_, hc⟩
              exact hc (List.mem_append_left _ hv2)
            have hn3 : ¬ (v ∈ (childDfsSrcs (UOp.mk o d s n b r l) s
                ⟨m.keys ++ [UOp.mk o d s n b r l], m.ch ++ [(UOp.mk o d s n b r l, [])]⟩).keys ∧
                v ∉ m.keys) := by
              rintro ⟨_, hc⟩
              exact hc hv2
            rw [if_neg hn2, if_neg hn3]
          · by_cases hv4 : v ∈ (childDfsSrcs (UOp.mk o d s n b r l) s
                ⟨m.keys ++ [UOp.mk o d s n b r l], m.ch ++ [(UOp.mk o d s n b r l, [])]⟩).keys
            · have hv5 : v ∉ m.keys ++ [UOp.mk o d s n b r l] := by
                simp only [List.mem_append, List.mem_singleton]
                rintro (hc | hc)
                · exact hv2 hc
                · exact hvu hc
              rw [if_pos ⟨hv4, hv5⟩, if_pos ⟨hv4, hv2⟩]
              omega
            · have hn2 : ¬ (v ∈ (childDfsSrcs (UOp.mk o d s n b r l) s
                  ⟨m.keys ++ [UOp.mk o d s n b r l], m.ch ++ [(UOp.mk o d s n b r l, [])]⟩).keys ∧
                  v ∉ m.keys ++ [UOp.mk o d s n b r l]) := by
                rintro ⟨hc, _⟩
                exact hv4 hc
              have hn3 : ¬ (v ∈ (childDfsSrcs (UOp.mk o d s n b r l) s
                  ⟨m.keys ++ [UOp.mk o d s n b r l], m.ch ++ [(UOp.mk o d s n b r l, [])]⟩).keys ∧
                  v ∉ m.keys) := by
                rintro ⟨hc, _⟩
                exact hv4 hc
              rw [if_neg hn2, if_neg hn3]

theorem childDfsSrcs_spec : ∀ (u : UOp) (rest : List UOp) (m : ChMap),
    m.ch.map Prod.fst = m.keys → m.keys.Nodup → u ∈ m.keys →
    ((childDfsSrcs u rest m).ch.map Prod.fst = (childDfsSrcs u rest m).keys ∧
      (childDfsSrcs u rest m).keys.Nodup) ∧
    (∃ fresh, (childDfsSrcs u rest m).keys = m.keys ++ fresh ∧
      ∀ k ∈ fresh, ∃ x ∈ rest, Reach x k) ∧
    (∀ p v, cnt (childDfsSrcs u rest m).ch p v =
      cnt m.ch p v +
        (if v ∈ (childDfsSrcs u rest m).keys ∧ v ∉ m.keys then v.src.count p else 0) +
        (if v = u then rest.count p else 0))
  | u, [], m, h1, h2, _ => by
    refine ⟨⟨h1, h2⟩, ⟨[], by simp [childDfsSrcs], by simp⟩, ?_⟩
    intro p v
    simp [childDfsSrcs]
  | u, x :: rest, m, h1, h2, hu => by
    obtain ⟨⟨g1, g2⟩, gx, ⟨fr1, gk1, gr1⟩, gc1⟩ := childDfs_spec x m h1 h2
    have h1e : (chAppendEntry (childDfs x m).ch x u).map Prod.fst =
        (childDfs x m).keys := by
      rw [chAppendEntry_fst, g1]
    have hmem1 : ∀ y, y ∈ m.keys → y ∈ (childDfs x m).keys := by
      intro y hy
      rw [gk1]
      exact List.mem_append_left _ hy
    obtain ⟨⟨f1, f2⟩, ⟨fr2, fk2, fr2r⟩, fc2⟩ :=
      childDfsSrcs_spec u rest ⟨(childDfs x m).keys, chAppendEntry (childDfs x m).ch x u⟩
        h1e g2 (hmem1 u hu)
    have he : childDfsSrcs u (x :: rest) m =
        childDfsSrcs u rest ⟨(childDfs x m).keys, chAppendEntry (childDfs x m).ch x u⟩ := by
      simp only [childDfsSrcs]
    rw [he]
    have hsub1 : ∀ y, y ∈ (childDfs x m).keys →
        y ∈ (childDfsSrcs u rest
          ⟨(childDfs x m).keys, chAppendEntry (childDfs x m).ch x u⟩).keys := by
      intro y hy
      rw [fk2]
      exact List.mem_append_left _ hy
    refine ⟨⟨f1, f2⟩, ⟨fr1 ++ fr2, ?_, ?_⟩, ?_⟩
    · rw [fk2]
      dsimp only at gk1 ⊢
      rw [gk1, List.append_assoc]
    · intro k hk
      rcases List.mem_append.1 hk with hk2 | hk2
      · exact ⟨x, List.mem_cons_self _ _, gr1 k hk2⟩
      · rcases fr2r k hk2 with ⟨x2, hx2, hrx⟩
        exact ⟨x2, List.mem_cons_of_mem _ hx2, hrx⟩
    · intro p v
      have hstep := fc2 p v
      dsimp only at hstep
      rw [cnt_chAppendEntry, g1] at hstep
      have hcount : (x :: rest).count p = rest.count p + (if p = x then 1 else 0) := by
        by_cases hpx : p = x
        · subst hpx
          simp [List.count_cons]
        · simp [List.count_cons, hpx, fun h : x = p => hpx h.symm]
      rw [hstep, gc1 p v, hcount]
      have himp1 : v ∈ m.keys → v ∈ (childDfs x m).keys := hmem1 v
      have himp2 : v ∈ (childDfs x m).keys → v ∈ (childDfsSrcs u rest
          ⟨(childDfs x m).keys, chAppendEntry (childDfs x m).ch x u⟩).keys := hsub1 v
      split_ifs <;> first | omega | (exfalso ; tauto)
end

theorem pickMin_perm : ∀ (m : UOp) (xs : List UOp),
    List.Perm ((pickMin m xs).1 :: (pickMin m xs).2) (m :: xs)
  | m, [] => by simp [pickMin]
  | m, x :: xs => by
    rw [pickMin]
    by_cases h : keyLt x m = true
    · rw [if_pos h]
      rcases hp : pickMin x xs with ⟨r, rest⟩
      have ih := pickMin_perm x xs
      rw [hp] at ih
      exact List.Perm.trans (List.Perm.swap _ _ _) (List.Perm.cons m ih)
    · rw [if_neg h]
      rcases hp : pickMin m xs with ⟨r, rest⟩
      have ih := pickMin_perm m xs
      rw [hp] at ih
      exact List.Perm.trans (List.Perm.swap _ _ _) (List.Perm.trans (List.Perm.cons x ih)
        (List.Perm.swap _ _ _))

theorem count_cons_eq (a b : UOp) (l : List UOp) :
    List.count a (b :: l) = List.count a l + if a = b then 1 else 0 := by
  by_cases h : a = b
  · subst h
    simp [List.count_cons]
  · simp [List.count_cons, h, fun hh : b = a => h hh.symm]

theorem decPush_spec : ∀ (c : List UOp) (indeg : UOp → Nat) (q : List UOp),
    (∀ u, c.count u ≤ indeg u) →
    (∀ u, (decPush indeg q c).1 u = indeg u - c.count u) ∧
    (∀ u, (decPush indeg q c).2.count u =
      q.count u + (if 0 < c.count u ∧ indeg u = c.count u then 1 else 0))
  | [], indeg, q, _ => by
    constructor
    · intro u
      simp [decPush]
    · intro u
      simp [decPush]
  | w :: c, indeg, q, h => by
    have hcw : c.count w + 1 ≤ indeg w := by
      have := h w
      rw [count_cons_eq, if_pos rfl] at this
      omega
    have hr : ∀ u, c.count u ≤ (fun v => if v = w then indeg w - 1 else indeg v) u := by
      intro u
      by_cases hu : u = w
      · subst hu
        have := h u
        rw [count_cons_eq, if_pos rfl] at this
        simp only []
        split_ifs <;> omega
      · have := h u
        rw [count_cons_eq, if_neg hu] at this
        simp only []
        split_ifs <;> omega
    obtain ⟨ih1, ih2⟩ := decPush_spec c (fun v => if v = w then indeg w - 1 else indeg v)
      (if indeg w - 1 = 0 then q ++ [w] else q) hr
    have he : decPush indeg q (w :: c) =
        decPush (fun v => if v = w then indeg w - 1 else indeg v)
          (if indeg w - 1 = 0 then q ++ [w] else q) c := by
      simp only [decPush]
    rw [he]
    constructor
    · intro u
      rw [ih1 u, count_cons_eq]
      by_cases hu : u = w
      · subst hu
        simp only [eq_self_iff_true, if_true]
        omega
      · simp only [if_neg hu]
        omega
    · intro u
      rw [ih2 u, count_cons_eq]
      by_cases hu : u = w
      · subst hu
        have hq1 : (if indeg u - 1 = 0 then q ++ [u] else q).count u =
            q.count u + (if indeg u - 1 = 0 then 1 else 0) := by
          by_cases hz : indeg u - 1 = 0
          · rw [if_pos hz, if_pos hz, List.count_append, List.count_singleton]
            simp
          · rw [if_neg hz, if_neg hz]
            omega
        rw [hq1]
        simp only [eq_self_iff_true, if_true, true_and]
        split_ifs <;> omega
      · have hq1 : (if indeg w - 1 = 0 then q ++ [w] else q).count u = q.count u := by
          by_cases hz : indeg w - 1 = 0
          · rw [if_pos hz, List.count_append, List.count_singleton']
            simp [show ¬ w = u from fun h2 => hu h2.symm]
          · rw [if_neg hz]
        rw [hq1]
        split_ifs <;> omega

theorem closeUOp_op (r : UOp) :
    (closeUOp r).op = (if r.op = OpK.RANGE then OpK.ENDRANGE else OpK.ENDIF) := rfl

theorem closeUOp_op_ne_sink (r : UOp) : (closeUOp r).op ≠ OpK.SINK := by
  rw [closeUOp_op]
  split <;> decide

theorem closeUOp_op_ne_acc (r : UOp) : (closeUOp r).op ≠ OpK.DEFINE_ACC := by
  rw [closeUOp_op]
  split <;> decide

theorem closeUOp_op_end (r : UOp) :
    (closeUOp r).op = OpK.ENDRANGE ∨ (closeUOp r).op = OpK.ENDIF := by
  rw [closeUOp_op]
  split
  · exact Or.inl rfl
  · exact Or.inr rfl

theorem closeUOp_src (r : UOp) : (closeUOp r).src = [r] := rfl

theorem mem_insAt : ∀ (k : Nat) (a : UOp) (l : List UOp) (y : UOp),
    y ∈ insAt k a l ↔ y = a ∨ y ∈ l
  | _, a, [], y => by simp [insAt]
  | 0, a, x :: xs, y => by simp [insAt]
  | k + 1, a, x :: xs, y => by
    rw [insAt]
    simp only [List.mem_cons, mem_insAt k a xs y]
    tauto

theorem count_insAt : ∀ (k : Nat) (a : UOp) (l : List UOp) (y : UOp),
    (insAt k a l).count y = l.count y + (if y = a then 1 else 0)
  | k, a, [], y => by
    have he : insAt k a [] = [a] := by cases k <;> rfl
    rw [he, List.count_singleton', List.count_nil]
    by_cases h : y = a
    · simp [h]
    · simp [h, show ¬ a = y from fun h2 => h h2.symm]
  | 0, a, x :: xs, y => by
    show List.count y (a :: x :: xs) = List.count y (x :: xs) + if y = a then 1 else 0
    rw [count_cons_eq]
  | k + 1, a, x :: xs, y => by
    rw [insAt, count_cons_eq, count_cons_eq, count_insAt k a xs y]
    omega

/-- Per-element output invariant at emission point `pre ++ [y]`:
a non-`DEFINE_ACC` instruction has all its operands already emitted; a
`DEFINE_ACC` is emitted before any of its `RANGE` operands; a close
instruction refers to a scope with strictly more prior opens than prior
closes. -/
def emitOk (pre : List UOp) (y : UOp) : Prop :=
  (y.op ≠ OpK.DEFINE_ACC → ∀ w ∈ y.src, w ∈ pre) ∧
  (y.op = OpK.DEFINE_ACC → ∀ r ∈ y.src, r.op = OpK.RANGE → r ∉ pre) ∧
  ((y.op = OpK.ENDRANGE ∨ y.op = OpK.ENDIF) →
    ∀ r ∈ y.src, pre.count (closeUOp r) < pre.count r)

instance (pre : List UOp) (y : UOp) : Decidable (emitOk pre y) := by
  unfold emitOk ; infer_instance

/-- Scan of an emitted sequence, threading the already-emitted prefix. -/
def scanOk : List UOp → List UOp → Prop
  | _, [] => True
  | pre, y :: rest => emitOk pre y ∧ scanOk (pre ++ [y]) rest

instance : ∀ (pre l : List UOp), Decidable (scanOk pre l)
  | _, [] => .isTrue trivial
  | pre, y :: rest =>
    have : Decidable (scanOk (pre ++ [y]) rest) := instDecidableScanOk _ _
    instDecidableAnd

/-- Topological part of the scan: every non-`DEFINE_ACC` instruction follows
all of its operands. -/
def topoOk : List UOp → List UOp → Prop
  | _, [] => True
  | pre, y :: rest =>
    (y.op ≠ OpK.DEFINE_ACC → ∀ w ∈ y.src, w ∈ pre) ∧ topoOk (pre ++ [y]) rest

instance : ∀ (pre l : List UOp), Decidable (topoOk pre l)
  | _, [] => .isTrue trivial
  | pre, y :: rest =>
    have : Decidable (topoOk (pre ++ [y]) rest) := instDecidableTopoOk _ _
    instDecidableAnd

/-- Accumulator part of the scan: a `DEFINE_ACC` precedes every `RANGE`
among its operands. -/
def accOk : List UOp → List UOp → Prop
  | _, [] => True
  | pre, y :: rest =>
    (y.op = OpK.DEFINE_ACC → ∀ r ∈ y.src, r.op = OpK.RANGE → r ∉ pre) ∧
    accOk (pre ++ [y]) rest

instance : ∀ (pre l : List UOp), Decidable (accOk pre l)
  | _, [] => .isTrue trivial
  | pre, y :: rest =>
    have : Decidable (accOk (pre ++ [y]) rest) := instDecidableAccOk _ _
    instDecidableAnd

/-- Scope part of the scan: every close refers to a scope it can close
(strictly more prior opens than prior closes of that scope). -/
def closeOk : List UOp → List UOp → Prop
  | _, [] => True
  | pre, y :: rest =>
    ((y.op = OpK.ENDRANGE ∨ y.op = OpK.ENDIF) →
      ∀ r ∈ y.src, pre.count (closeUOp r) < pre.count r) ∧
    closeOk (pre ++ [y]) rest

instance : ∀ (pre l : List UOp), Decidable (closeOk pre l)
  | _, [] => .isTrue trivial
  | pre, y :: rest =>
    have : Decidable (closeOk (pre ++ [y]) rest) := instDecidableCloseOk _ _
    instDecidableAnd

theorem scanOk_topo : ∀ (pre l : List UOp), scanOk pre l → topoOk pre l
  | _, [], _ => trivial
  | pre, y :: rest, h => ⟨h.1.1, scanOk_topo _ rest h.2⟩

theorem scanOk_acc : ∀ (pre l : List UOp), scanOk pre l → accOk pre l
  | _, [], _ => trivial
  | pre, y :: rest, h => ⟨h.1.2.1, scanOk_acc _ rest h.2⟩

theorem scanOk_close : ∀ (pre l : List UOp), scanOk pre l → closeOk pre l
  | _, [], _ => trivial
  | pre, y :: rest, h => ⟨h.1.2.2, scanOk_close _ rest h.2⟩

theorem scanOk_append : ∀ (l1 l2 pre : List UOp),
    scanOk pre (l1 ++ l2) ↔ scanOk pre l1 ∧ scanOk (pre ++ l1) l2
  | [], l2, pre => by simp [scanOk]
  | y :: l1, l2, pre => by
    have h1 : scanOk pre ((y :: l1) ++ l2) =
        (emitOk pre y ∧ scanOk (pre ++ [y]) (l1 ++ l2)) := rfl
    have h2 : scanOk pre (y :: l1) = (emitOk pre y ∧ scanOk (pre ++ [y]) l1) := rfl
    rw [h1, h2, scanOk_append l1 l2 (pre ++ [y]), List.append_assoc,
      List.singleton_append, and_assoc]

theorem scanOk_mono : ∀ (l pre pre' : List UOp),
    (∀ w ∈ pre, w ∈ pre') →
    (∀ r, r.op = OpK.RANGE → r ∈ pre' → r ∈ pre) →
    (∀ r, pre'.count (closeUOp r) = pre.count (closeUOp r)) →
    (∀ r, pre.count r ≤ pre'.count r) →
    scanOk pre l → scanOk pre' l
  | [], _, _, _, _, _, _, _ => trivial
  | y :: rest, pre, pre', hmem, hrng, hcls, hopn, h => by
    obtain ⟨⟨e1, e2, e3⟩, h2⟩ := h
    refine ⟨⟨?_, ?_, ?_⟩, ?_⟩
    · intro hne w hw
      exact hmem w (e1 hne w hw)
    · intro hacc r hr hrop hin
      exact e2 hacc r hr hrop (hrng r hrop hin)
    · intro hend r hr
      rw [hcls r]
      exact lt_of_lt_of_le (e3 hend r hr) (hopn r)
    · refine scanOk_mono rest (pre ++ [y]) (pre' ++ [y]) ?_ ?_ ?_ ?_ h2
      · intro w hw
        rcases List.mem_append.1 hw with hw2 | hw2
        · exact List.mem_append_left _ (hmem w hw2)
        · exact List.mem_append_right _ hw2
      · intro r hrop hin
        rcases List.mem_append.1 hin with hin2 | hin2
        · exact List.mem_append_left _ (hrng r hrop hin2)
        · exact List.mem_append_right _ hin2
      · intro r
        rw [List.count_append, List.count_append, hcls r]
      · intro r
        rw [List.count_append, List.count_append]
        exact Nat.add_le_add_right (hopn r) _

theorem scanOk_cons_acc {pre l : List UOp} {a : UOp}
    (ha : a.op = OpK.DEFINE_ACC)
    (hr : ∀ r ∈ a.src, r.op = OpK.RANGE → r ∉ pre)
    (h : scanOk pre l) : scanOk pre (a :: l) := by
  refine ⟨⟨fun hne => absurd ha hne, fun _ => hr, ?_⟩, ?_⟩
  · intro hend
    rw [ha] at hend
    rcases hend with hc | hc <;> cases hc
  · refine scanOk_mono l pre (pre ++ [a]) ?_ ?_ ?_ ?_ h
    · intro w hw
      exact List.mem_append_left _ hw
    · intro r hrop hin
      rcases List.mem_append.1 hin with hin2 | hin2
      · exact hin2
      · obtain rfl := List.mem_singleton.1 hin2
        rw [hrop] at ha
        cases ha
    · intro r
      rw [List.count_append, List.count_singleton']
      have : ¬ closeUOp r = a := by
        intro hc
        have := closeUOp_op_ne_acc r
        rw [hc] at this
        exact this ha
      simp [beq_iff_eq, this, show ¬ a = closeUOp r from fun h2 => this h2.symm]
    · intro r
      rw [List.count_append]
      exact Nat.le_add_right _ _

theorem scanOk_insAt : ∀ (l : List UOp) (k : Nat) (pre : List UOp) (a : UOp),
    a.op = OpK.DEFINE_ACC →
    (∀ r ∈ a.src, r.op = OpK.RANGE → r ∉ pre ++ l.take k) →
    scanOk pre l → scanOk pre (insAt k a l)
  | [], k, pre, a, ha, hr, h => by
    have he : insAt k a [] = [a] := by cases k <;> rfl
    rw [he]
    refine scanOk_cons_acc ha ?_ h
    intro r hrm hrop hin
    exact hr r hrm hrop (by simpa using hin)
  | y :: xs, 0, pre, a, ha, hr, h => by
    show scanOk pre (a :: y :: xs)
    refine scanOk_cons_acc ha ?_ h
    intro r hrm hrop hin
    exact hr r hrm hrop (by simpa using hin)
  | y :: xs, k + 1, pre, a, ha, hr, h => by
    show scanOk pre (y :: insAt k a xs)
    refine ⟨h.1, ?_⟩
    refine scanOk_insAt xs k (pre ++ [y]) a ha ?_ h.2
    intro r hrm hrop hin
    refine hr r hrm hrop ?_
    have hta : pre ++ List.take (k + 1) (y :: xs) = (pre ++ [y]) ++ List.take k xs := by
      simp
    rw [hta]
    exact hin

theorem closeUOp_inj {a b : UOp} (h : closeUOp a = closeUOp b) : a = b := by
  have h2 := congrArg UOp.src h
  rw [closeUOp_src, closeUOp_src] at h2
  simpa using h2

theorem count_erase_eq (a b : UOp) (l : List UOp) :
    (l.erase b).count a = l.count a - if a = b then 1 else 0 := by
  rw [List.count_erase]
  by_cases h : a = b
  · simp [h]
  · simp [h, show ¬ b = a from fun h2 => h h2.symm]

theorem count_singleton_eq (a b : UOp) : List.count a [b] = if a = b then 1 else 0 := by
  rw [List.count_singleton']
  by_cases h : a = b
  · simp [h]
  · simp [h, show ¬ b = a from fun h2 => h h2.symm]

/-- Invariant package over the emitted list and the open-scope stack. -/
def OutInv (uops openL : List UOp) : Prop :=
  scanOk [] uops ∧
  (∀ r, uops.count (closeUOp r) + openL.count r ≤ uops.count r) ∧
  (∀ r ∈ openL, (r.op = OpK.RANGE ∨ r.op = OpK.IF) ∧ r ∈ uops)

theorem closeBatch_spec : ∀ (rem te uops openL : List UOp),
    OutInv uops openL →
    (∀ r, rem.count r ≤ openL.count r) →
    OutInv (closeBatch rem te uops openL).1 (closeBatch rem te uops openL).2 ∧
    (∀ y ∈ (closeBatch rem te uops openL).1, y ∈ uops ∨ ∃ r2, y = closeUOp r2) ∧
    (∀ y ∈ uops, y ∈ (closeBatch rem te uops openL).1)
  | [], te, uops, openL, hinv, _ => by
    refine ⟨hinv, ?_, ?_⟩
    · intro y hy
      exact Or.inl hy
    · intro y hy
      exact hy
  | r :: rest, te, uops, openL, hinv, hrem => by
    obtain ⟨hscan, hcnt, hop⟩ := hinv
    by_cases hte : r ∈ te
    · have he : closeBatch (r :: rest) te uops openL =
          closeBatch rest te (uops ++ [closeUOp r]) (openL.erase r) := by
        simp only [closeBatch, if_pos hte]
      rw [he]
      have hrcount : 1 ≤ openL.count r := by
        have := hrem r
        rw [count_cons_eq, if_pos rfl] at this
        omega
      have hrin : r ∈ openL := by
        rw [← List.count_pos_iff]
        omega
      have hinv1 : OutInv (uops ++ [closeUOp r]) (openL.erase r) := by
        refine ⟨?_, ?_, ?_⟩
        · rw [scanOk_append]
          refine ⟨hscan, ⟨?_, ?_, ?_⟩, trivial⟩
          · intro _ w hw
            rw [closeUOp_src] at hw
            obtain rfl := List.mem_singleton.1 hw
            simp only [List.nil_append]
            exact (hop w hrin).2
          · intro hacc
            exact absurd hacc (closeUOp_op_ne_acc r)
          · intro _ r2 hr2
            rw [closeUOp_src] at hr2
            obtain rfl := List.mem_singleton.1 hr2
            simp only [List.nil_append]
            have := hcnt r2
            omega
        · intro r2
          rw [ List.count_append, List.count_append, count_erase_eq,
            count_singleton_eq, count_singleton_eq]
          by_cases h2 : r2 = r
          · subst h2
            rw [if_pos rfl, if_pos rfl]
            have h3 := hcnt r2
            split_ifs <;> omega
          · rw [if_neg h2,
              if_neg (show ¬ closeUOp r2 = closeUOp r from fun hc => h2 (closeUOp_inj hc))]
            have h3 := hcnt r2
            split_ifs <;> omega
        · intro r2 hr2
          have hr2' := List.mem_of_mem_erase hr2
          exact ⟨(hop r2 hr2').1, List.mem_append_left _ (hop r2 hr2').2⟩
      have hrem1 : ∀ r2, rest.count r2 ≤ (openL.erase r).count r2 := by
        intro r2
        have := hrem r2
        rw [count_cons_eq] at this
        rw [count_erase_eq]
        by_cases h2 : r2 = r <;> simp [h2] at this ⊢ <;> omega
      obtain ⟨hinv2, hprov2, hmono2⟩ := closeBatch_spec rest te _ _ hinv1 hrem1
      refine ⟨hinv2, ?_, ?_⟩
      · intro y hy
        rcases hprov2 y hy with hy2 | hy2
        · rcases List.mem_append.1 hy2 with hy3 | hy3
          · exact Or.inl hy3
          · obtain rfl := List.mem_singleton.1 hy3
            exact Or.inr ⟨r, rfl⟩
        · exact Or.inr hy2
      · intro y hy
        exact hmono2 y (List.mem_append_left _ hy)
    · have he : closeBatch (r :: rest) te uops openL =
          closeBatch rest te uops openL := by
        simp only [closeBatch, if_neg hte]
      rw [he]
      refine closeBatch_spec rest te uops openL ⟨hscan, hcnt, hop⟩ ?_
      intro r2
      have := hrem r2
      rw [count_cons_eq] at this
      omega

theorem memberWF_ne_close {m r : UOp} (h : MemberWF m) : m ≠ closeUOp r := by
  intro hc
  rcases closeUOp_op_end r with h2 | h2 <;> rw [← hc] at h2
  · exact h.2.1 h2
  · exact h.2.2.1 h2

theorem memberWF_ne_acc {m : UOp} (h : MemberWF m) : m.op ≠ OpK.DEFINE_ACC := by
  intro hc
  exact h.2.2.2.1 (by rw [hc] ; decide)

theorem lstOrd_scanOk : ∀ (lst pre0 pre zsrc : List UOp),
    lstOrd zsrc pre0 lst → (∀ m ∈ lst, MemberWF m) →
    (∀ u, u.op ≠ OpK.BLOCK → srcCov zsrc u → u ∈ pre) → (∀ u ∈ pre0, u ∈ pre) →
    scanOk pre lst
  | [], _, _, _, _, _, _, _ => trivial
  | y :: rest, pre0, pre, zsrc, ho, hm, hcov, hp0 => by
    rw [lstOrd_iff] at ho
    have hmw := hm y (List.mem_cons_self _ _)
    refine ⟨⟨?_, ?_, ?_⟩, ?_⟩
    · intro _ w hw
      rcases ho.1 w hw with h2 | h2
      · exact hp0 w h2
      · exact hcov w (hmw.2.2.2.2.2.2 w hw).1 h2
    · intro hacc
      exact absurd hacc (memberWF_ne_acc hmw)
    · intro hend
      rcases hend with h2 | h2
      · exact absurd h2 hmw.2.1
      · exact absurd h2 hmw.2.2.1
    · refine lstOrd_scanOk rest (pre0 ++ [y]) (pre ++ [y]) zsrc ho.2
        (fun m hm2 => hm m (List.mem_cons_of_mem _ hm2))
        (fun u hub hu => List.mem_append_left _ (hcov u hub hu)) ?_
      intro u hu
      rcases List.mem_append.1 hu with h2 | h2
      · exact List.mem_append_left _ (hp0 u h2)
      · exact List.mem_append_right _ h2

theorem endChild_spec {xr : List UOp} {c : UOp} {uops openL u1 o1 : List UOp}
    (h : endChild xr c uops openL = .ok (u1, o1)) (hinv : OutInv uops openL) :
    OutInv u1 o1 ∧ (∀ y ∈ u1, y ∈ uops ∨ ∃ r2, y = closeUOp r2) ∧
    (∀ y ∈ uops, y ∈ u1) := by
  unfold endChild at h
  by_cases hc : c.op = OpK.BLOCK
  · rw [if_pos hc] at h
    rcases hte : toEndOf xr openL c.rngs with e | te
    · rw [hte] at h
      cases h
    · rw [hte] at h
      injection h with h2
      obtain ⟨hinv2, hprov, hmono⟩ := closeBatch_spec openL.reverse te uops openL hinv
        (fun r => by rw [List.count_reverse])
      have e1 : (closeBatch openL.reverse te uops openL).1 = u1 := by rw [h2]
      have e2 : (closeBatch openL.reverse te uops openL).2 = o1 := by rw [h2]
      rw [e1, e2] at hinv2
      rw [e1] at hprov hmono
      exact ⟨hinv2, hprov, hmono⟩
  · rw [if_neg hc] at h
    cases h

theorem endChildren_spec : ∀ (cs : List UOp) (xr uops openL u1 o1 : List UOp),
    endChildren xr cs uops openL = .ok (u1, o1) → OutInv uops openL →
    OutInv u1 o1 ∧ (∀ y ∈ u1, y ∈ uops ∨ ∃ r2, y = closeUOp r2) ∧
    (∀ y ∈ uops, y ∈ u1)
  | [], xr, uops, openL, u1, o1, h, hinv => by
    rw [endChildren] at h
    injection h with h2
    have e1 : uops = u1 := congrArg Prod.fst h2
    have e2 : openL = o1 := congrArg Prod.snd h2
    subst e1
    subst e2
    exact ⟨hinv, fun y hy => Or.inl hy, fun y hy => hy⟩
  | c :: cs, xr, uops, openL, u1, o1, h, hinv => by
    rw [endChildren] at h
    rcases hec : endChild xr c uops openL with e | p
    · rw [hec] at h
      cases h
    · rw [hec] at h
      obtain ⟨um, om⟩ := p
      obtain ⟨hinv1, hprov1, hmono1⟩ := endChild_spec hec hinv
      obtain ⟨hinv2, hprov2, hmono2⟩ := endChildren_spec cs xr um om u1 o1 h hinv1
      refine ⟨hinv2, ?_, ?_⟩
      · intro y hy
        rcases hprov2 y hy with hy2 | hy2
        · exact hprov1 y hy2
        · exact Or.inr hy2
      · intro y hy
        exact hmono2 y (hmono1 y hy)

theorem mem_take_idxOfU : ∀ (l : List UOp) (k : Nat) (r : UOp),
    r ∈ l.take k → ∃ j, idxOfU r l = some j ∧ j < k
  | [], k, r, h => by simp at h
  | x :: xs, 0, r, h => by simp at h
  | x :: xs, k + 1, r, h => by
    rw [List.take_succ_cons] at h
    rcases List.mem_cons.1 h with rfl | h2
    · exact ⟨0, by rw [idxOfU, if_pos rfl], Nat.succ_pos k⟩
    · by_cases hx : x = r
      · exact ⟨0, by rw [idxOfU, if_pos hx], by omega⟩
      · obtain ⟨j, hj1, hj2⟩ := mem_take_idxOfU xs k r h2
        refine ⟨j + 1, ?_, by omega⟩
        rw [idxOfU, if_neg hx, hj1]
        rfl

theorem idxOfU_notin_take {l : List UOp} {k j : Nat} {r : UOp}
    (h : idxOfU r l = some j) (hk : k ≤ j) : r ∉ l.take k := by
  intro hc
  obtain ⟨j2, hj1, hj2⟩ := mem_take_idxOfU l k r hc
  rw [h] at hj1
  injection hj1 with hj3
  omega

theorem accIdxs_range : ∀ (src uops idxs : List UOp) (hi : List Nat),
    True → accIdxs uops src = .ok hi →
    ∀ l ∈ src, l.op = OpK.RANGE → ∃ j ∈ hi, idxOfU l uops = some j
  | [], uops, _, hi, _, h, l, hl, _ => by cases hl
  | s :: rest, uops, _, hi, _, h, l, hl, hrop => by
    rw [accIdxs] at h
    by_cases hs : s.op = OpK.RANGE
    · rw [if_pos hs] at h
      rcases hio : idxOfU s uops with _ | i
      · rw [hio] at h
        cases h
      · rw [hio] at h
        rcases hrest : accIdxs uops rest with e | t
        · rw [hrest] at h
          cases h
        · rw [hrest] at h
          injection h with h2
          subst h2
          rcases List.mem_cons.1 hl with rfl | hl2
          · exact ⟨i, List.mem_cons_self _ _, hio⟩
          · obtain ⟨j, hj1, hj2⟩ :=
              accIdxs_range rest uops [] t trivial hrest l hl2 hrop
            exact ⟨j, List.mem_cons_of_mem _ hj1, hj2⟩
    · rw [if_neg hs] at h
      rcases List.mem_cons.1 hl with rfl | hl2
      · exact absurd hrop hs
      · exact accIdxs_range rest uops [] hi trivial h l hl2 hrop

theorem schedEmit_spec {ch : UOp → List UOp} {x : UOp} {uops openL u1 o1 : List UOp}
    (h : schedEmit ch x uops openL = .ok (u1, o1))
    (hinv : OutInv uops openL)
    (hx : (x.op = OpK.BLOCK ∧ BlockWF x ∧
            (∀ u, u.op ≠ OpK.BLOCK → srcCov x.src u → u ∈ uops)) ∨
          x.op = OpK.DEFINE_ACC ∨
          (Orig x ∧ (∀ w ∈ x.src, w ∈ uops))) :
    OutInv u1 o1 ∧
    (∀ y ∈ u1, y ∈ uops ∨ y = x ∨ (x.op = OpK.BLOCK ∧ y ∈ x.lst) ∨ ∃ r2, y = closeUOp r2) ∧
    (∀ y ∈ uops, y ∈ u1) ∧
    (x.op ≠ OpK.BLOCK → x ∈ u1) ∧
    (x.op = OpK.BLOCK → ∀ m ∈ x.lst, m ∈ u1) := by
  obtain ⟨hscan, hcnt, hop⟩ := hinv
  unfold schedEmit at h
  by_cases hb : x.op = OpK.BLOCK
  · rw [if_pos hb] at h
    rcases hx with ⟨_, hwf, hcov⟩ | hx2 | ⟨ho, _⟩
    · have hmemwf : ∀ m ∈ x.lst, MemberWF m := hwf.2.1
      have hinvmid : OutInv (uops ++ x.lst)
          (openL ++ x.lst.filter (fun y => y.op = OpK.IF)) := by
        refine ⟨?_, ?_, ?_⟩
        · rw [scanOk_append]
          refine ⟨hscan, ?_⟩
          refine lstOrd_scanOk x.lst [] ([] ++ uops) x.src hwf.2.2 hmemwf ?_ ?_
          · intro u hub hu
            rw [List.nil_append]
            exact hcov u hub hu
          · intro u hu
            cases hu
        · intro r
          rw [List.count_append, List.count_append, List.count_append]
          have hc0 : x.lst.count (closeUOp r) = 0 := by
            rw [List.count_eq_zero]
            intro hc
            exact memberWF_ne_close (hmemwf _ hc) rfl
          have hcf : (x.lst.filter (fun y => y.op = OpK.IF)).count r ≤ x.lst.count r :=
            (List.filter_sublist _).count_le _
          have := hcnt r
          omega
        · intro r hr
          rcases List.mem_append.1 hr with hr2 | hr2
          · exact ⟨(hop r hr2).1, List.mem_append_left _ (hop r hr2).2⟩
          · have hr3 := List.mem_filter.1 hr2
            refine ⟨Or.inr (by simpa using hr3.2), List.mem_append_right _ hr3.1⟩
      obtain ⟨hinv1, hprov1, hmono1⟩ :=
        endChildren_spec (ch x) x.rngs (uops ++ x.lst)
          (openL ++ x.lst.filter (fun y => y.op = OpK.IF)) u1 o1 h hinvmid
      refine ⟨hinv1, ?_, ?_, ?_, ?_⟩
      · intro y hy
        rcases hprov1 y hy with hy2 | hy2
        · rcases List.mem_append.1 hy2 with hy3 | hy3
          · exact Or.inl hy3
          · exact Or.inr (Or.inr (Or.inl ⟨hb, hy3⟩))
        · exact Or.inr (Or.inr (Or.inr hy2))
      · intro y hy
        exact hmono1 y (List.mem_append_left _ hy)
      · intro hc
        exact absurd hb hc
      · intro _ m hm
        exact hmono1 m (List.mem_append_right _ hm)
    · rw [hx2] at hb
      cases hb
    · exact absurd hb ho.1
  · rw [if_neg hb] at h
    by_cases ha : x.op = OpK.DEFINE_ACC
    · rw [if_pos ha] at h
      rcases hai : accIdxs uops x.src with e | idxs
      · rw [hai] at h
        simp only [] at h
        cases h
      · rw [hai] at h
        simp only [] at h
        rcases hmin : idxs.min? with _ | idx
        · rw [hmin] at h
          simp only [] at h
          cases h
        · rw [hmin] at h
          simp only [] at h
          injection h with h2
          have e1 : insAt idx x uops = u1 := congrArg Prod.fst h2
          have e2 : openL = o1 := congrArg Prod.snd h2
          subst e2
          rw [← e1]
          have htake : ∀ r ∈ x.src, r.op = OpK.RANGE → r ∉ uops.take idx := by
            intro r hr hrop
            obtain ⟨j, hj1, hj2⟩ := accIdxs_range x.src uops [] idxs trivial hai r hr hrop
            have hle : idx ≤ j := by
              rw [List.min?_eq_some_iff] at hmin
              · exact hmin.2 j hj1
              all_goals (intros ; omega)
            exact idxOfU_notin_take hj2 hle
          refine ⟨⟨?_, ?_, ?_⟩, ?_, ?_, ?_, ?_⟩
          · refine scanOk_insAt uops idx [] x ha ?_ hscan
            intro r hr hrop
            rw [List.nil_append]
            exact htake r hr hrop
          · intro r
            rw [count_insAt, count_insAt]
            have hne : ¬ closeUOp r = x := by
              intro hc
              have h3 := closeUOp_op_ne_acc r
              rw [hc] at h3
              exact h3 ha
            rw [if_neg hne]
            have := hcnt r
            split_ifs <;> omega
          · intro r hr
            exact ⟨(hop r hr).1, (mem_insAt _ _ _ _).2 (Or.inr (hop r hr).2)⟩
          · intro y hy
            rcases (mem_insAt _ _ _ _).1 hy with hy2 | hy2
            · exact Or.inr (Or.inl hy2)
            · exact Or.inl hy2
          · intro y hy
            exact (mem_insAt _ _ _ _).2 (Or.inr hy)
          · intro _
            exact (mem_insAt _ _ _ _).2 (Or.inl rfl)
          · intro hc
            exact absurd hc hb
    · rw [if_neg ha] at h
      injection h with h2
      have e1 : uops ++ [x] = u1 := congrArg Prod.fst h2
      have e2 : (if x.op = OpK.RANGE then openL ++ [x] else openL) = o1 :=
        congrArg Prod.snd h2
      rcases hx with ⟨hc, _⟩ | hc | ⟨ho, hcov⟩
      · exact absurd hc hb
      · exact absurd hc ha
      · rw [← e1, ← e2]
        refine ⟨⟨?_, ?_, ?_⟩, ?_, ?_, ?_, ?_⟩
        · rw [scanOk_append]
          refine ⟨hscan, ⟨?_, ?_, ?_⟩, trivial⟩
          · intro _ w hw
            rw [List.nil_append]
            exact hcov w hw
          · intro hacc
            exact absurd hacc ha
          · intro hend
            rcases hend with h3 | h3
            · exact absurd h3 ho.2.2.1
            · exact absurd h3 ho.2.2.2.1
        · intro r
          have hne : ¬ closeUOp r = x := by
            intro hc2
            rcases closeUOp_op_end r with h3 | h3 <;> rw [hc2] at h3
            · exact ho.2.2.1 h3
            · exact ho.2.2.2.1 h3
          have hcl : List.count (closeUOp r) (uops ++ [x]) = uops.count (closeUOp r) := by
            rw [List.count_append, count_singleton_eq, if_neg hne]
            omega
          have hopn : List.count r (uops ++ [x]) =
              uops.count r + (if r = x then 1 else 0) := by
            rw [List.count_append, count_singleton_eq]
          have hol : List.count r (if x.op = OpK.RANGE then openL ++ [x] else openL) ≤
              openL.count r + (if r = x then 1 else 0) := by
            by_cases hrg : x.op = OpK.RANGE
            · rw [if_pos hrg, List.count_append, count_singleton_eq]
            · rw [if_neg hrg]
              omega
          have := hcnt r
          rw [hcl, hopn]
          omega
        · intro r hr
          by_cases hrg : x.op = OpK.RANGE
          · rw [if_pos hrg] at hr
            rcases List.mem_append.1 hr with hr2 | hr2
            · exact ⟨(hop r hr2).1, List.mem_append_left _ (hop r hr2).2⟩
            · obtain rfl := List.mem_singleton.1 hr2
              exact ⟨Or.inl hrg, List.mem_append_right _ (List.mem_singleton.2 rfl)⟩
          · rw [if_neg hrg] at hr
            exact ⟨(hop r hr).1, List.mem_append_left _ (hop r hr).2⟩
        · intro y hy
          rcases List.mem_append.1 hy with hy2 | hy2
          · exact Or.inl hy2
          · exact Or.inr (Or.inl (List.mem_singleton.1 hy2))
        · intro y hy
          exact List.mem_append_left _ hy
        · intro _
          exact List.mem_append_right _ (List.mem_singleton.2 rfl)
        · intro hc
          exact absurd hc hb

theorem count_le_filter_length : ∀ (l : List UOp) (done : List UOp) (x : UOp),
    x ∉ done → l.count x ≤ (l.filter (fun w => decide (w ∉ done))).length
  | [], _, _, _ => by simp
  | w :: l, done, x, hx => by
    have ih := count_le_filter_length l done x hx
    rw [count_cons_eq]
    by_cases hwd : w ∈ done
    · have hwx : ¬ x = w := fun h2 => hx (h2 ▸ hwd)
      rw [if_neg hwx]
      have he : (w :: l).filter (fun w => decide (w ∉ done)) =
          l.filter (fun w => decide (w ∉ done)) := by
        simp [List.filter_cons, hwd]
      rw [he]
      omega
    · have he : (w :: l).filter (fun w => decide (w ∉ done)) =
          w :: l.filter (fun w => decide (w ∉ done)) := by
        simp [List.filter_cons, hwd]
      rw [he, List.length_cons]
      by_cases hxw : x = w
      · rw [if_pos hxw]
        omega
      · rw [if_neg hxw]
        omega

theorem filter_done_append : ∀ (l : List UOp) (done : List UOp) (x : UOp), x ∉ done →
    (l.filter (fun w => decide (w ∉ done ++ [x]))).length =
    (l.filter (fun w => decide (w ∉ done))).length - l.count x
  | [], _, _, _ => by simp
  | w :: l, done, x, hx => by
    have ih := filter_done_append l done x hx
    have hcle := count_le_filter_length l done x hx
    rw [count_cons_eq]
    by_cases hw : w = x
    · obtain rfl := hw
      have he1 : (w :: l).filter (fun v => decide (v ∉ done ++ [w])) =
          l.filter (fun v => decide (v ∉ done ++ [w])) := by
        simp [List.filter_cons]
      have he2 : (w :: l).filter (fun v => decide (v ∉ done)) =
          w :: l.filter (fun v => decide (v ∉ done)) := by
        simp [List.filter_cons, hx]
      rw [he1, he2, List.length_cons, if_pos rfl]
      omega
    · by_cases hwd : w ∈ done
      · have he1 : (w :: l).filter (fun v => decide (v ∉ done ++ [x])) =
            l.filter (fun v => decide (v ∉ done ++ [x])) := by
          simp [List.filter_cons, hwd]
        have he2 : (w :: l).filter (fun v => decide (v ∉ done)) =
            l.filter (fun v => decide (v ∉ done)) := by
          simp [List.filter_cons, hwd]
        rw [he1, he2, if_neg (fun h2 : x = w => hw h2.symm)]
        omega
      · have hw2 : w ∉ done ++ [x] := by
          simp only [List.mem_append, List.mem_singleton]
          rintro (hc | hc)
          · exact hwd hc
          · exact hw hc
        have he1 : (w :: l).filter (fun v => decide (v ∉ done ++ [x])) =
            w :: l.filter (fun v => decide (v ∉ done ++ [x])) := by
          simp [List.filter_cons, hwd, hw]
        have he2 : (w :: l).filter (fun v => decide (v ∉ done)) =
            w :: l.filter (fun v => decide (v ∉ done)) := by
          simp [List.filter_cons, hwd]
        rw [he1, he2, List.length_cons, List.length_cons,
          if_neg (fun h2 : x = w => hw h2.symm)]
        omega

theorem childDfs_root_facts (root : UOp) :
    (childDfs root ⟨[], []⟩).keys.Nodup ∧
    root ∈ (childDfs root ⟨[], []⟩).keys ∧
    (∀ k ∈ (childDfs root ⟨[], []⟩).keys, Reach root k) ∧
    (∀ x v, (chFun (childDfs root ⟨[], []⟩) x).count v =
      if v ∈ (childDfs root ⟨[], []⟩).keys then v.src.count x else 0) := by
  obtain ⟨⟨g1, g2⟩, gx, ⟨fr, gk, gr⟩, gc⟩ :=
    childDfs_spec root ⟨[], []⟩ rfl List.nodup_nil
  refine ⟨g2, gx, ?_, ?_⟩
  · intro k hk
    rw [gk] at hk
    exact gr k (by simpa using hk)
  · intro x v
    have h2 := gc x v
    have h0 : cnt (⟨[], []⟩ : ChMap).ch x v = 0 := by simp [cnt, chLookup]
    rw [h0] at h2
    have he : (chFun (childDfs root ⟨[], []⟩) x).count v =
        cnt (childDfs root ⟨[], []⟩).ch x v := rfl
    rw [he, h2]
    have hcond : (v ∈ (childDfs root ⟨[], []⟩).keys ∧ v ∉ (⟨[], []⟩ : ChMap).keys) ↔
        v ∈ (childDfs root ⟨[], []⟩).keys := by
    

      constructor
      · exact fun h => h.1
      · refine fun h => ⟨h, ?_⟩
        intro hc
        cases hc
    rw [if_congr hcond rfl rfl]
    omega

theorem schedLoop_main : ∀ (n : Nat) (U : List UOp) (ch : UOp → List UOp)
    (queue : List UOp) (indeg : UOp → Nat) (uops openL done out opnl : List UOp),
    schedLoop ch n queue indeg uops openL = .ok (out, opnl) →
    (∀ x u, (ch x).count u = if u ∈ U then u.src.count x else 0) →
    (∀ x ∈ U, (x.op = OpK.BLOCK ∧ BlockWF x) ∨ OrigTree x) →
    (∀ q ∈ queue, q ∈ U ∧ q ∉ done ∧ ∀ w ∈ q.src, w ∈ done) →
    queue.Nodup →
    (∀ u ∈ U, indeg u = (u.src.filter (fun w => decide (w ∉ done))).length) →
    (∀ u ∈ done, ∀ w ∈ u.src, w ∈ done) →
    (∀ w ∈ done, (w.op ≠ OpK.BLOCK → w ∈ uops) ∧
      (w.op = OpK.BLOCK → ∀ m ∈ w.lst, m ∈ uops)) →
    OutInv uops openL →
    scanOk [] out ∧
    ∃ nd : List UOp,
      (∀ x ∈ nd, x ∈ U ∧ x ∉ done ∧ (∀ w ∈ x.src, w ∈ done ∨ w ∈ nd) ∧
        ∃ q1 q2 q3, schedEmit ch x q1 q2 = Except.ok q3) ∧
      (∀ y ∈ out, y ∈ uops ∨ ∃ x ∈ nd,
        (y = x ∨ (x.op = OpK.BLOCK ∧ y ∈ x.lst) ∨ ∃ r2, y = closeUOp r2)) ∧
      (∀ x ∈ nd, (x.op ≠ OpK.BLOCK → x ∈ out) ∧
        (x.op = OpK.BLOCK → ∀ m ∈ x.lst, m ∈ out)) ∧
      (∀ y ∈ uops, y ∈ out)
  | 0, U, ch, queue, indeg, uops, openL, done, out, opnl, h, _, _, _, _, _, _, _, _ => by
    cases h
  | n + 1, U, ch, [], indeg, uops, openL, done, out, opnl, h, _, _, _, _, _, _, _, hOI => by
    have h1 : (Except.ok (uops, openL) : Except LErr (List UOp × List UOp)) =
        .ok (out, opnl) := h
    injection h1 with h2
    have e1 : uops = out := congrArg Prod.fst h2
    subst e1
    refine ⟨hOI.1, [], ?_, ?_, ?_, ?_⟩
    · intro x hx
      cases hx
    · intro y hy
      exact Or.inl hy
    · intro x hx
      cases hx
    · intro y hy
      exact hy
  | n + 1, U, ch, q :: qs, indeg, uops, openL, done, out, opnl, h, hch, hwf,
      hG1, hG2, hG3, hG4, hREP, hOI => by
    have h1 : (match pickMin q qs with
      | (x, rest) =>
        match schedEmit ch x uops openL with
        | .error e => (.error e : Except LErr (List UOp × List UOp))
        | .ok (uops2, openL2) =>
          match decPush indeg rest (ch x) with
          | (indeg2, queue2) => schedLoop ch n queue2 indeg2 uops2 openL2) =
        .ok (out, opnl) := h
    rcases hpm : pickMin q qs with ⟨x, rest⟩
    rw [hpm] at h1
    simp only [] at h1
    have hperm : List.Perm (x :: rest) (q :: qs) := by
      have := pickMin_perm q qs
      rw [hpm] at this
      exact this
    have hxin : x ∈ q :: qs := hperm.mem_iff.1 (List.mem_cons_self _ _)
    obtain ⟨hxU, hxnd, hxsrc⟩ := hG1 x hxin
    have hnodup2 : (x :: rest).Nodup := (hperm.nodup_iff).2 hG2
    have hxrest : x ∉ rest := (List.nodup_cons.1 hnodup2).1
    have hrestnd : rest.Nodup := (List.nodup_cons.1 hnodup2).2
    rcases hse : schedEmit ch x uops openL with e | p
    · rw [hse] at h1
      simp only [] at h1
      cases h1
    · obtain ⟨u1, o1⟩ := p
      rw [hse] at h1
      simp only [] at h1
      rcases hdp : decPush indeg rest (ch x) with ⟨indeg2, queue2⟩
      rw [hdp] at h1
      simp only [] at h1
      -- facts about the emission
      have hxcase : (x.op = OpK.BLOCK ∧ BlockWF x ∧ (∀ u, u.op ≠ OpK.BLOCK →
          srcCov x.src u → u ∈ uops)) ∨ x.op = OpK.DEFINE_ACC ∨
          (Orig x ∧ (∀ w ∈ x.src, w ∈ uops)) := by
        rcases hwf x hxU with ⟨hb, hbwf⟩ | ho
        · refine Or.inl ⟨hb, hbwf, ?_⟩
          intro u hub hcov
          rcases hcov with hu1 | ⟨C, hC, hCb, hCl⟩
          · exact (hREP u (hxsrc u hu1)).1 hub
          · exact (hREP C (hxsrc C hC)).2 hCb u hCl
        · by_cases ha : x.op = OpK.DEFINE_ACC
          · exact Or.inr (Or.inl ha)
          · refine Or.inr (Or.inr ⟨ho x (Reach.refl x), ?_⟩)
            intro w hw
            have how := ho w (Reach.step hw (Reach.refl w))
            exact (hREP w (hxsrc w hw)).1 how.1
      obtain ⟨hOI1, hprov1, hmono1, hpres1, hpresb1⟩ := schedEmit_spec hse hOI hxcase
      -- decPush aggregate facts
      have hdcond : ∀ u, (ch x).count u ≤ indeg u := by
        intro u
        rw [hch x u]
        by_cases hu : u ∈ U
        · rw [if_pos hu, hG3 u hu]
          exact count_le_filter_length _ _ _ hxnd
        · rw [if_neg hu]
          exact Nat.zero_le _
      obtain ⟨hd1, hd2⟩ := decPush_spec (ch x) indeg rest hdcond
      have hd1' : ∀ u, indeg2 u = indeg u - (ch x).count u := by
        intro u
        have := hd1 u
        rw [hdp] at this
        exact this
      have hd2' : ∀ u, queue2.count u =
          rest.count u + (if 0 < (ch x).count u ∧ indeg u = (ch x).count u then 1 else 0) := by
        intro u
        have := hd2 u
        rw [hdp] at this
        exact this
      -- new-state invariants
      have hmemq2 : ∀ u, u ∈ queue2 → u ∈ rest ∨
          (0 < (ch x).count u ∧ indeg u = (ch x).count u) := by
        intro u hu
        have hc := hd2' u
        have hpos : 0 < queue2.count u := List.count_pos_iff.2 hu
        by_cases hr2 : u ∈ rest
        · exact Or.inl hr2
        · have : rest.count u = 0 := by
            rw [List.count_eq_zero]
            exact hr2
          rw [this] at hc
          refine Or.inr ?_
          by_cases hcc : 0 < (ch x).count u ∧ indeg u = (ch x).count u
          · exact hcc
          · rw [if_neg hcc] at hc
            omega
      have hpush : ∀ u, 0 < (ch x).count u ∧ indeg u = (ch x).count u →
          u ∈ U ∧ u ∉ done ++ [x] ∧ ∀ w ∈ u.src, w ∈ done ++ [x] := by
        intro u ⟨hcp, hie⟩
        have hcxu := hch x u
        by_cases hu : u ∈ U
        · rw [if_pos hu] at hcxu
          have hxs : 0 < u.src.count x := by omega
          have hxsm : x ∈ u.src := List.count_pos_iff.1 hxs
          have hund : u ∉ done := by
            intro hc
            exact hxnd (hG4 u hc x hxsm)
          have hunx : ¬ u = x := by
            intro hc
            rw [hc] at hxsm
            exact hxnd (hxsrc x hxsm)
          have hflen : (u.src.filter (fun w => decide (w ∉ done))).length =
              u.src.count x := by
            rw [← hG3 u hu, hie, hcxu]
          have hcf : u.src.count x =
              (u.src.filter (fun w => decide (w ∉ done))).count x := by
            rw [List.count_filter]
            simp [hxnd]
          have hall : ∀ w ∈ u.src.filter (fun w => decide (w ∉ done)), x = w := by
            apply List.count_eq_length.1
            omega
          refine ⟨hu, ?_, ?_⟩
          · simp only [List.mem_append, List.mem_singleton]
            rintro (hc | hc)
            · exact hund hc
            · exact hunx hc
          · intro w hw
            by_cases hwd : w ∈ done
            · exact List.mem_append_left _ hwd
            · have hwf2 : w ∈ u.src.filter (fun w => decide (w ∉ done)) := by
                rw [List.mem_filter]
                exact ⟨hw, by simpa using hwd⟩
              have := hall w hwf2
              rw [← this]
              exact List.mem_append_right _ (List.mem_singleton.2 rfl)
        · rw [if_neg hu] at hcxu
          omega
      have hG1' : ∀ q2 ∈ queue2, q2 ∈ U ∧ q2 ∉ done ++ [x] ∧
          ∀ w ∈ q2.src, w ∈ done ++ [x] := by
        intro q2 hq2
        rcases hmemq2 q2 hq2 with hr2 | hcc
        · have hqq := hG1 q2 (hperm.mem_iff.1 (List.mem_cons_of_mem _ hr2))
          refine ⟨hqq.1, ?_, ?_⟩
          · simp only [List.mem_append, List.mem_singleton]
            rintro (hc | hc)
            · exact hqq.2.1 hc
            · rw [hc] at hr2
              exact hxrest hr2
          · intro w hw
            exact List.mem_append_left _ (hqq.2.2 w hw)
        · exact hpush q2 hcc
      have hG2' : queue2.Nodup := by
        rw [List.nodup_iff_count_le_one]
        intro u
        rw [hd2' u]
        by_cases hr2 : u ∈ rest
        · have hqq := hG1 u (hperm.mem_iff.1 (List.mem_cons_of_mem _ hr2))
          have hnp : ¬ (0 < (ch x).count u ∧ indeg u = (ch x).count u) := by
            rintro ⟨hcp, _⟩
            have hcxu := hch x u
            rw [if_pos hqq.1] at hcxu
            have hxs : 0 < u.src.count x := by omega
            exact hxnd (hqq.2.2 x (List.count_pos_iff.1 hxs))
          rw [if_neg hnp]
          have := List.nodup_iff_count_le_one.1 hrestnd u
          omega
        · have : rest.count u = 0 := by
            rw [List.count_eq_zero]
            exact hr2
          rw [this]
          split_ifs <;> omega
      have hG3' : ∀ u ∈ U, indeg2 u =
          (u.src.filter (fun w => decide (w ∉ done ++ [x]))).length := by
        intro u hu
        rw [hd1' u, hG3 u hu, hch x u, if_pos hu,
          filter_done_append u.src done x hxnd]
      have hG4' : ∀ u ∈ done ++ [x], ∀ w ∈ u.src, w ∈ done ++ [x] := by
        intro u hu w hw
        rcases List.mem_append.1 hu with hu2 | hu2
        · exact List.mem_append_left _ (hG4 u hu2 w hw)
        · obtain rfl := List.mem_singleton.1 hu2
          exact List.mem_append_left _ (hxsrc w hw)
      have hREP' : ∀ w ∈ done ++ [x], (w.op ≠ OpK.BLOCK → w ∈ u1) ∧
          (w.op = OpK.BLOCK → ∀ m ∈ w.lst, m ∈ u1) := by
        intro w hw
        rcases List.mem_append.1 hw with hw2 | hw2
        · refine ⟨?_, ?_⟩
          · intro hb
            exact hmono1 w ((hREP w hw2).1 hb)
          · intro hb m hm
            exact hmono1 m ((hREP w hw2).2 hb m hm)
        · obtain rfl := List.mem_singleton.1 hw2
          exact ⟨hpres1, hpresb1⟩
      obtain ⟨hscan2, nd2, hnd1, hnd2, hnd3, hnd4⟩ :=
        schedLoop_main n U ch queue2 indeg2 u1 o1 (done ++ [x]) out opnl h1
          hch hwf hG1' hG2' hG3' hG4' hREP' hOI1
      refine ⟨hscan2, x :: nd2, ?_, ?_, ?_, ?_⟩
      · intro z hz
        rcases List.mem_cons.1 hz with rfl | hz2
        · exact ⟨hxU, hxnd, fun w hw => Or.inl (hxsrc w hw),
            uops, openL, (u1, o1), hse⟩
        · obtain ⟨hz3, hz4, hz5, hz6⟩ := hnd1 z hz2
          refine ⟨hz3, ?_, ?_, hz6⟩
          · intro hc
            exact hz4 (List.mem_append_left _ hc)
          · intro w hw
            rcases hz5 w hw with hw2 | hw2
            · rcases List.mem_append.1 hw2 with hw3 | hw3
              · exact Or.inl hw3
              · exact Or.inr (List.mem_cons.2 (Or.inl (List.mem_singleton.1 hw3)))
            · exact Or.inr (List.mem_cons_of_mem _ hw2)
      · intro y hy
        rcases hnd2 y hy with hy2 | ⟨x2, hx2, hy3⟩
        · rcases hprov1 y hy2 with hy4 | hy4 | hy4 | hy4
          · exact Or.inl hy4
          · exact Or.inr ⟨x, List.mem_cons_self _ _, Or.inl hy4⟩
          · exact Or.inr ⟨x, List.mem_cons_self _ _, Or.inr (Or.inl hy4)⟩
          · exact Or.inr ⟨x, List.mem_cons_self _ _, Or.inr (Or.inr hy4)⟩
        · exact Or.inr ⟨x2, List.mem_cons_of_mem _ hx2, hy3⟩
      · intro z hz
        rcases List.mem_cons.1 hz with rfl | hz2
        · refine ⟨?_, ?_⟩
          · intro hb
            exact hnd4 z (hpres1 hb)
          · intro hb m hm
            exact hnd4 m (hpresb1 hb m hm)
        · exact hnd3 z hz2
      · intro y hy
        exact hnd4 y (hmono1 y hy)

theorem accIdxs_noRange : ∀ (src uops : List UOp),
    (∀ l ∈ src, l.op ≠ OpK.RANGE) → accIdxs uops src = .ok []
  | [], _, _ => rfl
  | s :: rest, uops, h => by
    rw [accIdxs, if_neg (h s (List.mem_cons_self _ _))]
    exact accIdxs_noRange rest uops (fun l hl => h l (List.mem_cons_of_mem _ hl))

theorem schedEmit_acc_noRange {ch : UOp → List UOp} {a : UOp}
    {q1 q2 : List UOp} {q3 : List UOp × List UOp}
    (ha : a.op = OpK.DEFINE_ACC) (hnr : ∀ r ∈ a.src, r.op ≠ OpK.RANGE) :
    schedEmit ch a q1 q2 ≠ .ok q3 := by
  unfold schedEmit
  rw [if_neg (show ¬ a.op = OpK.BLOCK by rw [ha] ; decide), if_pos ha,
    accIdxs_noRange a.src q1 hnr]
  intro hc
  simp only [] at hc
  rw [show ([] : List Nat).min? = none from rfl] at hc
  simp only [] at hc
  cases hc

/-- Decidable characterization of a well-formed pipeline input: a `SINK` root
whose operand closure consists of original operations only. -/
def PlainSink (g : UOp) : Prop :=
  g.op = OpK.SINK ∧ g.rngs = [] ∧ g.lst = [] ∧ ∀ z ∈ reachLs g.src, Orig z

instance (g : UOp) : Decidable (PlainSink g) := by
  unfold PlainSink ; infer_instance

theorem plainSink_WFroot {g : UOp} (h : PlainSink g) : WFroot g := by
  refine Or.inl ⟨h.1, h.2.1, h.2.2.1, ?_⟩
  intro w hw
  refine origTree_of_list ?_
  intro z hz
  exact h.2.2.2 z (mem_reachLs.2 ⟨w, hw, hz⟩)

theorem filter_nil_done (l : List UOp) :
    (l.filter (fun w => decide (w ∉ ([] : List UOp)))).length = l.length := by
  have he : l.filter (fun w => decide (w ∉ ([] : List UOp))) = l := by
    refine List.filter_eq_self.2 ?_
    intro w _
    simp
  rw [he]

theorem linearizeUop_ok_facts {fuel : Nat} {g : UOp} {out : List UOp}
    (hg : WFroot g) (h : linearizeUop fuel g = .ok out) :
    scanOk [] out ∧
    (∀ a, Reach g a → a.op = OpK.DEFINE_ACC →
      (∃ r ∈ a.src, r.op = OpK.RANGE) ∧
      (∀ r ∈ a.src, r.op = OpK.RANGE → r ∈ out)) ∧
    (∀ a ∈ out, a.op = OpK.DEFINE_ACC →
      ∀ r ∈ a.src, r.op = OpK.RANGE → r ∈ out) := by
  unfold linearizeUop at h
  by_cases hsnk : g.op ≠ OpK.SINK
  · rw [if_pos hsnk] at h
    cases h
  · rw [if_neg hsnk] at h
    rcases hbu : blockUop fuel g with e | t
    · rw [hbu] at h
      simp only [] at h
      cases h
    · rw [hbu] at h
      simp only [] at h
      rcases hsl : schedLoop (chFun (childDfs t ⟨[], []⟩)) fuel
          ((childDfs t ⟨[], []⟩).keys.filter (fun u => u.src.length = 0))
          (fun u => u.src.length) [] [] with e | p
      · rw [hsl] at h
        simp only [] at h
        cases h
      · obtain ⟨uops, opnl⟩ := p
        rw [hsl] at h
        simp only [] at h
        rcases hlast : uops.getLast? with _ | last
        · rw [hlast] at h
          simp only [] at h
          cases h
        · rw [hlast] at h
          simp only [] at h
          by_cases hlop : last.op = OpK.SINK
          · rw [if_pos hlop] at h
            injection h with h2
            obtain ⟨htop, htwf, htdeep, hreach_acc⟩ := blockUop_ok_block hg hbu
            obtain ⟨hUnd, hUroot, hUreach, hch⟩ := childDfs_root_facts t
            have hwfU : ∀ x ∈ (childDfs t ⟨[], []⟩).keys,
                (x.op = OpK.BLOCK ∧ BlockWF x) ∨ OrigTree x := by
              intro x hx
              rcases reach_inv (hUreach x hx) with rfl | ⟨w, hw, hwx⟩
              · exact Or.inl ⟨htop, htwf⟩
              · have hdx : WFdeep x := WFdeep_mono (htdeep w hw) hwx
                by_cases hxb : x.op = OpK.BLOCK
                · exact Or.inl ⟨hxb, (wfdeep_block hdx hxb).1⟩
                · exact Or.inr (wfdeep_orig hdx hxb)
            obtain ⟨hscanU, nd, hnd1, hnd2, hnd3, hnd4⟩ :=
              schedLoop_main fuel (childDfs t ⟨[], []⟩).keys
                (chFun (childDfs t ⟨[], []⟩))
                ((childDfs t ⟨[], []⟩).keys.filter (fun u => u.src.length = 0))
                (fun u => u.src.length) [] [] [] uops opnl hsl hch hwfU
                (by
                  intro q hq
                  obtain ⟨hq1, hq2⟩ := List.mem_filter.1 hq
                  have hq3 : q.src = [] := by
                    rw [← List.length_eq_zero]
                    simpa using hq2
                  refine ⟨hq1, ?_, ?_⟩
                  · intro hc
                    cases hc
                  · intro w hw
                    rw [hq3] at hw
                    cases hw)
                (hUnd.filter _)
                (by
                  intro u _
                  rw [filter_nil_done])
                (by
                  intro u hu
                  cases hu)
                (by
                  intro w hw
                  cases hw)
                ⟨trivial, by
                  intro r
                  simp, by
                  intro r hr
                  cases hr⟩
            have hune : uops ≠ [] := by
              intro hc
              rw [hc] at hlast
              simp at hlast
            have hsplit : uops.dropLast ++ [last] = uops :=
              List.dropLast_append_getLast? last hlast
            have hlmem : last ∈ uops := List.mem_of_mem_getLast? hlast
            have htnd : t ∈ nd := by
              rcases hnd2 last hlmem with hc | ⟨x, hx, hy⟩
              · cases hc
              · have hxU := (hnd1 x hx).1
                rcases hy with rfl | ⟨hxb, hyl⟩ | ⟨r2, hr2⟩
                · exfalso
                  rcases reach_inv (hUreach last hxU) with rfl | ⟨w, hw, hwx⟩
                  · rw [htop] at hlop
                    cases hlop
                  · rcases (htdeep w hw) last hwx with ⟨hxb2, _⟩ | hot
                    · rw [hxb2] at hlop
                      cases hlop
                    · exact (hot last (Reach.refl last)).2.1 hlop
                · rcases reach_inv (hUreach x hxU) with rfl | ⟨w, hw, hwx⟩
                  · exact hx
                  · exfalso
                    rcases (htdeep w hw) x hwx with ⟨_, _, hnsm⟩ | hot
                    · exact hnsm ⟨last, hyl, hlop⟩
                    · exact (hot x (Reach.refl x)).1 hxb
                · exfalso
                  rw [hr2] at hlop
                  exact closeUOp_op_ne_sink r2 hlop
            have hstep : ∀ u z, Reach u z → u ∈ nd → z ∈ nd := by
              intro u z hr
              induction hr with
              | refl => exact fun hu => hu
              | step hw hr2 ih =>
                intro hu
                refine ih ?_
                rcases (hnd1 _ hu).2.2.1 _ hw with hc | hc
                · cases hc
                · exact hc
            have hall : ∀ z, Reach t z → z ∈ nd := fun z hz => hstep t z hz htnd
            have hndout : ∀ z ∈ nd, z.op ≠ OpK.SINK → z.op ≠ OpK.BLOCK → z ∈ out := by
              intro z hz hzs hzb
              have hzu : z ∈ uops := (hnd3 z hz).1 hzb
              rw [← hsplit] at hzu
              rcases List.mem_append.1 hzu with hz2 | hz2
              · rw [← h2]
                exact hz2
              · obtain rfl := List.mem_singleton.1 hz2
                exact absurd hlop hzs
            refine ⟨?_, ?_, ?_⟩
            · rw [← h2]
              rw [← hsplit] at hscanU
              exact ((scanOk_append _ _ _).1 hscanU).1
            · intro a hra ha
              have hand : a ∈ nd := hall a (hreach_acc a hra ha)
              obtain ⟨_, _, _, q1, q2, q3, hemit⟩ := hnd1 a hand
              constructor
              · by_contra hno
                refine schedEmit_acc_noRange ha ?_ hemit
                intro r hr hrop
                exact hno ⟨r, hr, hrop⟩
              · intro r hr hrop
                have hrnd : r ∈ nd := hstep a r (Reach.step hr (Reach.refl r)) hand
                exact hndout r hrnd (by rw [hrop] ; decide) (by rw [hrop] ; decide)
            · intro a hain ha r hr hrop
              have hauops : a ∈ uops := by
                rw [← hsplit]
                refine List.mem_append_left _ ?_
                rw [h2]
                exact hain
              have hand : a ∈ nd := by
                rcases hnd2 a hauops with hc | ⟨x, hx, hy⟩
                · cases hc
                · rcases hy with rfl | ⟨hxb, hyl⟩ | ⟨r2, hr2⟩
                  · exact hx
                  · exfalso
                    rcases hwfU x (hnd1 x hx).1 with ⟨_, hbwf⟩ | hot
                    · exact memberWF_ne_acc (hbwf.2.1 a hyl) ha
                    · exact (hot x (Reach.refl x)).1 hxb
                  · exfalso
                    rw [hr2] at ha
                    exact closeUOp_op_ne_acc r2 ha
              have hrnd : r ∈ nd := hstep a r (Reach.step hr (Reach.refl r)) hand
              exact hndout r hrnd (by rw [hrop] ; decide) (by rw [hrop] ; decide)
          · rw [if_neg hlop] at h
            cases h

theorem topoOk_split : ∀ (p1 pre p2 : List UOp) (y : UOp),
    topoOk pre (p1 ++ y :: p2) → y.op ≠ OpK.DEFINE_ACC →
    ∀ w ∈ y.src, w ∈ pre ++ p1
  | [], pre, p2, y, h, hy, w, hw => by
    simpa using h.1 hy w hw
  | z :: p1, pre, p2, y, h, hy, w, hw => by
    have h2 := topoOk_split p1 (pre ++ [z]) p2 y h.2 hy w hw
    simpa [List.append_assoc] using h2

theorem accOk_split : ∀ (p1 pre p2 : List UOp) (a : UOp),
    accOk pre (p1 ++ a :: p2) → a.op = OpK.DEFINE_ACC →
    ∀ r ∈ a.src, r.op = OpK.RANGE → r ∉ pre ++ p1
  | [], pre, p2, a, h, ha, r, hr, hrop => by
    have h2 := h.1 ha r hr hrop
    simpa using h2
  | z :: p1, pre, p2, a, h, ha, r, hr, hrop => by
    have h2 := accOk_split p1 (pre ++ [z]) p2 a h.2 ha r hr hrop
    simpa [List.append_assoc] using h2

theorem closeOk_split : ∀ (p1 pre p2 : List UOp) (y : UOp),
    closeOk pre (p1 ++ y :: p2) → (y.op = OpK.ENDRANGE ∨ y.op = OpK.ENDIF) →
    ∀ r ∈ y.src, (pre ++ p1).count (closeUOp r) < (pre ++ p1).count r
  | [], pre, p2, y, h, hy, r, hr => by
    simpa using h.1 hy r hr
  | z :: p1, pre, p2, y, h, hy, r, hr => by
    have h2 := closeOk_split p1 (pre ++ [z]) p2 y h.2 hy r hr
    simpa [List.append_assoc] using h2

/-- C1 (amended): on a well-formed input, the sequence returned by
`linearize_uop` is topologically valid for every instruction except
`DEFINE_ACC` nodes: every operand of a non-`DEFINE_ACC` element occurs at an
earlier position.  (`DEFINE_ACC` nodes are exempt: the source splices them in
before their earliest `RANGE` operand, ahead of their other operands.) -/
theorem C1_theorem (g : UOp) (fuel : Nat) (out : List UOp)
    (h1 : PlainSink g) (h2 : linearizeUop fuel g = .ok out) :
    ∀ p1 y p2, out = p1 ++ y :: p2 → y.op ≠ OpK.DEFINE_ACC →
    ∀ w ∈ y.src, w ∈ p1 := by
  intro p1 y p2 he hy w hw
  have hfacts := linearizeUop_ok_facts (plainSink_WFroot h1) h2
  have htopo := scanOk_topo [] out hfacts.1
  rw [he] at htopo
  have h3 := topoOk_split p1 [] p2 y htopo hy w hw
  simpa using h3

/-- C1 witness: the topological guarantee instantiated on the
accumulator-update graph. -/
theorem C1_witness :
    PlainSink accSink ∧
    (∀ p1 y p2, (linearizeUop 40 accSink).toOption.getD [] = p1 ++ y :: p2 →
      y.op ≠ OpK.DEFINE_ACC → ∀ w ∈ y.src, w ∈ p1) :=
  ⟨by decide, C1_theorem accSink 40 _ (by decide) (by rfl)⟩

/-- C2 (amended): every close instruction (`ENDRANGE`/`ENDIF`) in the
returned sequence refers to a scope that is open at that point — the scope
node has strictly more occurrences than its close instruction in the
preceding prefix.  (Full balance fails: scopes can be left open at the end,
and closes need not be in LIFO order.) -/
theorem C2_theorem (g : UOp) (fuel : Nat) (out : List UOp)
    (h1 : PlainSink g) (h2 : linearizeUop fuel g = .ok out) :
    ∀ p1 y p2, out = p1 ++ y :: p2 →
    (y.op = OpK.ENDRANGE ∨ y.op = OpK.ENDIF) →
    ∀ r ∈ y.src, p1.count (closeUOp r) < p1.count r := by
  intro p1 y p2 he hy r hr
  have hfacts := linearizeUop_ok_facts (plainSink_WFroot h1) h2
  have hclose := scanOk_close [] out hfacts.1
  rw [he] at hclose
  have h3 := closeOk_split p1 [] p2 y hclose hy r hr
  simpa using h3

/-- C2 witness: the close-validity guarantee instantiated on the
simple-chain scenario graph (whose output closes its one `RANGE`). -/
theorem C2_witness :
    PlainSink chainSink ∧
    (∀ p1 y p2, (linearizeUop 40 chainSink).toOption.getD [] = p1 ++ y :: p2 →
      (y.op = OpK.ENDRANGE ∨ y.op = OpK.ENDIF) →
      ∀ r ∈ y.src, p1.count (closeUOp r) < p1.count r) :=
  ⟨by decide, C2_theorem chainSink 40 _ (by decide) (by rfl)⟩

/-- C7 (amended): every `DEFINE_ACC` in the returned sequence precedes every
`RANGE` among its operands (none occurs before it, each occurs after it);
by C1-style topological validity it also precedes every non-`DEFINE_ACC`
reader.  ("Immediately before the earliest `RANGE`" fails when another
`DEFINE_ACC` is spliced in between.) -/
theorem C7_theorem (g : UOp) (fuel : Nat) (out : List UOp)
    (h1 : PlainSink g) (h2 : linearizeUop fuel g = .ok out) :
    ∀ p1 a p2, out = p1 ++ a :: p2 → a.op = OpK.DEFINE_ACC →
    ∀ r ∈ a.src, r.op = OpK.RANGE → r ∉ p1 ∧ r ∈ p2 := by
  intro p1 a p2 he ha r hr hrop
  have hfacts := linearizeUop_ok_facts (plainSink_WFroot h1) h2
  have hacc := scanOk_acc [] out hfacts.1
  rw [he] at hacc
  have hnotp1 : r ∉ p1 := by
    have h3 := accOk_split p1 [] p2 a hacc ha r hr hrop
    simpa using h3
  refine ⟨hnotp1, ?_⟩
  have hain : a ∈ out := by
    rw [he]
    exact List.mem_append_right _ (List.mem_cons_self _ _)
  have hrin : r ∈ out := hfacts.2.2 a hain ha r hr hrop
  rw [he] at hrin
  rcases List.mem_append.1 hrin with h4 | h4
  · exact absurd h4 hnotp1
  · rcases List.mem_cons.1 h4 with rfl | h5
    · rw [hrop] at ha
      cases ha
    · exact h5

/-- C7 witness: the placement guarantee instantiated on the two-accumulator
graph. -/
theorem C7_witness :
    PlainSink twoAccSink ∧
    (∀ p1 a p2, (linearizeUop 40 twoAccSink).toOption.getD [] = p1 ++ a :: p2 →
      a.op = OpK.DEFINE_ACC →
      ∀ r ∈ a.src, r.op = OpK.RANGE → r ∉ p1 ∧ r ∈ p2) :=
  ⟨by decide, C7_theorem twoAccSink 40 _ (by decide) (by rfl)⟩

/-- C10: on a well-formed input graph, if `linearize_uop` returns normally
then every `DEFINE_ACC` reachable from the sink has at least one `RANGE`
operand; contrapositively, an input containing a rangeless `DEFINE_ACC`
always errors (the minimum over its `RANGE`-operand positions is taken over
an empty set). -/
theorem C10_theorem (g : UOp) (fuel : Nat) (out : List UOp) (a : UOp)
    (h1 : PlainSink g) (h2 : linearizeUop fuel g = .ok out)
    (h3 : a ∈ reachL g) (h4 : a.op = OpK.DEFINE_ACC) :
    ∃ r ∈ a.src, r.op = OpK.RANGE := by
  have hfacts := linearizeUop_ok_facts (plainSink_WFroot h1) h2
  exact (hfacts.2.1 a (reach_iff_mem_reachL.2 h3) h4).1

/-- C10 witness: the guarantee instantiated for the accumulator graph, whose
`DEFINE_ACC` indeed carries its `RANGE` operand. -/
theorem C10_witness :
    PlainSink accSink ∧ agAcc ∈ reachL accSink ∧ agAcc.op = OpK.DEFINE_ACC ∧
    (∃ r ∈ agAcc.src, r.op = OpK.RANGE) :=
  ⟨by decide, by decide, by decide,
    C10_theorem accSink 40 _ agAcc (by decide) (by rfl) (by decide) (by decide)⟩
